import Mathlib

/-!
# Verification development for the parallel graph kernels (BFS and PageRank)

Shallow embedding of `src/bfs/bfs.cpp` and `src/pagerank/page_rank.cpp`.

Modelling conventions.

* C `int` vertex ids, edge offsets and array indices are natural numbers (a well-formed
  CSR graph never holds a negative one); the entries of `distances` are integers because
  of the marker `-1`.  No arithmetic of the kernels can overflow on a graph whose sizes fit
  an `int`, so no wrap-around is modelled.
* A C array is a list; a read is `List.getD` and a write is `List.set`.
* A `vertex_set` is modelled by its live prefix `vertices[0..count)`: `count` is the length
  of the list, `vertices[count++] = x` appends `x`, and the bulk `memcpy` at the offset
  returned by the fetch-and-add appends the thread-local set.
* Every OpenMP region is executed by one thread that takes the loop indices in increasing
  order (the schedule of `OMP_NUM_THREADS=1`).
* `double` is modelled by exact rational arithmetic (`ℚ`); `abs` is the absolute value.
* The `while` loops of the drivers are run with a fuel that bounds the number of loop
  iterations; `none` means that the fuel ran out.
-/

namespace Asst4

/-! ## The graph view -/

/-- Modelled from the spec: the CSR graph record declared in `common/graph.h` (the header
is not among the source files). `outgoing_starts` and `incoming_starts` hold `num_nodes`
offsets into `outgoing_edges` and `incoming_edges`, which hold `num_edges` vertex ids each;
the range of a vertex ends where the range of the next vertex starts, and the range of the
last vertex ends at `num_edges`. -/
structure Graph where
  num_edges : Nat
  num_nodes : Nat
  outgoing_starts : List Nat
  outgoing_edges : List Nat
  incoming_starts : List Nat
  incoming_edges : List Nat
deriving DecidableEq

/-- The marker of an undiscovered vertex, `#define NOT_VISITED_MARKER -1`. -/
def NOT_VISITED_MARKER : Int := -1

/-- The root of every search, `#define ROOT_NODE_ID 0`. -/
def ROOT_NODE_ID : Nat := 0

/-- The expression `(node == g->num_nodes - 1) ? g->num_edges : starts[node + 1]` that the
steps use as the end of the edge range of `node`. -/
def end_edge (g : Graph) (starts : List Nat) (node : Nat) : Nat :=
  if node + 1 = g.num_nodes then g.num_edges else starts.getD (node + 1) 0

/-- The indices `start_edge, ..., end_edge - 1` visited by
`for (int neighbor = start_edge; neighbor < end_edge; neighbor++)` over the outgoing edges. -/
def outgoing_range (g : Graph) (node : Nat) : List Nat :=
  List.range' (g.outgoing_starts.getD node 0)
    (end_edge g g.outgoing_starts node - g.outgoing_starts.getD node 0)

/-- The indices visited by the same loop over the incoming edges. -/
def incoming_range (g : Graph) (node : Nat) : List Nat :=
  List.range' (g.incoming_starts.getD node 0)
    (end_edge g g.incoming_starts node - g.incoming_starts.getD node 0)

/-- The out-neighbours of `node` in the order of the edge array, with multiplicity. -/
def out_neighbors (g : Graph) (node : Nat) : List Nat :=
  (outgoing_range g node).map (fun k => g.outgoing_edges.getD k 0)

/-- The in-neighbours of `node` in the order of the edge array, with multiplicity. -/
def in_neighbors (g : Graph) (node : Nat) : List Nat :=
  (incoming_range g node).map (fun k => g.incoming_edges.getD k 0)

/-- The offsets `starts` describe `num_nodes` consecutive ranges inside `[0, num_edges]`. -/
def starts_ok (g : Graph) (starts : List Nat) : Prop :=
  starts.length = g.num_nodes ∧
  (∀ i, i < g.num_nodes → starts.getD i 0 ≤ end_edge g starts i) ∧
  (∀ i, i < g.num_nodes → end_edge g starts i ≤ g.num_edges)

/-- The edge array `edges` holds `num_edges` vertex ids, all in `[0, num_nodes)`. -/
def edges_ok (g : Graph) (edges : List Nat) : Prop :=
  edges.length = g.num_edges ∧ ∀ k, k < g.num_edges → edges.getD k 0 < g.num_nodes

/-- A well-formed CSR graph: both start arrays are non-decreasing and within
`[0, num_edges]`, and every edge target is in `[0, num_nodes)`. -/
def well_formed (g : Graph) : Prop :=
  starts_ok g g.outgoing_starts ∧ edges_ok g g.outgoing_edges ∧
  starts_ok g g.incoming_starts ∧ edges_ok g g.incoming_edges

/-- The incoming adjacency is the transpose of the outgoing one: the edge `u → v` occurs as
often in the outgoing list of `u` as `u` occurs in the incoming list of `v`. -/
def is_transpose (g : Graph) : Prop :=
  ∀ u, u < g.num_nodes → ∀ v, v < g.num_nodes →
    (out_neighbors g u).count v = (in_neighbors g v).count u

instance (g : Graph) (starts : List Nat) : Decidable (starts_ok g starts) := by
  unfold starts_ok; infer_instance

instance (g : Graph) (edges : List Nat) : Decidable (edges_ok g edges) := by
  unfold edges_ok; infer_instance

instance (g : Graph) : Decidable (well_formed g) := by
  unfold well_formed; infer_instance

instance (g : Graph) : Decidable (is_transpose g) := by
  unfold is_transpose; infer_instance

/-! ## Loops -/

/-- The loop `while (cond) body` run for at most `fuel` passes of its body; `none` when
the condition still holds after `fuel` passes. -/
def while_loop {σ : Type} (cond : σ → Bool) (body : σ → σ) : Nat → σ → Option σ
  | fuel, s =>
    if cond s then
      match fuel with
      | 0 => none
      | fuel + 1 => while_loop cond body fuel (body s)
    else some s

/-! ## The frontier buffer -/

/-- A frontier buffer. `vertices` is the live prefix `vertices[0..count)` of the C array. -/
structure vertex_set where
  max_vertices : Nat
  vertices : List Nat
deriving DecidableEq

/-- The field `count` of a frontier buffer. -/
def vertex_set.count (list : vertex_set) : Nat := list.vertices.length

/-- The function `vertex_set_clear`: `list->count = 0`. -/
def vertex_set_clear (list : vertex_set) : vertex_set :=
  { list with vertices := [] }

/-- The function `vertex_set_init`: capacity `count`, no vertex stored. -/
def vertex_set_init (count : Nat) : vertex_set :=
  vertex_set_clear { max_vertices := count, vertices := [] }

/-! ## The steps of the search -/

/-- One pass of the body of the neighbour loop of `top_down_step`: the compare-and-swap of
`distances[outgoing]` from the marker to `distances[node] + 1`, and on success
`local_set[count++] = outgoing`. The state is `(distances, local_set)`. -/
def top_down_visit (node outgoing : Nat) (st : List Int × List Nat) : List Int × List Nat :=
  if st.1.getD outgoing 0 = NOT_VISITED_MARKER then
    (st.1.set outgoing (st.1.getD node 0 + 1), st.2 ++ [outgoing])
  else st

/-- The body of the frontier loop of `top_down_step` for the frontier vertex `node`. -/
def top_down_node (g : Graph) (st : List Int × List Nat) (node : Nat) : List Int × List Nat :=
  (outgoing_range g node).foldl
    (fun st neighbor => top_down_visit node (g.outgoing_edges.getD neighbor 0) st) st

/-- The function `top_down_step`; it returns the new frontier and the distances. -/
def top_down_step (g : Graph) (frontier new_frontier : vertex_set) (distances : List Int) :
    vertex_set × List Int :=
  let st := frontier.vertices.foldl (top_down_node g) (distances, [])
  ({ new_frontier with vertices := new_frontier.vertices ++ st.2 }, st.1)

/-- The neighbour loop shared by `botton_up_step` and `bottom_up_step_2`: does the scan of
the edge indices `nbrs` meet an `incoming` with `distances[incoming] == iteration`?
(The loop leaves at the first hit.) -/
def bottom_up_scan (g : Graph) (distances : List Int) (iteration : Int) : List Nat → Bool
  | [] => false
  | neighbor :: rest =>
    if distances.getD (g.incoming_edges.getD neighbor 0) 0 = iteration then true
    else bottom_up_scan g distances iteration rest

/-- The body of the vertex loop of `botton_up_step`; the state is
`(distances, global_count)`. -/
def botton_up_node (g : Graph) (iteration : Int) (st : List Int × Int) (i : Nat) :
    List Int × Int :=
  if st.1.getD i 0 ≠ NOT_VISITED_MARKER then st
  else if bottom_up_scan g st.1 iteration (incoming_range g i) then
    (st.1.set i (iteration + 1), st.2 + 1)
  else st

/-- The function `botton_up_step`; it returns the distances and `global_count`. -/
def botton_up_step (g : Graph) (distances : List Int) (iteration : Int) : List Int × Int :=
  (List.range g.num_nodes).foldl (botton_up_node g iteration) (distances, 0)

/-- The body of the vertex loop of `bottom_up_step_2`; the state is
`(distances, local_set)`. -/
def bottom_up_node_2 (g : Graph) (iteration : Int) (st : List Int × List Nat) (i : Nat) :
    List Int × List Nat :=
  if st.1.getD i 0 ≠ NOT_VISITED_MARKER then st
  else if bottom_up_scan g st.1 iteration (incoming_range g i) then
    (st.1.set i (iteration + 1), st.2 ++ [i])
  else st

/-- The function `bottom_up_step_2`; it returns the new frontier and the distances. The
parameter `frontier` is not read, as in the source. -/
def bottom_up_step_2 (g : Graph) (_frontier new_frontier : vertex_set) (distances : List Int)
    (iteration : Int) : vertex_set × List Int :=
  let st := (List.range g.num_nodes).foldl (bottom_up_node_2 g iteration) (distances, [])
  ({ new_frontier with vertices := new_frontier.vertices ++ st.2 }, st.1)

/-! ## The drivers of the search -/

/-- The array `sol->distances` when a driver reaches its loop: the marker everywhere,
then `sol->distances[ROOT_NODE_ID] = 0`. -/
def init_distances (g : Graph) : List Int :=
  (List.replicate g.num_nodes NOT_VISITED_MARKER).set ROOT_NODE_ID 0

/-- The variables of `bfs_top_down` and `bfs_hybrid`. `bfs_top_down` does not use
`iteration` and `total_counter`; `steps` counts the calls of a step function. -/
structure bfs_state where
  frontier : vertex_set
  new_frontier : vertex_set
  distances : List Int
  iteration : Int
  total_counter : Int
  steps : Nat
deriving DecidableEq

/-- The state of `bfs_top_down` and of `bfs_hybrid` when the `while` loop is reached: all
distances set to the marker, the root in the frontier at distance 0. -/
def bfs_init (g : Graph) : bfs_state :=
  { frontier :=
      { (vertex_set_init g.num_nodes) with
        vertices := (vertex_set_init g.num_nodes).vertices ++ [ROOT_NODE_ID] }
    new_frontier := vertex_set_init g.num_nodes
    distances := init_distances g
    iteration := 0
    total_counter := 1
    steps := 0 }

/-- One pass of the body of the `while` loop of `bfs_top_down`. -/
def bfs_top_down_body (g : Graph) (s : bfs_state) : bfs_state :=
  let r := top_down_step g s.frontier (vertex_set_clear s.new_frontier) s.distances
  { s with frontier := r.1, new_frontier := s.frontier, distances := r.2,
           steps := s.steps + 1 }

/-- The `while (frontier->count != 0)` loop of `bfs_top_down`, at most `fuel` passes. -/
def bfs_top_down_loop (g : Graph) (fuel : Nat) (s : bfs_state) : Option bfs_state :=
  while_loop (fun s => decide (s.frontier.count ≠ 0)) (bfs_top_down_body g) fuel s

/-- The function `bfs_top_down`: the final `sol->distances`. -/
def bfs_top_down (g : Graph) (fuel : Nat) : Option (List Int) :=
  (bfs_top_down_loop g fuel (bfs_init g)).map (fun s => s.distances)

/-- One pass of the body of the `while` loop of `bfs_hybrid`. -/
def bfs_hybrid_body (g : Graph) (s : bfs_state) : bfs_state :=
  let r :=
    if (g.num_nodes : Int) - s.total_counter < (s.frontier.count : Int) then
      bottom_up_step_2 g s.frontier (vertex_set_clear s.new_frontier) s.distances s.iteration
    else
      top_down_step g s.frontier (vertex_set_clear s.new_frontier) s.distances
  { frontier := r.1, new_frontier := s.frontier, distances := r.2,
    iteration := s.iteration + 1, total_counter := s.total_counter + (r.1.count : Int),
    steps := s.steps + 1 }

/-- The `while (frontier->count != 0)` loop of `bfs_hybrid`, at most `fuel` passes. -/
def bfs_hybrid_loop (g : Graph) (fuel : Nat) (s : bfs_state) : Option bfs_state :=
  while_loop (fun s => decide (s.frontier.count ≠ 0)) (bfs_hybrid_body g) fuel s

/-- The function `bfs_hybrid`: the final `sol->distances`. -/
def bfs_hybrid (g : Graph) (fuel : Nat) : Option (List Int) :=
  (bfs_hybrid_loop g fuel (bfs_init g)).map (fun s => s.distances)

/-- The variables of `bfs_bottom_up`; `steps` counts the calls of `botton_up_step`. -/
structure bottom_up_state where
  distances : List Int
  iteration : Int
  cnt : Int
  steps : Nat
deriving DecidableEq

/-- The state of `bfs_bottom_up` when the `while` loop is reached. -/
def bottom_up_init (g : Graph) : bottom_up_state :=
  { distances := init_distances g
    iteration := 0
    cnt := 1
    steps := 0 }

/-- One pass of the body of the `while` loop of `bfs_bottom_up`. -/
def bfs_bottom_up_body (g : Graph) (s : bottom_up_state) : bottom_up_state :=
  let r := botton_up_step g s.distances s.iteration
  { distances := r.1, iteration := s.iteration + 1, cnt := r.2, steps := s.steps + 1 }

/-- The `while (cnt != 0)` loop of `bfs_bottom_up`, at most `fuel` passes. -/
def bfs_bottom_up_loop (g : Graph) (fuel : Nat) (s : bottom_up_state) :
    Option bottom_up_state :=
  while_loop (fun s => decide (s.cnt ≠ 0)) (bfs_bottom_up_body g) fuel s

/-- The function `bfs_bottom_up`: the final `sol->distances`. -/
def bfs_bottom_up (g : Graph) (fuel : Nat) : Option (List Int) :=
  (bfs_bottom_up_loop g fuel (bottom_up_init g)).map (fun s => s.distances)

/-! ## PageRank -/

/-- Modelled from the spec: the accessor `num_nodes` of `common/graph.h`. -/
def num_nodes (g : Graph) : Nat := g.num_nodes

/-- Modelled from the spec: the accessor `outgoing_size` of `common/graph.h`, the number of
entries of the outgoing range of `v`; `0` denotes a sink. -/
def outgoing_size (g : Graph) (v : Nat) : Nat := (out_neighbors g v).length

/-- Modelled from the spec: the entries between `incoming_begin(g, i)` and
`incoming_end(g, i)` of `common/graph.h`, the in-neighbours of `i`. -/
def incoming_list (g : Graph) (i : Nat) : List Nat := in_neighbors g i

/-- The array `sink_nodes[0..total_sink_nodes)` that `pageRank` fills before its loop. -/
def sink_nodes (g : Graph) : List Nat :=
  (List.range (num_nodes g)).filter (fun i => outgoing_size g i = 0)

/-- The initial contents of `solution`: `equal_prob = 1.0 / numNodes` everywhere. -/
def pageRank_init (g : Graph) : List ℚ :=
  List.replicate (num_nodes g) (1 / (num_nodes g : ℚ))

/-- The first reduction of the loop body:
`sinkScore = (sum of solution[sink_nodes[j]]) * damping / numNodes`. -/
def sink_score (g : Graph) (solution : List ℚ) (damping : ℚ) : ℚ :=
  (sink_nodes g).foldl (fun sinkScore j => sinkScore + solution.getD j 0) 0
    * damping / (num_nodes g : ℚ)

/-- The value stored in `score_new[i]` by the second loop of the body. A division by
`outgoing_size(g, v) = 0` is `0` here; on a graph whose incoming adjacency is the transpose
of the outgoing one no entry `v` of an incoming list has out-degree 0. -/
def score_new_entry (g : Graph) (solution : List ℚ) (damping sinkScore : ℚ) (i : Nat) : ℚ :=
  damping * (incoming_list g i).foldl
      (fun acc v => acc + solution.getD v 0 / (outgoing_size g v : ℚ)) 0
    + (1 - damping) / (num_nodes g : ℚ) + sinkScore

/-- The array `score_new` after the second loop of the body. -/
def score_new (g : Graph) (solution : List ℚ) (damping : ℚ) : List ℚ :=
  (List.range (num_nodes g)).map
    (score_new_entry g solution damping (sink_score g solution damping))

/-- The third loop of the body; the state is `(global_diff, solution)`. The call
`abs(score_new[i] - solution[i])` has a `double` argument and is the absolute value. -/
def diff_and_copy (g : Graph) (score_new solution : List ℚ) : ℚ × List ℚ :=
  (List.range (num_nodes g)).foldl
    (fun st i => (st.1 + |score_new.getD i 0 - st.2.getD i 0|, st.2.set i (score_new.getD i 0)))
    (0, solution)

/-- The variables of the loop of `pageRank`; `iterations` counts the passes made. -/
structure pr_state where
  solution : List ℚ
  converged : Bool
  iterations : Nat
deriving DecidableEq

/-- One pass of the body of `while (!converged)`. -/
def pageRank_body (g : Graph) (damping convergence : ℚ) (s : pr_state) : pr_state :=
  let r := diff_and_copy g (score_new g s.solution damping) s.solution
  { solution := r.2, converged := decide (r.1 < convergence), iterations := s.iterations + 1 }

/-- The `while (!converged)` loop of `pageRank`, at most `fuel` passes. -/
def pageRank_loop (g : Graph) (damping convergence : ℚ) (fuel : Nat) (s : pr_state) :
    Option pr_state :=
  while_loop (fun s => !s.converged) (pageRank_body g damping convergence) fuel s

/-- The function `pageRank` as a run of its loop from the uniform scores. -/
def pageRank_run (g : Graph) (damping convergence : ℚ) (fuel : Nat) : Option pr_state :=
  pageRank_loop g damping convergence fuel
    { solution := pageRank_init g, converged := false, iterations := 0 }

/-- The function `pageRank`: the final contents of `solution`. -/
def pageRank (g : Graph) (damping convergence : ℚ) (fuel : Nat) : Option (List ℚ) :=
  (pageRank_run g damping convergence fuel).map (fun s => s.solution)

/-! ## Example graphs -/

/-- The line graph `0→1→2→3→4`. -/
def line5 : Graph :=
  { num_edges := 4, num_nodes := 5
    outgoing_starts := [0, 1, 2, 3, 4], outgoing_edges := [1, 2, 3, 4]
    incoming_starts := [0, 0, 1, 2, 3], incoming_edges := [0, 1, 2, 3] }

/-- The graph on `{0,1,2}` with the single edge `0→1`. -/
def pair3 : Graph :=
  { num_edges := 1, num_nodes := 3
    outgoing_starts := [0, 1, 1], outgoing_edges := [1]
    incoming_starts := [0, 0, 1], incoming_edges := [0] }

/-- The cycle `0→1→2→0`. -/
def cycle3 : Graph :=
  { num_edges := 3, num_nodes := 3
    outgoing_starts := [0, 1, 2], outgoing_edges := [1, 2, 0]
    incoming_starts := [0, 1, 2], incoming_edges := [2, 0, 1] }

/-- The two-node mutual graph `0↔1`. -/
def mutual2 : Graph :=
  { num_edges := 2, num_nodes := 2
    outgoing_starts := [0, 1], outgoing_edges := [1, 0]
    incoming_starts := [0, 1], incoming_edges := [1, 0] }

/-- The graph `0→1, 0→2`, in which `1` and `2` are sinks. -/
def fork3 : Graph :=
  { num_edges := 2, num_nodes := 3
    outgoing_starts := [0, 2, 2], outgoing_edges := [1, 2]
    incoming_starts := [0, 0, 1], incoming_edges := [0, 0] }

/-- The graph on `{0,1}` with the self-loop `0→0` and the edge `0→1` twice. -/
def multi2 : Graph :=
  { num_edges := 3, num_nodes := 2
    outgoing_starts := [0, 3], outgoing_edges := [0, 1, 1]
    incoming_starts := [0, 1], incoming_edges := [0, 0, 0] }

/-- The graph `0→1, 0→2, 1→3, 2→3`; `bfs_hybrid` takes the top-down step at level 0 and
the bottom-up step at the levels 1 and 2. -/
def diamond4 : Graph :=
  { num_edges := 4, num_nodes := 4
    outgoing_starts := [0, 2, 3, 4], outgoing_edges := [1, 2, 3, 3]
    incoming_starts := [0, 0, 1, 2], incoming_edges := [0, 0, 1, 2] }

/-! ## Specification: hop distances -/

/-- The relation `Walk g k v`: a directed walk of `k` edges leads from the root to `v`. -/
inductive Walk (g : Graph) : Nat → Nat → Prop
  | root : Walk g 0 ROOT_NODE_ID
  | step {k u v : Nat} : Walk g k u → v ∈ out_neighbors g u → Walk g (k + 1) v

/-- The vertex `v` can be reached from the root. -/
def reachable (g : Graph) (v : Nat) : Prop := ∃ k, Walk g k v

/-- The length of a shortest directed path from the root to `v` is `d`. -/
def hop_distance (g : Graph) (v d : Nat) : Prop :=
  Walk g d v ∧ ∀ k, k < d → ¬ Walk g k v

/-! ## Specification: what one step does -/

/-- The pairs `(node, outgoing)` that `top_down_step` passes to its compare-and-swap, in
the order in which one thread meets them. -/
def td_pairs (g : Graph) (F : List Nat) : List (Nat × Nat) :=
  F.flatMap (fun node => (out_neighbors g node).map (fun v => (node, v)))

/-- What a run of compare-and-swaps at the targets `targets`, started from the distances
`D` with an empty local set, leaves behind when every source is at distance `L`. -/
structure TDChar (L : Int) (D : List Int) (targets : List Nat) (st : List Int × List Nat) :
    Prop where
  len : st.1.length = D.length
  val : ∀ v, st.1.getD v 0 = if D.getD v 0 = -1 ∧ v ∈ targets then L + 1 else D.getD v 0
  nodup : st.2.Nodup
  mem : ∀ v, v ∈ st.2 ↔ (D.getD v 0 = -1 ∧ v ∈ targets)

/-- The test of the bottom-up steps: some entry of the incoming list of `v` is at distance
`L` in `D`. -/
def has_parent (g : Graph) (D : List Int) (L : Int) (v : Nat) : Bool :=
  bottom_up_scan g D L (incoming_range g v)

/-- What the vertex loop of a bottom-up step, run over the vertices `is` from the distances
`D` with an empty local set, leaves behind. -/
structure BUChar (g : Graph) (L : Int) (D : List Int) (is : List Nat)
    (st : List Int × List Nat) : Prop where
  len : st.1.length = D.length
  val : ∀ v, st.1.getD v 0 =
    if D.getD v 0 = -1 ∧ v ∈ is ∧ has_parent g D L v = true then L + 1 else D.getD v 0
  loc : st.2 = is.filter (fun v => decide (D.getD v 0 = -1) && has_parent g D L v)

/-! ## Specification: the invariants of the levels -/

/-- The distances after the levels `0, ..., L - 1` are done: exactly the vertices at hop
distance at most `L` hold their hop distance, all others hold the marker. -/
structure DistInv (g : Graph) (L : Nat) (D : List Int) : Prop where
  len : D.length = g.num_nodes
  range : ∀ v, v < g.num_nodes → D.getD v 0 = -1 ∨ ∃ d : Nat, d ≤ L ∧ D.getD v 0 = (d : Int)
  dist : ∀ v, v < g.num_nodes → ∀ d : Nat,
    D.getD v 0 = (d : Int) ↔ (d ≤ L ∧ hop_distance g v d)

/-- The distances `D'` arise from `D` by one level: the unvisited vertices with a parent
at distance `L` get the distance `L + 1`, all other entries stay. -/
structure NextD (g : Graph) (L : Nat) (D D' : List Int) : Prop where
  len : D'.length = D.length
  hit : ∀ v, v < g.num_nodes → D.getD v 0 = -1 →
    (∃ u, u < g.num_nodes ∧ D.getD u 0 = (L : Int) ∧ v ∈ out_neighbors g u) →
    D'.getD v 0 = (L : Int) + 1
  miss : ∀ v, v < g.num_nodes →
    ¬ (D.getD v 0 = -1 ∧ ∃ u, u < g.num_nodes ∧ D.getD u 0 = (L : Int) ∧ v ∈ out_neighbors g u) →
    D'.getD v 0 = D.getD v 0

/-- The frontier `F` holds distinct vertices, all at distance `L` in `D`. -/
structure FrontInv (g : Graph) (L : Nat) (F : List Nat) (D : List Int) : Prop where
  len : D.length = g.num_nodes
  level : ∀ v, v ∈ F → v < g.num_nodes ∧ D.getD v 0 = (L : Int)
  nodup : F.Nodup

/-- The state of `bfs_top_down` or `bfs_hybrid` at the entry of level `L`: the distances
are those of the levels below `L`, and the frontier holds exactly the vertices at
distance `L`, each once. -/
structure LevelInv (g : Graph) (L : Nat) (s : bfs_state) : Prop where
  dist : DistInv g L s.distances
  front : ∀ v, v ∈ s.frontier.vertices ↔ (v < g.num_nodes ∧ s.distances.getD v 0 = (L : Int))
  nodup : s.frontier.vertices.Nodup

/-- The state of `bfs_bottom_up` at the entry of level `L`: the distances are those of the
levels below `L`, and `cnt` is zero exactly when no vertex is at distance `L`. -/
structure BottomUpInv (g : Graph) (L : Nat) (s : bottom_up_state) : Prop where
  dist : DistInv g L s.distances
  iter : s.iteration = (L : Int)
  cnt : s.cnt = 0 ↔ ∀ v, v < g.num_nodes → s.distances.getD v 0 ≠ (L : Int)

/-! ## Specification: the PageRank recurrence -/

/-- The scores in `solution` after `k` passes of the loop of `pageRank`. -/
def pr_scores (g : Graph) (damping : ℚ) : Nat → List ℚ
  | 0 => pageRank_init g
  | k + 1 => score_new g (pr_scores g damping k) damping

/-- The L1 change `sum over i of |a[i] - b[i]|` between two score vectors. -/
def l1_change (g : Graph) (a b : List ℚ) : ℚ :=
  ∑ i ∈ Finset.range (num_nodes g), |a.getD i 0 - b.getD i 0|

/-- The value `Delta_k` of `global_diff` in pass `k` (the first pass is pass 0). -/
def pr_delta (g : Graph) (damping : ℚ) (k : Nat) : ℚ :=
  l1_change g (pr_scores g damping (k + 1)) (pr_scores g damping k)

/-- The sink mass of the specification:
`S = damping * (sum of s[v] over the vertices v with out-degree 0) / N`. -/
def spec_sink_mass (g : Graph) (s : List ℚ) (damping : ℚ) : ℚ :=
  damping * (∑ v ∈ (Finset.range (num_nodes g)).filter (fun v => outgoing_size g v = 0),
    s.getD v 0) / (num_nodes g : ℚ)

/-- The update of the specification:
`s'[i] = damping * (sum over the incoming list of i of s[u] / outdeg(u)) + (1 - damping)/N + S`. -/
def spec_score_next (g : Graph) (s : List ℚ) (damping : ℚ) (i : Nat) : ℚ :=
  damping * ((incoming_list g i).map (fun u => s.getD u 0 / (outgoing_size g u : ℚ))).sum
    + (1 - damping) / (num_nodes g : ℚ) + spec_sink_mass g s damping

/-! ## Specification: counts and the invariants of the buffers -/

/-- The number of vertices `v` with `distances[v] != -1`. -/
def visited_count (g : Graph) (D : List Int) : Nat :=
  ((List.range g.num_nodes).filter (fun v => decide (D.getD v 0 ≠ NOT_VISITED_MARKER))).length

/-- The number of vertices `v` with `distances[v] == -1`. -/
def unvisited_count (g : Graph) (D : List Int) : Nat :=
  ((List.range g.num_nodes).filter (fun v => decide (D.getD v 0 = NOT_VISITED_MARKER))).length

/-- Every entry of the distances `D` is the marker or one of `0, ..., L`. -/
structure RangeInv (g : Graph) (L : Nat) (D : List Int) : Prop where
  len : D.length = g.num_nodes
  range : ∀ v, v < g.num_nodes → D.getD v 0 = -1 ∨ ∃ d : Nat, d ≤ L ∧ D.getD v 0 = (d : Int)

/-- The buffers of `bfs_top_down` or `bfs_hybrid` at the entry of level `L`, on any
well-formed graph: the entries of `distances` are the marker or at most `L`, the frontier
holds exactly the vertices at distance `L`, each once, and both buffers have the capacity
`num_nodes` and hold distinct vertex ids below `num_nodes`. -/
structure BufferInv (g : Graph) (L : Nat) (s : bfs_state) : Prop where
  range : RangeInv g L s.distances
  front : ∀ v, v ∈ s.frontier.vertices ↔ (v < g.num_nodes ∧ s.distances.getD v 0 = (L : Int))
  nodup : s.frontier.vertices.Nodup
  cap : s.frontier.max_vertices = g.num_nodes
  cap_new : s.new_frontier.max_vertices = g.num_nodes
  new_lt : ∀ v, v ∈ s.new_frontier.vertices → v < g.num_nodes
  new_nodup : s.new_frontier.vertices.Nodup

/-- The further variables of `bfs_hybrid` at the entry of level `L`: `iteration` is `L` and
`total_counter` is the number of visited vertices. -/
structure HybridInv (g : Graph) (L : Nat) (s : bfs_state) : Prop where
  buffers : BufferInv g L s
  iter : s.iteration = (L : Int)
  total : s.total_counter = (visited_count g s.distances : Int)

/-! ## Lemmas -/

theorem getD_set {α : Type} (l : List α) (i j : Nat) (a d : α) :
    (l.set i a).getD j d = if i = j ∧ i < l.length then a else l.getD j d := by
  simp only [List.getD_eq_getElem?_getD, List.getElem?_set]
  by_cases h : i = j
  · subst h
    by_cases h2 : i < l.length
    · simp [h2]
    · simp [h2, List.getElem?_eq_none (Nat.le_of_not_lt h2)]
  · simp [h]

theorem getD_of_length_le (l : List Int) (i : Nat) (h : l.length ≤ i) : l.getD i 0 = 0 := by
  simp [List.getD_eq_getElem?_getD, List.getElem?_eq_none h]

theorem top_down_fold_pairs (g : Graph) (F : List Nat) (st : List Int × List Nat) :
    F.foldl (top_down_node g) st
      = (td_pairs g F).foldl (fun st p => top_down_visit p.1 p.2 st) st := by
  induction F generalizing st with
  | nil => rfl
  | cons a F ih =>
    simp only [List.foldl_cons, td_pairs, List.flatMap_cons, List.foldl_append]
    rw [ih]
    congr 1
    simp [top_down_node, out_neighbors, List.foldl_map]

theorem mem_td_targets (g : Graph) (F : List Nat) (v : Nat) :
    v ∈ (td_pairs g F).map Prod.snd ↔ ∃ u, u ∈ F ∧ v ∈ out_neighbors g u := by
  simp only [td_pairs, List.mem_map, List.mem_flatMap, Prod.exists]
  constructor
  · rintro ⟨a, b, ⟨u, hu, w, hw, hp⟩, rfl⟩
    simp only [Prod.mk.injEq] at hp
    obtain ⟨rfl, rfl⟩ := hp
    exact ⟨u, hu, hw⟩
  · rintro ⟨u, hu, hv⟩
    exact ⟨u, v, ⟨u, hu, v, hv, rfl⟩, rfl⟩

theorem fst_mem_td_pairs (g : Graph) (F : List Nat) (p : Nat × Nat) (hp : p ∈ td_pairs g F) :
    p.1 ∈ F ∧ p.2 ∈ out_neighbors g p.1 := by
  simp only [td_pairs, List.mem_flatMap, List.mem_map] at hp
  obtain ⟨u, hu, w, hw, rfl⟩ := hp
  exact ⟨hu, hw⟩

theorem td_char (L : Int) (hL : 0 ≤ L) (D : List Int) (ps : List (Nat × Nat))
    (hsrc : ∀ p ∈ ps, D.getD p.1 0 = L) (htgt : ∀ p ∈ ps, p.2 < D.length) :
    TDChar L D (ps.map Prod.snd) (ps.foldl (fun st p => top_down_visit p.1 p.2 st) (D, [])) := by
  induction ps using List.reverseRecOn with
  | nil => exact ⟨rfl, by simp, by simp, by simp⟩
  | append_singleton ps p ih =>
    have ih := ih (fun q hq => hsrc q (by simp [hq])) (fun q hq => htgt q (by simp [hq]))
    have hp1 : D.getD p.1 0 = L := hsrc p (by simp)
    have hp2 : p.2 < D.length := htgt p (by simp)
    rw [List.foldl_append]
    set st := ps.foldl (fun st p => top_down_visit p.1 p.2 st) (D, []) with hst
    simp only [List.foldl_cons, List.foldl_nil, List.map_append, List.map_cons, List.map_nil]
    have hsrcval : st.1.getD p.1 0 = L := by
      rw [ih.val, hp1]; have : ¬ (L = -1) := by omega
      simp [this]
    unfold top_down_visit
    by_cases hc : st.1.getD p.2 0 = NOT_VISITED_MARKER
    · rw [if_pos hc]
      have hc2 := hc
      rw [ih.val, NOT_VISITED_MARKER] at hc2
      have hD : D.getD p.2 0 = -1 ∧ p.2 ∉ ps.map Prod.snd := by
        by_cases h : D.getD p.2 0 = -1 ∧ p.2 ∈ ps.map Prod.snd
        · rw [if_pos h] at hc2; omega
        · rw [if_neg h] at hc2
          exact ⟨hc2, fun hm => h ⟨hc2, hm⟩⟩
      refine ⟨by simp [ih.len], ?_, ?_, ?_⟩
      · intro v
        simp only [getD_set, hsrcval, ih.len]
        by_cases hv : p.2 = v
        · subst hv
          rw [if_pos ⟨rfl, hp2⟩, if_pos ⟨hD.1, by simp⟩]
        · have hv2 : ¬ v = p.2 := fun h => hv h.symm
          simp only [hv, false_and, if_false, ih.val, List.mem_append, List.mem_singleton, hv2,
            or_false]
      · rw [List.nodup_append]
        refine ⟨ih.nodup, by simp, ?_⟩
        intro a ha hb
        simp only [List.mem_singleton] at hb
        subst hb
        exact hD.2 ((ih.mem _).1 ha).2
      · intro v
        simp only [List.mem_append, List.mem_singleton, ih.mem]
        constructor
        · rintro (⟨h1, h2⟩ | rfl)
          · exact ⟨h1, Or.inl h2⟩
          · exact ⟨hD.1, Or.inr rfl⟩
        · rintro ⟨h1, h2 | rfl⟩
          · exact Or.inl ⟨h1, h2⟩
          · exact Or.inr rfl
    · rw [if_neg hc]
      have hc2 := hc
      rw [ih.val, NOT_VISITED_MARKER] at hc2
      have hD : D.getD p.2 0 = -1 → p.2 ∈ ps.map Prod.snd := by
        intro h
        by_contra hm
        rw [if_neg (fun hh => hm hh.2)] at hc2
        exact hc2 h
      refine ⟨ih.len, ?_, ih.nodup, ?_⟩
      · intro v
        rw [ih.val]
        by_cases h1 : D.getD v 0 = -1 ∧ v ∈ ps.map Prod.snd
        · rw [if_pos h1, if_pos ⟨h1.1, by simp [h1.2]⟩]
        · rw [if_neg h1, if_neg]
          rintro ⟨h2, h3⟩
          rw [List.mem_append, List.mem_singleton] at h3
          rcases h3 with h3 | h3
          · exact h1 ⟨h2, h3⟩
          · rw [h3] at h2 h1
            exact h1 ⟨h2, hD h2⟩
      · intro v
        rw [ih.mem]
        constructor
        · rintro ⟨h1, h2⟩; exact ⟨h1, by simp [h2]⟩
        · rintro ⟨h1, h3⟩
          rw [List.mem_append, List.mem_singleton] at h3
          rcases h3 with h3 | h3
          · exact ⟨h1, h3⟩
          · rw [h3] at h1 ⊢
            exact ⟨h1, hD h1⟩

theorem csr_entry_lt (g : Graph) (starts edges : List Nat) (hs : starts_ok g starts)
    (he : edges_ok g edges) (u v : Nat)
    (hv : v ∈ (List.range' (starts.getD u 0) (end_edge g starts u - starts.getD u 0)).map
      (fun k => edges.getD k 0)) : v < g.num_nodes := by
  rw [List.mem_map] at hv
  obtain ⟨k, hk, rfl⟩ := hv
  rw [List.mem_range'] at hk
  obtain ⟨i, hi, rfl⟩ := hk
  apply he.2
  by_cases hu : u < g.num_nodes
  · have := hs.2.2 u hu
    omega
  · exfalso
    have h1 : starts.getD u 0 = 0 := by
      rw [List.getD_eq_getElem?_getD, List.getElem?_eq_none (by rw [hs.1]; omega)]; rfl
    have h2 : end_edge g starts u = 0 := by
      unfold end_edge
      rw [if_neg (by omega), List.getD_eq_getElem?_getD,
        List.getElem?_eq_none (by rw [hs.1]; omega)]; rfl
    omega

theorem out_neighbors_lt (g : Graph) (hg : well_formed g) (u v : Nat)
    (hv : v ∈ out_neighbors g u) : v < g.num_nodes :=
  csr_entry_lt g _ _ hg.1 hg.2.1 u v hv

theorem in_neighbors_lt (g : Graph) (hg : well_formed g) (u v : Nat)
    (hv : v ∈ in_neighbors g u) : v < g.num_nodes :=
  csr_entry_lt g _ _ hg.2.2.1 hg.2.2.2 u v hv

theorem mem_in_iff_mem_out (g : Graph) (hg : well_formed g) (ht : is_transpose g) (u v : Nat)
    (hv : v < g.num_nodes) : u ∈ in_neighbors g v ↔ (u < g.num_nodes ∧ v ∈ out_neighbors g u) := by
  constructor
  · intro h
    have hu := in_neighbors_lt g hg v u h
    refine ⟨hu, ?_⟩
    rw [← List.count_pos_iff, ht u hu v hv, List.count_pos_iff]
    exact h
  · rintro ⟨hu, h⟩
    rw [← List.count_pos_iff, ← ht u hu v hv, List.count_pos_iff]
    exact h

/-- The result of `top_down_step` when every frontier vertex is at distance `L`. -/
theorem top_down_step_char (g : Graph) (hg : well_formed g) (L : Int) (hL : 0 ≤ L)
    (F nf : vertex_set) (D : List Int) (hlen : D.length = g.num_nodes)
    (hF : ∀ u ∈ F.vertices, D.getD u 0 = L) :
    ∃ loc, (top_down_step g F nf D).1 = { nf with vertices := nf.vertices ++ loc } ∧
      TDChar L D ((td_pairs g F.vertices).map Prod.snd) ((top_down_step g F nf D).2, loc) := by
  refine ⟨(F.vertices.foldl (top_down_node g) (D, [])).2, rfl, ?_⟩
  have h := td_char L hL D (td_pairs g F.vertices)
    (fun p hp => hF p.1 (fst_mem_td_pairs g _ p hp).1)
    (fun p hp => by
      rw [hlen]; exact out_neighbors_lt g hg p.1 p.2 (fst_mem_td_pairs g _ p hp).2)
  rw [← top_down_fold_pairs] at h
  exact h

theorem bottom_up_scan_iff (g : Graph) (D : List Int) (L : Int) (nbrs : List Nat) :
    bottom_up_scan g D L nbrs = true ↔
      ∃ k, k ∈ nbrs ∧ D.getD (g.incoming_edges.getD k 0) 0 = L := by
  induction nbrs with
  | nil => simp [bottom_up_scan]
  | cons a nbrs ih =>
    unfold bottom_up_scan
    by_cases h : D.getD (g.incoming_edges.getD a 0) 0 = L
    · rw [if_pos h]
      exact ⟨fun _ => ⟨a, by simp, h⟩, fun _ => rfl⟩
    · rw [if_neg h, ih]
      constructor
      · rintro ⟨k, hk, hk2⟩
        exact ⟨k, by simp [hk], hk2⟩
      · rintro ⟨k, hk, hk2⟩
        rw [List.mem_cons] at hk
        rcases hk with rfl | hk
        · exact absurd hk2 h
        · exact ⟨k, hk, hk2⟩

theorem has_parent_iff (g : Graph) (D : List Int) (L : Int) (v : Nat) :
    has_parent g D L v = true ↔ ∃ u, u ∈ in_neighbors g v ∧ D.getD u 0 = L := by
  unfold has_parent in_neighbors
  rw [bottom_up_scan_iff]
  constructor
  · rintro ⟨k, hk, h⟩
    exact ⟨_, List.mem_map.2 ⟨k, hk, rfl⟩, h⟩
  · rintro ⟨u, hu, h⟩
    obtain ⟨k, hk, rfl⟩ := List.mem_map.1 hu
    exact ⟨k, hk, h⟩

theorem has_parent_congr (g : Graph) (D1 D2 : List Int) (L : Int) (v : Nat)
    (h : ∀ u, D1.getD u 0 = L ↔ D2.getD u 0 = L) : has_parent g D1 L v = has_parent g D2 L v := by
  rw [Bool.eq_iff_iff, has_parent_iff, has_parent_iff]
  constructor
  · rintro ⟨u, hu, hu2⟩; exact ⟨u, hu, (h u).1 hu2⟩
  · rintro ⟨u, hu, hu2⟩; exact ⟨u, hu, (h u).2 hu2⟩

theorem bu_char (g : Graph) (L : Int) (hL : 0 ≤ L) (D : List Int) (is : List Nat)
    (hnd : is.Nodup) :
    BUChar g L D is (is.foldl (bottom_up_node_2 g L) (D, [])) := by
  induction is using List.reverseRecOn with
  | nil => exact ⟨rfl, by simp, by simp⟩
  | append_singleton is i ih =>
    rw [List.nodup_append] at hnd
    have hi : i ∉ is := fun h => hnd.2.2 h (by simp)
    have ih := ih hnd.1
    rw [List.foldl_append]
    set st := is.foldl (bottom_up_node_2 g L) (D, []) with hst
    simp only [List.foldl_cons, List.foldl_nil]
    have hsti : st.1.getD i 0 = D.getD i 0 := by
      rw [ih.val, if_neg (fun h => hi h.2.1)]
    have hpar : has_parent g st.1 L i = has_parent g D L i := by
      apply has_parent_congr
      intro u
      rw [ih.val]
      by_cases h : D.getD u 0 = -1 ∧ u ∈ is ∧ has_parent g D L u = true
      · rw [if_pos h, h.1]; constructor <;> intro h2 <;> omega
      · rw [if_neg h]
    have hnode : bottom_up_node_2 g L st i =
        if D.getD i 0 ≠ -1 then st
        else if has_parent g D L i = true then (st.1.set i (L + 1), st.2 ++ [i]) else st := by
      show (if st.1.getD i 0 ≠ NOT_VISITED_MARKER then st
        else if has_parent g st.1 L i = true then _ else st) = _
      rw [hsti, hpar]; rfl
    rw [hnode]
    by_cases h1 : D.getD i 0 = -1
    · rw [if_neg (not_not.2 h1)]
      by_cases h2 : has_parent g D L i = true
      · rw [if_pos h2]
        have hilen : i < st.1.length := by
          by_contra hc
          rw [ih.len] at hc
          rw [getD_of_length_le D i (Nat.le_of_not_lt hc)] at h1
          omega
        refine ⟨by simp [ih.len], ?_, ?_⟩
        · intro v
          rw [getD_set]
          by_cases hv : i = v
          · subst hv
            rw [if_pos ⟨rfl, hilen⟩, if_pos ⟨h1, by simp, h2⟩]
          · rw [if_neg (fun h => hv h.1), ih.val]
            have hv2 : ¬ v = i := fun h => hv h.symm
            simp only [List.mem_append, List.mem_singleton, hv2, or_false]
        · simp only [ih.loc, List.filter_append, List.filter_cons, List.filter_nil, h1, h2,
            decide_True, Bool.and_self, if_true]
      · rw [if_neg h2]
        refine ⟨ih.len, ?_, ?_⟩
        · intro v
          rw [ih.val]
          by_cases hv : v = i
          · rw [hv, if_neg (fun h => hi h.2.1), if_neg (fun h => h2 h.2.2)]
          · simp only [List.mem_append, List.mem_singleton, hv, or_false]
        · simp only [ih.loc, List.filter_append, List.filter_cons, List.filter_nil, h1, h2,
            decide_True, Bool.and_false, Bool.true_and, if_false, List.append_nil]
          simp
    · rw [if_pos h1]
      refine ⟨ih.len, ?_, ?_⟩
      · intro v
        rw [ih.val]
        by_cases hv : v = i
        · rw [hv, if_neg (fun h => hi h.2.1), if_neg (fun h => h1 h.1)]
        · simp only [List.mem_append, List.mem_singleton, hv, or_false]
      · simp only [ih.loc, List.filter_append, List.filter_cons, List.filter_nil, h1,
          decide_False, Bool.false_and, if_false, List.append_nil]
        simp

/-- The result of `bottom_up_step_2`. -/
theorem bottom_up_step_2_char (g : Graph) (L : Int) (hL : 0 ≤ L) (F nf : vertex_set)
    (D : List Int) :
    ∃ loc, (bottom_up_step_2 g F nf D L).1 = { nf with vertices := nf.vertices ++ loc } ∧
      BUChar g L D (List.range g.num_nodes) ((bottom_up_step_2 g F nf D L).2, loc) :=
  ⟨((List.range g.num_nodes).foldl (bottom_up_node_2 g L) (D, [])).2, rfl,
    bu_char g L hL D _ (List.nodup_range _)⟩

theorem botton_up_fold (g : Graph) (L : Int) (is : List Nat) (st : List Int × List Nat) :
    is.foldl (botton_up_node g L) (st.1, (st.2.length : Int))
      = ((is.foldl (bottom_up_node_2 g L) st).1,
          (((is.foldl (bottom_up_node_2 g L) st).2.length : Nat) : Int)) := by
  induction is generalizing st with
  | nil => rfl
  | cons i is ih =>
    simp only [List.foldl_cons]
    rw [← ih]
    congr 1
    unfold botton_up_node bottom_up_node_2
    by_cases h1 : st.1.getD i 0 ≠ NOT_VISITED_MARKER
    · simp only [if_pos h1]
    · simp only [if_neg h1]
      by_cases h2 : bottom_up_scan g st.1 L (incoming_range g i) = true
      · simp only [if_pos h2, List.length_append, List.length_singleton, Nat.cast_add,
          Nat.cast_one]
      · simp only [if_neg h2]

/-- The result of `botton_up_step`: the distances of `bottom_up_step_2` and the number of
vertices that `bottom_up_step_2` would have stored. -/
theorem botton_up_step_char (g : Graph) (L : Int) (hL : 0 ≤ L) (D : List Int) :
    ∃ loc : List Nat, (botton_up_step g D L).2 = (loc.length : Int) ∧
      BUChar g L D (List.range g.num_nodes) ((botton_up_step g D L).1, loc) := by
  have h := botton_up_fold g L (List.range g.num_nodes) (D, [])
  refine ⟨((List.range g.num_nodes).foldl (bottom_up_node_2 g L) (D, [])).2, ?_, ?_⟩
  · unfold botton_up_step
    simp only [List.length_nil, Nat.cast_zero] at h
    rw [h]
  · unfold botton_up_step
    simp only [List.length_nil, Nat.cast_zero] at h
    rw [h]
    exact bu_char g L hL D _ (List.nodup_range _)

theorem walk_lt (g : Graph) (hg : well_formed g) (hN : 1 ≤ g.num_nodes) (k v : Nat)
    (h : Walk g k v) : v < g.num_nodes := by
  cases h with
  | root => exact hN
  | step _ hv => exact out_neighbors_lt g hg _ _ hv

theorem walk_zero (g : Graph) (v : Nat) (h : Walk g 0 v) : v = ROOT_NODE_ID := by
  cases h; rfl

theorem hop_unique (g : Graph) (v d1 d2 : Nat) (h1 : hop_distance g v d1)
    (h2 : hop_distance g v d2) : d1 = d2 := by
  rcases Nat.lt_trichotomy d1 d2 with h | h | h
  · exact absurd h1.1 (h2.2 d1 h)
  · exact h
  · exact absurd h2.1 (h1.2 d2 h)

theorem exists_hop_of_walk (g : Graph) (k v : Nat) (h : Walk g k v) :
    ∃ d, d ≤ k ∧ hop_distance g v d := by
  classical
  have hex : ∃ d, Walk g d v := ⟨k, h⟩
  refine ⟨Nat.find hex, Nat.find_min' hex h, Nat.find_spec hex, ?_⟩
  intro j hj
  exact Nat.find_min hex hj

theorem hop_pred (g : Graph) (v d : Nat) (h : hop_distance g v (d + 1)) :
    ∃ u, hop_distance g u d ∧ v ∈ out_neighbors g u := by
  obtain ⟨hw, hmin⟩ := h
  cases hw with
  | step hu hv =>
    rename_i u
    refine ⟨u, ⟨hu, ?_⟩, hv⟩
    intro k hk hku
    exact hmin (k + 1) (by omega) (Walk.step hku hv)

theorem hop_exists_below (g : Graph) (d : Nat) :
    ∀ v, hop_distance g v d → ∀ j, j ≤ d → ∃ w, hop_distance g w j := by
  induction d with
  | zero =>
    intro v h j hj
    have : j = 0 := by omega
    subst this
    exact ⟨v, h⟩
  | succ d ih =>
    intro v h j hj
    by_cases hjd : j = d + 1
    · subst hjd; exact ⟨v, h⟩
    · obtain ⟨u, hu, _⟩ := hop_pred g v d h
      exact ih u hu j (by omega)

/-- Vertices at all hop distances `0, ..., L` exist only when `L < num_nodes`. -/
theorem hop_level_lt (g : Graph) (hg : well_formed g) (hN : 1 ≤ g.num_nodes) (v L : Nat)
    (h : hop_distance g v L) : L < g.num_nodes := by
  classical
  have hex : ∀ j : Fin (L + 1), ∃ w, hop_distance g w j :=
    fun j => hop_exists_below g L v h j (by omega)
  choose f hf using hex
  have hlt : ∀ j, f j < g.num_nodes := fun j => walk_lt g hg hN _ _ (hf j).1
  let F : Fin (L + 1) → Fin g.num_nodes := fun j => ⟨f j, hlt j⟩
  have hinj : Function.Injective F := by
    intro a b hab
    have hab2 : f a = f b := by
      have := congrArg Fin.val hab
      exact this
    have h1 := hf a
    rw [hab2] at h1
    exact Fin.ext (hop_unique g _ _ _ h1 (hf b))
  have := Fintype.card_le_of_injective F hinj
  simp only [Fintype.card_fin] at this
  omega

theorem init_distances_getD (g : Graph) (hN : 1 ≤ g.num_nodes) (v : Nat)
    (hv : v < g.num_nodes) :
    (init_distances g).getD v 0 = if v = 0 then 0 else -1 := by
  unfold init_distances ROOT_NODE_ID NOT_VISITED_MARKER
  rw [getD_set]
  by_cases h : v = 0
  · subst h
    rw [if_pos ⟨rfl, by simpa using hN⟩, if_pos rfl]
  · rw [if_neg (fun hh => h hh.1.symm), if_neg h, List.getD_eq_getElem?_getD,
      List.getElem?_replicate, if_pos hv]
    rfl

theorem distInv_init (g : Graph) (hN : 1 ≤ g.num_nodes) : DistInv g 0 (init_distances g) := by
  refine ⟨by simp [init_distances], ?_, ?_⟩
  · intro v hv
    rw [init_distances_getD g hN v hv]
    by_cases h : v = 0
    · right; exact ⟨0, le_refl _, by simp [h]⟩
    · left; simp [h]
  · intro v hv d
    rw [init_distances_getD g hN v hv]
    by_cases h : v = 0
    · subst h
      rw [if_pos rfl]
      constructor
      · intro hd
        have : d = 0 := by omega
        subst this
        exact ⟨le_refl _, Walk.root, fun k hk => absurd hk (Nat.not_lt_zero k)⟩
      · rintro ⟨hd, _⟩
        have : d = 0 := by omega
        subst this; rfl
    · rw [if_neg h]
      constructor
      · intro hd; omega
      · rintro ⟨hd, hw, _⟩
        have : d = 0 := by omega
        subst this
        exact absurd (walk_zero g v hw) h

theorem distInv_unvisited (g : Graph) (L : Nat) (D : List Int) (h : DistInv g L D) (v : Nat)
    (hv : v < g.num_nodes) (hD : D.getD v 0 = -1) (d : Nat) (hd : d ≤ L) :
    ¬ Walk g d v := by
  intro hw
  obtain ⟨d', hd', hhop⟩ := exists_hop_of_walk g d v hw
  have := (h.dist v hv d').2 ⟨by omega, hhop⟩
  omega

theorem distInv_next (g : Graph) (hg : well_formed g) (hN : 1 ≤ g.num_nodes) (L : Nat)
    (D D' : List Int) (h : DistInv g L D) (hn : NextD g L D D') : DistInv g (L + 1) D' := by
  classical
  have key : ∀ v, v < g.num_nodes →
      (D.getD v 0 = -1 ∧ ∃ u, u < g.num_nodes ∧ D.getD u 0 = (L : Int) ∧ v ∈ out_neighbors g u)
        → hop_distance g v (L + 1) := by
    rintro v hv ⟨h1, u, hu, hu1, hu2⟩
    have hhu := ((h.dist u hu L).1 hu1).2
    refine ⟨Walk.step hhu.1 hu2, ?_⟩
    intro k hk
    exact distInv_unvisited g L D h v hv h1 k (by omega)
  have key2 : ∀ v, v < g.num_nodes → hop_distance g v (L + 1) →
      (D.getD v 0 = -1 ∧ ∃ u, u < g.num_nodes ∧ D.getD u 0 = (L : Int) ∧ v ∈ out_neighbors g u) := by
    intro v hv hh
    constructor
    · rcases h.range v hv with h1 | ⟨d, hd, h1⟩
      · exact h1
      · have := hop_unique g v _ _ ((h.dist v hv d).1 h1).2 hh
        omega
    · obtain ⟨u, hu, huv⟩ := hop_pred g v L hh
      have hult := walk_lt g hg hN _ _ hu.1
      exact ⟨u, hult, (h.dist u hult L).2 ⟨le_refl _, hu⟩, huv⟩
  refine ⟨by rw [hn.len, h.len], ?_, ?_⟩
  · intro v hv
    by_cases hc : D.getD v 0 = -1 ∧
        ∃ u, u < g.num_nodes ∧ D.getD u 0 = (L : Int) ∧ v ∈ out_neighbors g u
    · right
      exact ⟨L + 1, le_refl _, by rw [hn.hit v hv hc.1 hc.2]; push_cast; rfl⟩
    · rw [hn.miss v hv hc]
      rcases h.range v hv with h1 | ⟨d, hd, h1⟩
      · exact Or.inl h1
      · exact Or.inr ⟨d, by omega, h1⟩
  · intro v hv d
    by_cases hc : D.getD v 0 = -1 ∧
        ∃ u, u < g.num_nodes ∧ D.getD u 0 = (L : Int) ∧ v ∈ out_neighbors g u
    · rw [hn.hit v hv hc.1 hc.2]
      have hh := key v hv hc
      constructor
      · intro hd
        have : d = L + 1 := by omega
        subst this
        exact ⟨le_refl _, hh⟩
      · rintro ⟨_, hd⟩
        have := hop_unique g v _ _ hd hh
        subst this; push_cast; rfl
    · rw [hn.miss v hv hc, h.dist v hv d]
      constructor
      · rintro ⟨h1, h2⟩; exact ⟨by omega, h2⟩
      · rintro ⟨h1, h2⟩
        refine ⟨?_, h2⟩
        by_contra hlt
        have : d = L + 1 := by omega
        subst this
        exact hc (key2 v hv h2)

/-- When no vertex is at distance `L`, the distances are the hop distances. -/
theorem distInv_final (g : Graph) (hg : well_formed g) (hN : 1 ≤ g.num_nodes) (L : Nat)
    (D : List Int) (h : DistInv g L D)
    (hempty : ∀ v, v < g.num_nodes → D.getD v 0 ≠ (L : Int)) :
    ∀ v, v < g.num_nodes →
      (∀ d, hop_distance g v d → D.getD v 0 = (d : Int)) ∧
      (D.getD v 0 = -1 ↔ ¬ reachable g v) := by
  have hsmall : ∀ w d, hop_distance g w d → d < L := by
    intro w d hd
    by_contra hge
    obtain ⟨x, hx⟩ := hop_exists_below g d w hd L (by omega)
    have hxlt := walk_lt g hg hN _ _ hx.1
    exact hempty x hxlt ((h.dist x hxlt L).2 ⟨le_refl _, hx⟩)
  intro v hv
  constructor
  · intro d hd
    exact (h.dist v hv d).2 ⟨by have := hsmall v d hd; omega, hd⟩
  · constructor
    · rintro h1 ⟨k, hk⟩
      obtain ⟨d, _, hd⟩ := exists_hop_of_walk g k v hk
      have := (h.dist v hv d).2 ⟨by have := hsmall v d hd; omega, hd⟩
      omega
    · intro hnr
      rcases h.range v hv with h1 | ⟨d, _, h1⟩
      · exact h1
      · exact absurd ⟨d, ((h.dist v hv d).1 h1).2.1⟩ hnr

/-- A vertex at distance `L` under the level invariant forces `L < num_nodes`. -/
theorem distInv_level_lt (g : Graph) (hg : well_formed g) (hN : 1 ≤ g.num_nodes) (L : Nat)
    (D : List Int) (h : DistInv g L D) (v : Nat) (hv : v < g.num_nodes)
    (hD : D.getD v 0 = (L : Int)) : L < g.num_nodes :=
  hop_level_lt g hg hN v L ((h.dist v hv L).1 hD).2

/-- Two arrays that both hold the hop distances are equal. -/
theorem final_unique (g : Graph) (D1 D2 : List Int) (h1 : D1.length = g.num_nodes)
    (h2 : D2.length = g.num_nodes)
    (hD1 : ∀ v, v < g.num_nodes →
      (∀ d, hop_distance g v d → D1.getD v 0 = (d : Int)) ∧ (D1.getD v 0 = -1 ↔ ¬ reachable g v))
    (hD2 : ∀ v, v < g.num_nodes →
      (∀ d, hop_distance g v d → D2.getD v 0 = (d : Int)) ∧ (D2.getD v 0 = -1 ↔ ¬ reachable g v)) :
    D1 = D2 := by
  apply List.ext_getElem (by rw [h1, h2])
  intro v hv1 hv2
  have hv : v < g.num_nodes := by rw [← h1]; exact hv1
  have e1 : D1.getD v 0 = D1[v] := by
    rw [List.getD_eq_getElem?_getD, List.getElem?_eq_getElem hv1]; rfl
  have e2 : D2.getD v 0 = D2[v] := by
    rw [List.getD_eq_getElem?_getD, List.getElem?_eq_getElem hv2]; rfl
  rw [← e1, ← e2]
  by_cases hr : reachable g v
  · obtain ⟨k, hk⟩ := hr
    obtain ⟨d, _, hd⟩ := exists_hop_of_walk g k v hk
    rw [(hD1 v hv).1 d hd, (hD2 v hv).1 d hd]
  · rw [(hD1 v hv).2.2 hr, (hD2 v hv).2.2 hr]

/-- The top-down step advances the distances by one level. -/
theorem nextD_of_tdchar (g : Graph) (L : Nat) (F : List Nat) (D : List Int)
    (st : List Int × List Nat)
    (hF : ∀ v, v ∈ F ↔ (v < g.num_nodes ∧ D.getD v 0 = (L : Int)))
    (h : TDChar (L : Int) D ((td_pairs g F).map Prod.snd) st) : NextD g L D st.1 := by
  refine ⟨h.len, ?_, ?_⟩
  · rintro v _ h1 ⟨u, hu, hu1, hu2⟩
    rw [h.val, if_pos ⟨h1, (mem_td_targets g F v).2 ⟨u, (hF u).2 ⟨hu, hu1⟩, hu2⟩⟩]
  · intro v _ hc
    rw [h.val, if_neg]
    rintro ⟨h1, h2⟩
    obtain ⟨u, hu, hu2⟩ := (mem_td_targets g F v).1 h2
    exact hc ⟨h1, u, ((hF u).1 hu).1, ((hF u).1 hu).2, hu2⟩

/-- The bottom-up steps advance the distances by one level on a transposed graph. -/
theorem nextD_of_buchar (g : Graph) (hg : well_formed g) (ht : is_transpose g) (L : Nat)
    (D : List Int) (st : List Int × List Nat)
    (h : BUChar g (L : Int) D (List.range g.num_nodes) st) : NextD g L D st.1 := by
  refine ⟨h.len, ?_, ?_⟩
  · rintro v hv h1 ⟨u, hu, hu1, hu2⟩
    have hp : has_parent g D (L : Int) v = true :=
      (has_parent_iff g D L v).2 ⟨u, (mem_in_iff_mem_out g hg ht u v hv).2 ⟨hu, hu2⟩, hu1⟩
    rw [h.val, if_pos ⟨h1, List.mem_range.2 hv, hp⟩]
  · intro v hv hc
    rw [h.val, if_neg]
    rintro ⟨h1, _, h2⟩
    rw [has_parent_iff] at h2
    obtain ⟨u, hu, hu1⟩ := h2
    have := (mem_in_iff_mem_out g hg ht u v hv).1 hu
    exact hc ⟨h1, u, this.1, hu1, this.2⟩

theorem while_loop_zero {σ : Type} (cond : σ → Bool) (body : σ → σ) (s : σ) :
    while_loop cond body 0 s = if cond s then none else some s := by
  rw [while_loop]

theorem while_loop_succ {σ : Type} (cond : σ → Bool) (body : σ → σ) (fuel : Nat) (s : σ) :
    while_loop cond body (fuel + 1) s
      = if cond s then while_loop cond body fuel (body s) else some s := by
  rw [while_loop]

/-- A loop that returns has made some number `k ≤ fuel` of passes: the condition held
before each of them and fails in the state returned. -/
theorem while_loop_eq_some {σ : Type} (cond : σ → Bool) (body : σ → σ) (fuel : Nat) (s s' : σ) :
    while_loop cond body fuel s = some s' ↔
      ∃ k, k ≤ fuel ∧ s' = body^[k] s ∧ cond (body^[k] s) = false ∧
        ∀ j, j < k → cond (body^[j] s) = true := by
  induction fuel generalizing s with
  | zero =>
    rw [while_loop_zero]
    by_cases hc : cond s = true
    · rw [if_pos hc]
      constructor
      · intro h; exact absurd h (by simp)
      · rintro ⟨k, hk, _, h2, _⟩
        have : k = 0 := by omega
        subst this
        rw [Function.iterate_zero, id] at h2
        rw [h2] at hc; exact absurd hc (by simp)
    · rw [if_neg hc]
      constructor
      · intro h
        refine ⟨0, le_refl _, ?_, by simpa using hc, fun j hj => absurd hj (Nat.not_lt_zero j)⟩
        simpa using (Option.some.inj h).symm
      · rintro ⟨k, hk, h1, _, _⟩
        have : k = 0 := by omega
        subst this
        rw [h1]; rfl
  | succ fuel ih =>
    rw [while_loop_succ]
    by_cases hc : cond s = true
    · rw [if_pos hc, ih]
      constructor
      · rintro ⟨k, hk, h1, h2, h3⟩
        refine ⟨k + 1, by omega, h1, h2, ?_⟩
        intro j hj
        cases j with
        | zero => exact hc
        | succ j => exact h3 j (by omega)
      · rintro ⟨k, hk, h1, h2, h3⟩
        cases k with
        | zero =>
          rw [Function.iterate_zero, id] at h2
          rw [h2] at hc; exact absurd hc (by simp)
        | succ k =>
          exact ⟨k, by omega, h1, h2, fun j hj => h3 (j + 1) (by omega)⟩
    · rw [if_neg hc]
      constructor
      · intro h
        refine ⟨0, Nat.zero_le _, ?_, by simpa using hc, fun j hj => absurd hj (Nat.not_lt_zero j)⟩
        simpa using (Option.some.inj h).symm
      · rintro ⟨k, hk, h1, h2, h3⟩
        cases k with
        | zero => rw [h1]; rfl
        | succ k => exact absurd (h3 0 (by omega)) hc

/-- An invariant indexed by the number of passes holds in every state the body reaches. -/
theorem iterate_inv {σ : Type} (body : σ → σ) (Inv : Nat → σ → Prop)
    (hstep : ∀ L s, Inv L s → Inv (L + 1) (body s)) (s : σ) (h0 : Inv 0 s) (k : Nat) :
    Inv k (body^[k] s) := by
  induction k with
  | zero => exact h0
  | succ k ih =>
    rw [Function.iterate_succ_apply']
    exact hstep k _ ih

/-- A loop whose condition can hold only while the pass number is below `B` returns
within `B` passes. -/
theorem while_loop_terminates {σ : Type} (cond : σ → Bool) (body : σ → σ)
    (Inv : Nat → σ → Prop) (B : Nat)
    (hstep : ∀ L s, Inv L s → Inv (L + 1) (body s))
    (hbound : ∀ L s, Inv L s → cond s = true → L < B) (fuel : Nat) :
    ∀ L s, Inv L s → B ≤ L + fuel → ∃ s', while_loop cond body fuel s = some s' := by
  induction fuel with
  | zero =>
    intro L s hi hB
    rw [while_loop_zero]
    by_cases hc : cond s = true
    · have := hbound L s hi hc; omega
    · rw [if_neg hc]; exact ⟨s, rfl⟩
  | succ fuel ih =>
    intro L s hi hB
    rw [while_loop_succ]
    by_cases hc : cond s = true
    · rw [if_pos hc]
      exact ih (L + 1) (body s) (hstep L s hi) (by omega)
    · rw [if_neg hc]; exact ⟨s, rfl⟩

/-! ## One level of the drivers -/

theorem top_down_step_front (g : Graph) (hg : well_formed g) (L : Nat) (F nf : vertex_set)
    (D : List Int) (hnf : nf.vertices = []) (h : FrontInv g L F.vertices D) :
    FrontInv g (L + 1) (top_down_step g F nf D).1.vertices (top_down_step g F nf D).2 := by
  obtain ⟨loc, h1, hc⟩ := top_down_step_char g hg L (by omega) F nf D h.len
    (fun u hu => (h.level u hu).2)
  rw [h1, hnf]
  simp only [List.nil_append]
  refine ⟨by rw [← h.len]; exact hc.len, ?_, hc.nodup⟩
  intro v hv
  have hv2 := (hc.mem v).1 hv
  obtain ⟨u, _, hu2⟩ := (mem_td_targets g F.vertices v).1 hv2.2
  refine ⟨out_neighbors_lt g hg u v hu2, ?_⟩
  have := hc.val v
  rw [if_pos hv2] at this
  rw [this]; push_cast; rfl

theorem bottom_up_step_2_front (g : Graph) (L : Nat) (F nf : vertex_set)
    (D : List Int) (hnf : nf.vertices = []) (hlen : D.length = g.num_nodes) :
    FrontInv g (L + 1) (bottom_up_step_2 g F nf D L).1.vertices
      (bottom_up_step_2 g F nf D L).2 := by
  obtain ⟨loc, h1, hc⟩ := bottom_up_step_2_char g L (by omega) F nf D
  rw [h1, hnf]
  simp only [List.nil_append]
  have hloc := hc.loc
  simp only at hloc
  refine ⟨by rw [← hlen]; exact hc.len, ?_, ?_⟩
  · intro v hv
    rw [hloc, List.mem_filter, Bool.and_eq_true, decide_eq_true_eq] at hv
    refine ⟨List.mem_range.1 hv.1, ?_⟩
    have := hc.val v
    rw [if_pos ⟨hv.2.1, hv.1, hv.2.2⟩] at this
    rw [this]; push_cast; rfl
  · rw [hloc]
    exact (List.nodup_range _).filter _

/-- The frontier after a level holds exactly the vertices newly set to `L + 1`. -/
theorem front_next (g : Graph) (L : Nat) (D D' : List Int) (C : Nat → Prop)
    (h : DistInv g L D)
    (hhit : ∀ v, C v → D'.getD v 0 = (L : Int) + 1)
    (hmiss : ∀ v, ¬ C v → D'.getD v 0 = D.getD v 0)
    (hlt : ∀ v, C v → v < g.num_nodes) (v : Nat) :
    C v ↔ (v < g.num_nodes ∧ D'.getD v 0 = ((L + 1 : Nat) : Int)) := by
  constructor
  · intro hc
    exact ⟨hlt v hc, by rw [hhit v hc]; push_cast; rfl⟩
  · rintro ⟨hv, hd⟩
    by_contra hc
    rw [hmiss v hc] at hd
    rcases h.range v hv with h1 | ⟨d, hd1, h1⟩
    · rw [h1] at hd; omega
    · rw [h1] at hd
      have : d = L + 1 := by exact_mod_cast hd
      omega

theorem top_down_step_level (g : Graph) (hg : well_formed g) (hN : 1 ≤ g.num_nodes) (L : Nat)
    (F nf : vertex_set) (D : List Int) (hnf : nf.vertices = []) (hD : DistInv g L D)
    (hF : ∀ v, v ∈ F.vertices ↔ (v < g.num_nodes ∧ D.getD v 0 = (L : Int))) :
    DistInv g (L + 1) (top_down_step g F nf D).2 ∧
    (∀ v, v ∈ (top_down_step g F nf D).1.vertices ↔
      (v < g.num_nodes ∧ (top_down_step g F nf D).2.getD v 0 = ((L + 1 : Nat) : Int))) ∧
    (top_down_step g F nf D).1.vertices.Nodup := by
  obtain ⟨loc, h1, hc⟩ := top_down_step_char g hg L (by omega) F nf D hD.len
    (fun u hu => ((hF u).1 hu).2)
  rw [h1, hnf]
  simp only [List.nil_append]
  refine ⟨distInv_next g hg hN L D _ hD
    (nextD_of_tdchar g L F.vertices D ((top_down_step g F nf D).2, loc) hF hc), ?_,
    hc.nodup⟩
  intro v
  rw [hc.mem v]
  apply front_next g L D _ (fun v => D.getD v 0 = -1 ∧ v ∈ (td_pairs g F.vertices).map Prod.snd) hD
  · intro w hw
    have := hc.val w
    rw [if_pos hw] at this
    exact this
  · intro w hw
    have := hc.val w
    rw [if_neg hw] at this
    exact this
  · intro w hw
    obtain ⟨u, _, hu2⟩ := (mem_td_targets g F.vertices w).1 hw.2
    exact out_neighbors_lt g hg u w hu2

theorem bu_char_level (g : Graph) (hg : well_formed g) (ht : is_transpose g)
    (hN : 1 ≤ g.num_nodes) (L : Nat) (D : List Int) (st : List Int × List Nat)
    (hD : DistInv g L D) (hc : BUChar g (L : Int) D (List.range g.num_nodes) st) :
    DistInv g (L + 1) st.1 ∧
    (∀ v, v ∈ st.2 ↔ (v < g.num_nodes ∧ st.1.getD v 0 = ((L + 1 : Nat) : Int))) ∧
    st.2.Nodup := by
  refine ⟨distInv_next g hg hN L D _ hD (nextD_of_buchar g hg ht L D _ hc), ?_, ?_⟩
  · intro v
    have hmem : v ∈ st.2 ↔
        (D.getD v 0 = -1 ∧ v ∈ List.range g.num_nodes ∧ has_parent g D L v = true) := by
      rw [hc.loc, List.mem_filter, Bool.and_eq_true, decide_eq_true_eq]
      tauto
    rw [hmem]
    apply front_next g L D _
      (fun v => D.getD v 0 = -1 ∧ v ∈ List.range g.num_nodes ∧ has_parent g D L v = true) hD
    · intro w hw
      have := hc.val w
      rw [if_pos hw] at this
      exact this
    · intro w hw
      have := hc.val w
      rw [if_neg hw] at this
      exact this
    · intro w hw
      exact List.mem_range.1 hw.2.1
  · rw [hc.loc]
    exact (List.nodup_range _).filter _

theorem bottom_up_step_2_level (g : Graph) (hg : well_formed g) (ht : is_transpose g)
    (hN : 1 ≤ g.num_nodes) (L : Nat)
    (F nf : vertex_set) (D : List Int) (hnf : nf.vertices = []) (hD : DistInv g L D) :
    DistInv g (L + 1) (bottom_up_step_2 g F nf D L).2 ∧
    (∀ v, v ∈ (bottom_up_step_2 g F nf D L).1.vertices ↔
      (v < g.num_nodes ∧ (bottom_up_step_2 g F nf D L).2.getD v 0 = ((L + 1 : Nat) : Int))) ∧
    (bottom_up_step_2 g F nf D L).1.vertices.Nodup := by
  obtain ⟨loc, h1, hc⟩ := bottom_up_step_2_char g L (by omega) F nf D
  rw [h1, hnf]
  simp only [List.nil_append]
  exact bu_char_level g hg ht hN L D ((bottom_up_step_2 g F nf D L).2, loc) hD hc

theorem levelInv_init (g : Graph) (hN : 1 ≤ g.num_nodes) : LevelInv g 0 (bfs_init g) := by
  refine ⟨distInv_init g hN, ?_, ?_⟩
  · intro v
    show v ∈ [] ++ [ROOT_NODE_ID] ↔ (v < g.num_nodes ∧ (init_distances g).getD v 0 = ((0 : Nat) : Int))
    simp only [List.nil_append, List.mem_singleton, ROOT_NODE_ID]
    constructor
    · rintro rfl
      exact ⟨hN, by rw [init_distances_getD g hN 0 hN]; rfl⟩
    · rintro ⟨hv, hd⟩
      rw [init_distances_getD g hN v hv] at hd
      by_contra hne
      rw [if_neg hne] at hd
      simp at hd
  · show ([] ++ [ROOT_NODE_ID]).Nodup
    simp

theorem levelInv_top_down_body (g : Graph) (hg : well_formed g) (hN : 1 ≤ g.num_nodes)
    (L : Nat) (s : bfs_state) (h : LevelInv g L s) : LevelInv g (L + 1) (bfs_top_down_body g s) := by
  obtain ⟨h1, h2, h3⟩ := top_down_step_level g hg hN L s.frontier
    (vertex_set_clear s.new_frontier) s.distances rfl h.dist h.front
  exact ⟨h1, h2, h3⟩

theorem levelInv_hybrid_body (g : Graph) (hg : well_formed g) (ht : is_transpose g)
    (hN : 1 ≤ g.num_nodes) (L : Nat) (s : bfs_state)
    (h : LevelInv g L s ∧ s.iteration = (L : Int)) :
    LevelInv g (L + 1) (bfs_hybrid_body g s) ∧
      (bfs_hybrid_body g s).iteration = ((L + 1 : Nat) : Int) := by
  refine ⟨?_, by show s.iteration + 1 = _; rw [h.2]; push_cast; rfl⟩
  unfold bfs_hybrid_body
  by_cases hdir : (g.num_nodes : Int) - s.total_counter < (s.frontier.count : Int)
  · simp only [if_pos hdir]
    rw [h.2]
    obtain ⟨h1, h2, h3⟩ := bottom_up_step_2_level g hg ht hN L s.frontier
      (vertex_set_clear s.new_frontier) s.distances rfl h.1.dist
    exact ⟨h1, h2, h3⟩
  · simp only [if_neg hdir]
    obtain ⟨h1, h2, h3⟩ := top_down_step_level g hg hN L s.frontier
      (vertex_set_clear s.new_frontier) s.distances rfl h.1.dist h.1.front
    exact ⟨h1, h2, h3⟩

theorem levelInv_bound (g : Graph) (hg : well_formed g) (hN : 1 ≤ g.num_nodes) (L : Nat)
    (s : bfs_state) (h : LevelInv g L s) (hc : decide (s.frontier.count ≠ 0) = true) :
    L < g.num_nodes := by
  rw [decide_eq_true_eq] at hc
  have hne : s.frontier.vertices ≠ [] := by
    intro he; apply hc; unfold vertex_set.count; rw [he]; rfl
  obtain ⟨v, hv⟩ := List.exists_mem_of_ne_nil _ hne
  have := (h.front v).1 hv
  exact distInv_level_lt g hg hN L _ h.dist v this.1 this.2

theorem levelInv_final (g : Graph) (hg : well_formed g) (hN : 1 ≤ g.num_nodes) (L : Nat)
    (s : bfs_state) (h : LevelInv g L s) (hc : decide (s.frontier.count ≠ 0) = false) :
    s.distances.length = g.num_nodes ∧ ∀ v, v < g.num_nodes →
      (∀ d, hop_distance g v d → s.distances.getD v 0 = (d : Int)) ∧
      (s.distances.getD v 0 = -1 ↔ ¬ reachable g v) := by
  rw [decide_eq_false_iff_not, not_not] at hc
  have he : s.frontier.vertices = [] := List.length_eq_zero.1 hc
  refine ⟨h.dist.len, distInv_final g hg hN L _ h.dist ?_⟩
  intro v hv hd
  have := (h.front v).2 ⟨hv, hd⟩
  rw [he] at this
  exact absurd this (List.not_mem_nil v)

theorem bottomUpInv_init (g : Graph) (hN : 1 ≤ g.num_nodes) :
    BottomUpInv g 0 (bottom_up_init g) := by
  refine ⟨distInv_init g hN, rfl, ?_⟩
  constructor
  · intro h
    have h1 : (1 : Int) = 0 := h
    omega
  · intro h
    have h0 : (init_distances g).getD 0 0 = ((0 : Nat) : Int) := by
      rw [init_distances_getD g hN 0 hN]; rfl
    exact absurd h0 (h 0 hN)

theorem bottomUpInv_body (g : Graph) (hg : well_formed g) (ht : is_transpose g)
    (hN : 1 ≤ g.num_nodes) (L : Nat) (s : bottom_up_state) (h : BottomUpInv g L s) :
    BottomUpInv g (L + 1) (bfs_bottom_up_body g s) := by
  obtain ⟨loc, h1, hc⟩ := botton_up_step_char g L (by omega) s.distances
  obtain ⟨h2, h3, _⟩ := bu_char_level g hg ht hN L s.distances
    ((botton_up_step g s.distances L).1, loc) h.dist hc
  unfold bfs_bottom_up_body
  rw [h.iter]
  refine ⟨h2, by show (L : Int) + 1 = _; push_cast; rfl, ?_⟩
  show (botton_up_step g s.distances L).2 = 0 ↔ _
  rw [h1]
  constructor
  · intro hz v hv hd
    have hnil : loc = [] := List.length_eq_zero.1 (by exact_mod_cast hz)
    have := (h3 v).2 ⟨hv, hd⟩
    rw [hnil] at this
    exact absurd this (List.not_mem_nil v)
  · intro hall
    have hnil : loc = [] := by
      apply List.eq_nil_iff_forall_not_mem.2
      intro v hv
      exact hall v ((h3 v).1 hv).1 ((h3 v).1 hv).2
    rw [hnil]; rfl

theorem bottomUpInv_bound (g : Graph) (hg : well_formed g) (hN : 1 ≤ g.num_nodes) (L : Nat)
    (s : bottom_up_state) (h : BottomUpInv g L s) (hc : decide (s.cnt ≠ 0) = true) :
    L < g.num_nodes := by
  rw [decide_eq_true_eq] at hc
  have : ¬ ∀ v, v < g.num_nodes → s.distances.getD v 0 ≠ (L : Int) := fun hh => hc (h.cnt.2 hh)
  push_neg at this
  obtain ⟨v, hv, hd⟩ := this
  exact distInv_level_lt g hg hN L _ h.dist v hv hd

theorem bottomUpInv_final (g : Graph) (hg : well_formed g) (hN : 1 ≤ g.num_nodes) (L : Nat)
    (s : bottom_up_state) (h : BottomUpInv g L s) (hc : decide (s.cnt ≠ 0) = false) :
    s.distances.length = g.num_nodes ∧ ∀ v, v < g.num_nodes →
      (∀ d, hop_distance g v d → s.distances.getD v 0 = (d : Int)) ∧
      (s.distances.getD v 0 = -1 ↔ ¬ reachable g v) := by
  rw [decide_eq_false_iff_not, not_not] at hc
  exact ⟨h.dist.len, distInv_final g hg hN L _ h.dist (h.cnt.1 hc)⟩

/-! ## The runs of the drivers -/

theorem top_down_loop_terminates (g : Graph) (hg : well_formed g) (hN : 1 ≤ g.num_nodes) :
    ∃ s, bfs_top_down_loop g g.num_nodes (bfs_init g) = some s :=
  while_loop_terminates _ _ (LevelInv g) g.num_nodes
    (fun L s h => levelInv_top_down_body g hg hN L s h)
    (fun L s h hc => levelInv_bound g hg hN L s h hc) g.num_nodes 0 (bfs_init g)
    (levelInv_init g hN) (by omega)

theorem top_down_loop_final (g : Graph) (hg : well_formed g) (hN : 1 ≤ g.num_nodes)
    (fuel : Nat) (s : bfs_state) (h : bfs_top_down_loop g fuel (bfs_init g) = some s) :
    s.distances.length = g.num_nodes ∧ ∀ v, v < g.num_nodes →
      (∀ d, hop_distance g v d → s.distances.getD v 0 = (d : Int)) ∧
      (s.distances.getD v 0 = -1 ↔ ¬ reachable g v) := by
  obtain ⟨k, _, hs, hc, _⟩ := (while_loop_eq_some _ _ fuel _ s).1 h
  have hinv := iterate_inv (bfs_top_down_body g) (LevelInv g)
    (fun L s h => levelInv_top_down_body g hg hN L s h) (bfs_init g) (levelInv_init g hN) k
  rw [← hs] at hinv hc
  exact levelInv_final g hg hN k s hinv hc

theorem hybrid_loop_terminates (g : Graph) (hg : well_formed g) (ht : is_transpose g)
    (hN : 1 ≤ g.num_nodes) :
    ∃ s, bfs_hybrid_loop g g.num_nodes (bfs_init g) = some s :=
  while_loop_terminates _ _ (fun L s => LevelInv g L s ∧ s.iteration = (L : Int)) g.num_nodes
    (fun L s h => levelInv_hybrid_body g hg ht hN L s h)
    (fun L s h hc => levelInv_bound g hg hN L s h.1 hc) g.num_nodes 0 (bfs_init g)
    ⟨levelInv_init g hN, rfl⟩ (by omega)

theorem hybrid_loop_final (g : Graph) (hg : well_formed g) (ht : is_transpose g)
    (hN : 1 ≤ g.num_nodes)
    (fuel : Nat) (s : bfs_state) (h : bfs_hybrid_loop g fuel (bfs_init g) = some s) :
    s.distances.length = g.num_nodes ∧ ∀ v, v < g.num_nodes →
      (∀ d, hop_distance g v d → s.distances.getD v 0 = (d : Int)) ∧
      (s.distances.getD v 0 = -1 ↔ ¬ reachable g v) := by
  obtain ⟨k, _, hs, hc, _⟩ := (while_loop_eq_some _ _ fuel _ s).1 h
  have hinv := iterate_inv (bfs_hybrid_body g)
    (fun L s => LevelInv g L s ∧ s.iteration = (L : Int))
    (fun L s h => levelInv_hybrid_body g hg ht hN L s h) (bfs_init g)
    ⟨levelInv_init g hN, rfl⟩ k
  rw [← hs] at hinv hc
  exact levelInv_final g hg hN k s hinv.1 hc

theorem bottom_up_loop_terminates (g : Graph) (hg : well_formed g) (ht : is_transpose g)
    (hN : 1 ≤ g.num_nodes) :
    ∃ s, bfs_bottom_up_loop g g.num_nodes (bottom_up_init g) = some s :=
  while_loop_terminates _ _ (BottomUpInv g) g.num_nodes
    (fun L s h => bottomUpInv_body g hg ht hN L s h)
    (fun L s h hc => bottomUpInv_bound g hg hN L s h hc) g.num_nodes 0 (bottom_up_init g)
    (bottomUpInv_init g hN) (by omega)

theorem bottom_up_loop_final (g : Graph) (hg : well_formed g) (ht : is_transpose g)
    (hN : 1 ≤ g.num_nodes)
    (fuel : Nat) (s : bottom_up_state)
    (h : bfs_bottom_up_loop g fuel (bottom_up_init g) = some s) :
    s.distances.length = g.num_nodes ∧ ∀ v, v < g.num_nodes →
      (∀ d, hop_distance g v d → s.distances.getD v 0 = (d : Int)) ∧
      (s.distances.getD v 0 = -1 ↔ ¬ reachable g v) := by
  obtain ⟨k, _, hs, hc, _⟩ := (while_loop_eq_some _ _ fuel _ s).1 h
  have hinv := iterate_inv (bfs_bottom_up_body g) (BottomUpInv g)
    (fun L s h => bottomUpInv_body g hg ht hN L s h) (bottom_up_init g)
    (bottomUpInv_init g hN) k
  rw [← hs] at hinv hc
  exact bottomUpInv_final g hg hN k s hinv hc

theorem map_eq_some_distances {σ : Type} (f : σ → List Int) (o : Option σ) (D : List Int)
    (h : o.map f = some D) : ∃ s, o = some s ∧ f s = D := by
  cases o with
  | none => exact absurd h (by simp)
  | some s => exact ⟨s, rfl, by simpa using h⟩

theorem top_down_steps_iterate (g : Graph) (s : bfs_state) (k : Nat) :
    ((bfs_top_down_body g)^[k] s).steps = s.steps + k := by
  induction k with
  | zero => rfl
  | succ k ih =>
    rw [Function.iterate_succ_apply']
    show ((bfs_top_down_body g)^[k] s).steps + 1 = _
    rw [ih]; omega

theorem hybrid_steps_iterate (g : Graph) (s : bfs_state) (k : Nat) :
    ((bfs_hybrid_body g)^[k] s).steps = s.steps + k := by
  induction k with
  | zero => rfl
  | succ k ih =>
    rw [Function.iterate_succ_apply']
    show ((bfs_hybrid_body g)^[k] s).steps + 1 = _
    rw [ih]; omega

theorem bottom_up_steps_iterate (g : Graph) (s : bottom_up_state) (k : Nat) :
    ((bfs_bottom_up_body g)^[k] s).steps = s.steps + k := by
  induction k with
  | zero => rfl
  | succ k ih =>
    rw [Function.iterate_succ_apply']
    show ((bfs_bottom_up_body g)^[k] s).steps + 1 = _
    rw [ih]; omega

/-- A loop that returns made at most `B` passes when its condition can hold only while
the pass number is below `B`. -/
theorem while_loop_passes_le {σ : Type} (cond : σ → Bool) (body : σ → σ)
    (Inv : Nat → σ → Prop) (B : Nat)
    (hstep : ∀ L s, Inv L s → Inv (L + 1) (body s))
    (hbound : ∀ L s, Inv L s → cond s = true → L < B) (s : σ) (h0 : Inv 0 s)
    (fuel : Nat) (s' : σ) (h : while_loop cond body fuel s = some s') :
    ∃ k, k ≤ B ∧ s' = body^[k] s := by
  obtain ⟨k, _, hs, _, hj⟩ := (while_loop_eq_some cond body fuel s s').1 h
  refine ⟨k, ?_, hs⟩
  cases k with
  | zero => omega
  | succ k =>
    have := hbound k _ (iterate_inv body Inv hstep s h0 k) (hj k (by omega))
    omega

theorem frontInv_init (g : Graph) (hN : 1 ≤ g.num_nodes) :
    FrontInv g 0 (bfs_init g).frontier.vertices (bfs_init g).distances := by
  have h := levelInv_init g hN
  exact ⟨h.dist.len, fun v hv => (h.front v).1 hv, h.nodup⟩

theorem frontInv_top_down_body (g : Graph) (hg : well_formed g) (L : Nat) (s : bfs_state)
    (h : FrontInv g L s.frontier.vertices s.distances) :
    FrontInv g (L + 1) (bfs_top_down_body g s).frontier.vertices
      (bfs_top_down_body g s).distances :=
  top_down_step_front g hg L s.frontier (vertex_set_clear s.new_frontier) s.distances rfl h

theorem frontInv_hybrid_body (g : Graph) (hg : well_formed g) (L : Nat) (s : bfs_state)
    (h : FrontInv g L s.frontier.vertices s.distances ∧ s.iteration = (L : Int)) :
    FrontInv g (L + 1) (bfs_hybrid_body g s).frontier.vertices
        (bfs_hybrid_body g s).distances ∧
      (bfs_hybrid_body g s).iteration = ((L + 1 : Nat) : Int) := by
  refine ⟨?_, by show s.iteration + 1 = _; rw [h.2]; push_cast; rfl⟩
  unfold bfs_hybrid_body
  by_cases hdir : (g.num_nodes : Int) - s.total_counter < (s.frontier.count : Int)
  · simp only [if_pos hdir]
    rw [h.2]
    exact bottom_up_step_2_front g L s.frontier (vertex_set_clear s.new_frontier)
      s.distances rfl h.1.len
  · simp only [if_neg hdir]
    exact top_down_step_front g hg L s.frontier (vertex_set_clear s.new_frontier)
      s.distances rfl h.1

/-! ## PageRank: the loop body -/

theorem foldl_add_eq_sum {α : Type} (f : α → ℚ) (l : List α) (a : ℚ) :
    l.foldl (fun acc x => acc + f x) a = a + (l.map f).sum := by
  induction l generalizing a with
  | nil => simp
  | cons x l ih =>
    simp only [List.foldl_cons, List.map_cons, List.sum_cons]
    rw [ih]; ring

theorem score_new_length (g : Graph) (s : List ℚ) (d : ℚ) :
    (score_new g s d).length = num_nodes g := by
  simp [score_new]

theorem score_new_getD (g : Graph) (s : List ℚ) (d : ℚ) (i : Nat) (hi : i < num_nodes g) :
    (score_new g s d).getD i 0 = score_new_entry g s d (sink_score g s d) i := by
  unfold score_new
  rw [List.getD_eq_getElem?_getD, List.getElem?_map, List.getElem?_range hi]
  rfl

theorem pageRank_init_length (g : Graph) : (pageRank_init g).length = num_nodes g := by
  simp [pageRank_init]

theorem pageRank_init_getD (g : Graph) (i : Nat) (hi : i < num_nodes g) :
    (pageRank_init g).getD i 0 = 1 / (num_nodes g : ℚ) := by
  unfold pageRank_init
  rw [List.getD_eq_getElem?_getD, List.getElem?_replicate, if_pos hi]
  rfl

/-- The third loop of the body after its first `k` passes. -/
theorem diff_and_copy_upto (new sol : List ℚ) (k : Nat) :
    ((List.range k).foldl
      (fun st i => (st.1 + |new.getD i 0 - st.2.getD i 0|, st.2.set i (new.getD i 0)))
      ((0 : ℚ), sol)).1 = ∑ i ∈ Finset.range k, |new.getD i 0 - sol.getD i 0| ∧
    ((List.range k).foldl
      (fun st i => (st.1 + |new.getD i 0 - st.2.getD i 0|, st.2.set i (new.getD i 0)))
      ((0 : ℚ), sol)).2.length = sol.length ∧
    ∀ j, ((List.range k).foldl
      (fun st i => (st.1 + |new.getD i 0 - st.2.getD i 0|, st.2.set i (new.getD i 0)))
      ((0 : ℚ), sol)).2.getD j 0
        = if j < k ∧ j < sol.length then new.getD j 0 else sol.getD j 0 := by
  induction k with
  | zero => simp
  | succ k ih =>
    rw [List.range_succ, List.foldl_append]
    obtain ⟨ih1, ih2, ih3⟩ := ih
    simp only [List.foldl_cons, List.foldl_nil]
    refine ⟨?_, ?_, ?_⟩
    · rw [ih1, Finset.sum_range_succ, ih3 k, if_neg (by omega)]
    · rw [List.length_set, ih2]
    · intro j
      rw [getD_set, ih2, ih3 j]
      by_cases hjk : k = j
      · subst hjk
        by_cases hl : k < sol.length
        · rw [if_pos ⟨rfl, hl⟩, if_pos ⟨by omega, hl⟩]
        · rw [if_neg (fun h => hl h.2), if_neg (fun h => hl h.2), if_neg (fun h => hl h.2)]
      · rw [if_neg (fun h => hjk h.1)]
        by_cases hj : j < k ∧ j < sol.length
        · rw [if_pos hj, if_pos ⟨by omega, hj.2⟩]
        · rw [if_neg hj, if_neg]
          rintro ⟨h1, h2⟩
          exact hj ⟨by omega, h2⟩

theorem getD_ext (a b : List ℚ) (hlen : a.length = b.length)
    (h : ∀ j, j < a.length → a.getD j 0 = b.getD j 0) : a = b := by
  apply List.ext_getElem hlen
  intro j h1 h2
  have := h j h1
  rw [List.getD_eq_getElem?_getD, List.getD_eq_getElem?_getD, List.getElem?_eq_getElem h1,
    List.getElem?_eq_getElem h2] at this
  exact this

/-- The third loop of the body computes the L1 change and copies `score_new`. -/
theorem diff_and_copy_eq (g : Graph) (new sol : List ℚ) (hnew : new.length = num_nodes g)
    (hsol : sol.length = num_nodes g) :
    diff_and_copy g new sol = (l1_change g new sol, new) := by
  obtain ⟨h1, h2, h3⟩ := diff_and_copy_upto new sol (num_nodes g)
  unfold diff_and_copy
  apply Prod.ext
  · exact h1
  · apply getD_ext _ _ (by rw [h2, hsol, hnew])
    intro j hj
    rw [h2, hsol] at hj
    rw [h3 j, if_pos ⟨hj, by rw [hsol]; exact hj⟩]

theorem pageRank_body_eq (g : Graph) (d conv : ℚ) (s : pr_state)
    (hs : s.solution.length = num_nodes g) :
    pageRank_body g d conv s =
      { solution := score_new g s.solution d
        converged := decide (l1_change g (score_new g s.solution d) s.solution < conv)
        iterations := s.iterations + 1 } := by
  unfold pageRank_body
  rw [diff_and_copy_eq g _ _ (score_new_length g _ d) hs]

theorem pr_scores_length (g : Graph) (d : ℚ) (k : Nat) :
    (pr_scores g d k).length = num_nodes g := by
  cases k with
  | zero => exact pageRank_init_length g
  | succ k => exact score_new_length g _ d

/-- The state of `pageRank` after `k + 1` passes of its loop. -/
theorem pageRank_body_iterate (g : Graph) (d conv : ℚ) (k : Nat) :
    (pageRank_body g d conv)^[k + 1]
        { solution := pageRank_init g, converged := false, iterations := 0 } =
      { solution := pr_scores g d (k + 1)
        converged := decide (pr_delta g d k < conv)
        iterations := k + 1 } := by
  induction k with
  | zero =>
    rw [Function.iterate_one, pageRank_body_eq g d conv _ (pageRank_init_length g)]
    rfl
  | succ k ih =>
    rw [Function.iterate_succ_apply', ih,
      pageRank_body_eq g d conv _ (pr_scores_length g d (k + 1))]
    rfl

/-! ## PageRank: the update formula -/

theorem sink_nodes_sum (g : Graph) (f : Nat → ℚ) :
    ((sink_nodes g).map f).sum
      = ∑ v ∈ (Finset.range (num_nodes g)).filter (fun v => outgoing_size g v = 0), f v := by
  unfold sink_nodes
  rw [← List.sum_toFinset f ((List.nodup_range _).filter _)]
  congr 1
  ext v
  simp [List.mem_filter]

theorem sink_score_eq (g : Graph) (s : List ℚ) (d : ℚ) :
    sink_score g s d = spec_sink_mass g s d := by
  unfold sink_score spec_sink_mass
  rw [foldl_add_eq_sum (fun j => s.getD j 0), sink_nodes_sum]
  ring

theorem score_new_entry_eq (g : Graph) (s : List ℚ) (d : ℚ) (i : Nat) :
    score_new_entry g s d (sink_score g s d) i = spec_score_next g s d i := by
  unfold score_new_entry spec_score_next
  rw [foldl_add_eq_sum (fun v => s.getD v 0 / (outgoing_size g v : ℚ)), sink_score_eq]
  ring

theorem sum_range_getD (s : List ℚ) (n : Nat) (h : s.length = n) :
    ∑ u ∈ Finset.range n, s.getD u 0 = s.sum := by
  induction s generalizing n with
  | nil => subst h; simp
  | cons a t ih =>
    subst h
    rw [List.length_cons, Finset.sum_range_succ', List.sum_cons]
    simp only [List.getD_cons_succ, List.getD_cons_zero]
    rw [ih t.length rfl]; ring

/-! ## PageRank: conservation of mass -/

theorem list_sum_count (l : List Nat) (n : Nat) (f : Nat → ℚ) (h : ∀ a, a ∈ l → a < n) :
    (l.map f).sum = ∑ u ∈ Finset.range n, (l.count u : ℚ) * f u := by
  induction l with
  | nil => simp
  | cons a l ih =>
    rw [List.map_cons, List.sum_cons, ih (fun b hb => h b (List.mem_cons_of_mem a hb))]
    have ha : a < n := h a (List.mem_cons_self a l)
    have : ∀ u, (((a :: l).count u : Nat) : ℚ) * f u
        = (l.count u : ℚ) * f u + (if u = a then f u else 0) := by
      intro u
      rw [List.count_cons]
      by_cases hu : u = a
      · subst hu; simp; ring
      · have hu2 : ¬ (a == u) = true := by simpa using fun h => hu h.symm
        simp [hu, hu2]
    simp only [this, Finset.sum_add_distrib]
    rw [Finset.sum_ite_eq' (Finset.range n) a f, if_pos (Finset.mem_range.2 ha)]
    ring

theorem list_length_count (l : List Nat) (n : Nat) (h : ∀ a, a ∈ l → a < n) :
    (l.length : ℚ) = ∑ u ∈ Finset.range n, (l.count u : ℚ) := by
  have := list_sum_count l n (fun _ => 1) h
  simp only [List.map_const', List.sum_replicate, nsmul_eq_mul, mul_one] at this
  exact this

/-- Summing over all incoming lists is summing over all outgoing lists. -/
theorem sum_incoming_eq (g : Graph) (hg : well_formed g) (ht : is_transpose g) (f : Nat → ℚ) :
    ∑ i ∈ Finset.range (num_nodes g), ((incoming_list g i).map f).sum
      = ∑ u ∈ Finset.range (num_nodes g), (outgoing_size g u : ℚ) * f u := by
  have h1 : ∀ i, ((incoming_list g i).map f).sum
      = ∑ u ∈ Finset.range (num_nodes g), ((in_neighbors g i).count u : ℚ) * f u :=
    fun i => list_sum_count _ _ f (fun a ha => in_neighbors_lt g hg i a ha)
  simp only [h1]
  rw [Finset.sum_comm]
  apply Finset.sum_congr rfl
  intro u hu
  rw [← Finset.sum_mul]
  congr 1
  unfold outgoing_size
  rw [list_length_count (out_neighbors g u) (num_nodes g)
    (fun a ha => out_neighbors_lt g hg u a ha)]
  apply Finset.sum_congr rfl
  intro i hi
  rw [ht u (Finset.mem_range.1 hu) i (Finset.mem_range.1 hi)]

/-- The mass that the update hands on along the edges and from the sinks is the whole
mass. -/
theorem mass_identity (g : Graph) (hg : well_formed g) (ht : is_transpose g) (f : Nat → ℚ) :
    ∑ i ∈ Finset.range (num_nodes g),
        ((incoming_list g i).map (fun u => f u / (outgoing_size g u : ℚ))).sum
      + ∑ v ∈ (Finset.range (num_nodes g)).filter (fun v => outgoing_size g v = 0), f v
      = ∑ u ∈ Finset.range (num_nodes g), f u := by
  rw [sum_incoming_eq g hg ht, Finset.sum_filter, ← Finset.sum_add_distrib]
  apply Finset.sum_congr rfl
  intro u _
  by_cases h : outgoing_size g u = 0
  · rw [if_pos h, h]; simp
  · rw [if_neg h]
    have : (outgoing_size g u : ℚ) ≠ 0 := by exact_mod_cast h
    field_simp

theorem score_new_sum (g : Graph) (hg : well_formed g) (ht : is_transpose g)
    (hN : 1 ≤ num_nodes g) (s : List ℚ) (d : ℚ) (hs : s.length = num_nodes g) :
    (score_new g s d).sum = d * s.sum + (1 - d) := by
  rw [← sum_range_getD _ _ (score_new_length g s d), ← sum_range_getD s _ hs,
    ← mass_identity g hg ht (fun u => s.getD u 0)]
  have hN' : (num_nodes g : ℚ) ≠ 0 := by
    have : 0 < num_nodes g := hN
    exact_mod_cast this.ne'
  have : ∀ i ∈ Finset.range (num_nodes g), (score_new g s d).getD i 0
      = d * ((incoming_list g i).map (fun u => s.getD u 0 / (outgoing_size g u : ℚ))).sum
        + ((1 - d) / (num_nodes g : ℚ) + spec_sink_mass g s d) := by
    intro i hi
    rw [score_new_getD g s d i (Finset.mem_range.1 hi), score_new_entry_eq]
    unfold spec_score_next; ring
  rw [Finset.sum_congr rfl this, Finset.sum_add_distrib, Finset.sum_const, Finset.card_range,
    ← Finset.mul_sum]
  unfold spec_sink_mass
  simp only [nsmul_eq_mul]
  field_simp
  ring

theorem pageRank_init_sum (g : Graph) (hN : 1 ≤ num_nodes g) : (pageRank_init g).sum = 1 := by
  unfold pageRank_init
  have hN' : (num_nodes g : ℚ) ≠ 0 := by
    have : 0 < num_nodes g := hN
    exact_mod_cast this.ne'
  rw [List.sum_replicate, nsmul_eq_mul]
  field_simp

theorem pr_scores_sum (g : Graph) (hg : well_formed g) (ht : is_transpose g)
    (hN : 1 ≤ num_nodes g) (d : ℚ) (k : Nat) : (pr_scores g d k).sum = 1 := by
  induction k with
  | zero => exact pageRank_init_sum g hN
  | succ k ih =>
    show (score_new g (pr_scores g d k) d).sum = 1
    rw [score_new_sum g hg ht hN _ d (pr_scores_length g d k), ih]
    ring

theorem pageRank_iterate_solution (g : Graph) (d conv : ℚ) (k : Nat) :
    ((pageRank_body g d conv)^[k]
        { solution := pageRank_init g, converged := false, iterations := 0 }).solution
      = pr_scores g d k := by
  cases k with
  | zero => rfl
  | succ k => rw [pageRank_body_iterate]

/-- The runs of `pageRank` that return: the loop stops in the first pass `k` whose
`global_diff` is below `convergence`, with the scores of that pass. -/
theorem pageRank_run_eq_some (g : Graph) (d conv : ℚ) (fuel : Nat) (r : pr_state) :
    pageRank_run g d conv fuel = some r ↔
      ∃ k, k < fuel ∧ pr_delta g d k < conv ∧ (∀ j, j < k → ¬ pr_delta g d j < conv) ∧
        r = { solution := pr_scores g d (k + 1), converged := true, iterations := k + 1 } := by
  unfold pageRank_run pageRank_loop
  rw [while_loop_eq_some]
  constructor
  · rintro ⟨k', hk', hr, hc, hj⟩
    cases k' with
    | zero => exact absurd hc (by simp)
    | succ k =>
      rw [pageRank_body_iterate] at hr hc
      simp only [Bool.not_eq_false', decide_eq_true_eq] at hc
      refine ⟨k, by omega, hc, ?_, ?_⟩
      · intro j hjk hlt
        have := hj (j + 1) (by omega)
        rw [pageRank_body_iterate] at this
        simp only [Bool.not_eq_true', decide_eq_false_iff_not] at this
        exact this hlt
      · rw [hr]
        simp only [pr_state.mk.injEq, decide_eq_true_eq, and_true, true_and]
        exact hc
  · rintro ⟨k, hk, hc, hj, hr⟩
    refine ⟨k + 1, by omega, ?_, ?_, ?_⟩
    · rw [pageRank_body_iterate, hr]
      simp only [pr_state.mk.injEq, true_and, and_true]
      exact (decide_eq_true hc).symm
    · rw [pageRank_body_iterate]
      simp only [Bool.not_eq_false', decide_eq_true_eq]
      exact hc
    · intro j hjk
      cases j with
      | zero => rfl
      | succ j =>
        rw [pageRank_body_iterate]
        simp only [Bool.not_eq_true', decide_eq_false_iff_not]
        exact hj j (by omega)

/-! ## PageRank: contraction of the update -/

theorem abs_list_sum_le (l : List Nat) (f : Nat → ℚ) :
    |(l.map f).sum| ≤ (l.map (fun u => |f u|)).sum := by
  induction l with
  | nil => simp
  | cons a l ih =>
    simp only [List.map_cons, List.sum_cons]
    exact le_trans (abs_add _ _) (add_le_add_left ih _)

theorem list_sum_sub (l : List Nat) (f h : Nat → ℚ) :
    (l.map f).sum - (l.map h).sum = (l.map (fun u => f u - h u)).sum := by
  induction l with
  | nil => simp
  | cons a l ih =>
    simp only [List.map_cons, List.sum_cons]
    rw [← ih]; ring

/-- The update is a contraction of factor `damping` for the L1 distance. -/
theorem score_new_contract (g : Graph) (hg : well_formed g) (ht : is_transpose g)
    (hN : 1 ≤ num_nodes g) (d : ℚ) (hd : 0 ≤ d) (s t : List ℚ) :
    l1_change g (score_new g s d) (score_new g t d) ≤ d * l1_change g s t := by
  have hN' : (0 : ℚ) < (num_nodes g : ℚ) := by
    have : 0 < num_nodes g := hN
    exact_mod_cast this
  unfold l1_change
  rw [← mass_identity g hg ht (fun u => |s.getD u 0 - t.getD u 0|), mul_add, Finset.mul_sum]
  have hsplit : d * ∑ v ∈ (Finset.range (num_nodes g)).filter (fun v => outgoing_size g v = 0),
        |s.getD v 0 - t.getD v 0|
      = ∑ _i ∈ Finset.range (num_nodes g),
          d * (∑ v ∈ (Finset.range (num_nodes g)).filter (fun v => outgoing_size g v = 0),
            |s.getD v 0 - t.getD v 0|) / (num_nodes g : ℚ) := by
    rw [Finset.sum_const, Finset.card_range, nsmul_eq_mul]
    field_simp
  rw [hsplit, ← Finset.sum_add_distrib]
  apply Finset.sum_le_sum
  intro i hi
  rw [score_new_getD g s d i (Finset.mem_range.1 hi),
    score_new_getD g t d i (Finset.mem_range.1 hi), score_new_entry_eq, score_new_entry_eq]
  unfold spec_score_next spec_sink_mass
  have e : d * ((incoming_list g i).map (fun u => s.getD u 0 / (outgoing_size g u : ℚ))).sum
        + (1 - d) / (num_nodes g : ℚ)
        + d * (∑ v ∈ (Finset.range (num_nodes g)).filter (fun v => outgoing_size g v = 0),
            s.getD v 0) / (num_nodes g : ℚ)
      - (d * ((incoming_list g i).map (fun u => t.getD u 0 / (outgoing_size g u : ℚ))).sum
        + (1 - d) / (num_nodes g : ℚ)
        + d * (∑ v ∈ (Finset.range (num_nodes g)).filter (fun v => outgoing_size g v = 0),
            t.getD v 0) / (num_nodes g : ℚ))
      = d * ((incoming_list g i).map
            (fun u => (s.getD u 0 - t.getD u 0) / (outgoing_size g u : ℚ))).sum
        + d * (∑ v ∈ (Finset.range (num_nodes g)).filter (fun v => outgoing_size g v = 0),
            (s.getD v 0 - t.getD v 0)) / (num_nodes g : ℚ) := by
    rw [Finset.sum_sub_distrib]
    have := list_sum_sub (incoming_list g i)
      (fun u => s.getD u 0 / (outgoing_size g u : ℚ))
      (fun u => t.getD u 0 / (outgoing_size g u : ℚ))
    simp only [← sub_div] at this
    rw [← this]
    ring
  rw [e]
  refine le_trans (abs_add _ _) (add_le_add ?_ ?_)
  · rw [abs_mul, abs_of_nonneg hd]
    apply mul_le_mul_of_nonneg_left _ hd
    refine le_trans (abs_list_sum_le _ _) (le_of_eq ?_)
    congr 1
    apply List.map_congr_left
    intro u _
    have hnn : (0 : ℚ) ≤ (outgoing_size g u : ℚ) := Nat.cast_nonneg _
    show |(s.getD u 0 - t.getD u 0) / (outgoing_size g u : ℚ)| = _
    rw [abs_div, abs_of_nonneg hnn]
  · rw [abs_div, abs_mul, abs_of_nonneg hd, abs_of_pos hN']
    apply div_le_div_of_nonneg_right _ (le_of_lt hN')
    apply mul_le_mul_of_nonneg_left _ hd
    exact Finset.abs_sum_le_sum_abs _ _

theorem pr_delta_le (g : Graph) (hg : well_formed g) (ht : is_transpose g)
    (hN : 1 ≤ num_nodes g) (d : ℚ) (hd : 0 ≤ d) (k : Nat) :
    pr_delta g d k ≤ d ^ k * pr_delta g d 0 := by
  induction k with
  | zero => simp
  | succ k ih =>
    have h := score_new_contract g hg ht hN d hd (pr_scores g d (k + 1)) (pr_scores g d k)
    calc pr_delta g d (k + 1) ≤ d * pr_delta g d k := h
      _ ≤ d * (d ^ k * pr_delta g d 0) := mul_le_mul_of_nonneg_left ih hd
      _ = d ^ (k + 1) * pr_delta g d 0 := by ring

theorem pr_delta_nonneg (g : Graph) (d : ℚ) (k : Nat) : 0 ≤ pr_delta g d k := by
  unfold pr_delta l1_change
  exact Finset.sum_nonneg (fun i _ => abs_nonneg _)

theorem exists_pr_delta_lt (g : Graph) (hg : well_formed g) (ht : is_transpose g)
    (hN : 1 ≤ num_nodes g) (d conv : ℚ) (hd0 : 0 ≤ d) (hd1 : d < 1) (hc : 0 < conv) :
    ∃ k, pr_delta g d k < conv := by
  have hpos : 0 < pr_delta g d 0 + 1 := by
    have := pr_delta_nonneg g d 0
    linarith
  obtain ⟨k, hk⟩ := exists_pow_lt_of_lt_one (div_pos hc hpos) hd1
  refine ⟨k, lt_of_le_of_lt (pr_delta_le g hg ht hN d hd0 k) ?_⟩
  have h1 : d ^ k * pr_delta g d 0 ≤ d ^ k * (pr_delta g d 0 + 1) :=
    mul_le_mul_of_nonneg_left (by linarith) (pow_nonneg hd0 k)
  have h2 : d ^ k * (pr_delta g d 0 + 1) < conv := by
    rw [lt_div_iff₀ hpos] at hk
    exact hk
  linarith

/-- The first pass whose `global_diff` is below `convergence` ends the run. -/
theorem pageRank_run_of_first (g : Graph) (d conv : ℚ) (k : Nat)
    (hk : pr_delta g d k < conv) (hmin : ∀ j, j < k → ¬ pr_delta g d j < conv)
    (fuel : Nat) (hf : k < fuel) :
    pageRank_run g d conv fuel
      = some { solution := pr_scores g d (k + 1), converged := true, iterations := k + 1 } :=
  (pageRank_run_eq_some g d conv fuel _).2 ⟨k, hf, hk, hmin, rfl⟩

theorem exists_first_pr_delta_lt (g : Graph) (d conv : ℚ) (h : ∃ k, pr_delta g d k < conv) :
    ∃ k, pr_delta g d k < conv ∧ ∀ j, j < k → ¬ pr_delta g d j < conv := by
  classical
  exact ⟨Nat.find h, Nat.find_spec h, fun j hj => Nat.find_min h hj⟩

/-! ## PageRank: bounds on the scores -/

theorem getD_nonneg_of_forall (l : List ℚ) (h : ∀ x, x ∈ l → 0 ≤ x) (i : Nat) :
    0 ≤ l.getD i 0 := by
  rw [List.getD_eq_getElem?_getD]
  by_cases hi : i < l.length
  · rw [List.getElem?_eq_getElem hi]
    exact h _ (List.getElem_mem hi)
  · rw [List.getElem?_eq_none (Nat.le_of_not_lt hi)]
    exact le_refl _

theorem list_sum_nonneg (l : List Nat) (f : Nat → ℚ) (h : ∀ u, 0 ≤ f u) :
    0 ≤ (l.map f).sum := by
  induction l with
  | nil => simp
  | cons a l ih =>
    simp only [List.map_cons, List.sum_cons]
    exact add_nonneg (h a) ih

theorem score_new_entry_ge (g : Graph) (s : List ℚ) (d : ℚ) (hd : 0 ≤ d)
    (hs : ∀ i, 0 ≤ s.getD i 0) (i : Nat) :
    (1 - d) / (num_nodes g : ℚ) ≤ score_new_entry g s d (sink_score g s d) i := by
  have hNn : (0 : ℚ) ≤ (num_nodes g : ℚ) := Nat.cast_nonneg _
  have h1 : 0 ≤ sink_score g s d := by
    unfold sink_score
    rw [foldl_add_eq_sum (fun j => s.getD j 0)]
    apply div_nonneg _ hNn
    apply mul_nonneg _ hd
    have := list_sum_nonneg (sink_nodes g) (fun j => s.getD j 0) hs
    linarith
  have h2 : 0 ≤ d * (incoming_list g i).foldl
      (fun acc v => acc + s.getD v 0 / (outgoing_size g v : ℚ)) 0 := by
    rw [foldl_add_eq_sum (fun v => s.getD v 0 / (outgoing_size g v : ℚ))]
    apply mul_nonneg hd
    have := list_sum_nonneg (incoming_list g i)
      (fun v => s.getD v 0 / (outgoing_size g v : ℚ))
      (fun u => div_nonneg (hs u) (Nat.cast_nonneg _))
    linarith
  unfold score_new_entry
  linarith

theorem pr_scores_nonneg (g : Graph) (d : ℚ) (hd0 : 0 ≤ d) (hd1 : d ≤ 1) (k : Nat) :
    ∀ i, 0 ≤ (pr_scores g d k).getD i 0 := by
  have hNn : (0 : ℚ) ≤ (num_nodes g : ℚ) := Nat.cast_nonneg _
  induction k with
  | zero =>
    apply getD_nonneg_of_forall
    intro x hx
    rw [pr_scores, pageRank_init, List.mem_replicate] at hx
    rw [hx.2]
    exact div_nonneg zero_le_one hNn
  | succ k ih =>
    intro i
    by_cases hi : i < num_nodes g
    · show 0 ≤ (score_new g (pr_scores g d k) d).getD i 0
      rw [score_new_getD g _ d i hi]
      have := score_new_entry_ge g (pr_scores g d k) d hd0 ih i
      have hc : 0 ≤ (1 - d) / (num_nodes g : ℚ) := div_nonneg (by linarith) hNn
      linarith
    · rw [List.getD_eq_getElem?_getD, List.getElem?_eq_none
        (by rw [pr_scores_length]; omega)]
      exact le_refl _

theorem pr_scores_ge (g : Graph) (hN : 1 ≤ num_nodes g) (d : ℚ) (hd0 : 0 ≤ d) (hd1 : d < 1)
    (k i : Nat) (hi : i < num_nodes g) :
    (1 - d) / (num_nodes g : ℚ) ≤ (pr_scores g d (k + 1)).getD i 0 ∧
      0 < (pr_scores g d (k + 1)).getD i 0 := by
  have hN' : (0 : ℚ) < (num_nodes g : ℚ) := by
    have : 0 < num_nodes g := hN
    exact_mod_cast this
  have h : (1 - d) / (num_nodes g : ℚ) ≤ (pr_scores g d (k + 1)).getD i 0 := by
    show _ ≤ (score_new g (pr_scores g d k) d).getD i 0
    rw [score_new_getD g _ d i hi]
    exact score_new_entry_ge g _ d hd0 (pr_scores_nonneg g d hd0 (le_of_lt hd1) k) i
  have hc : 0 < (1 - d) / (num_nodes g : ℚ) := div_pos (by linarith) hN'
  exact ⟨h, lt_of_lt_of_le hc h⟩

/-! ## PageRank: the uniform fixed point -/

theorem sink_nodes_eq_nil (g : Graph) (h : ∀ v, v < num_nodes g → outgoing_size g v ≠ 0) :
    sink_nodes g = [] := by
  unfold sink_nodes
  rw [List.filter_eq_nil_iff]
  intro v hv
  simpa using h v (List.mem_range.1 hv)

theorem score_new_uniform (g : Graph) (hg : well_formed g) (hN : 1 ≤ num_nodes g)
    (hsink : ∀ v, v < num_nodes g → outgoing_size g v ≠ 0)
    (hin : ∀ i, i < num_nodes g →
      ((incoming_list g i).map (fun u => 1 / (outgoing_size g u : ℚ))).sum = 1)
    (d : ℚ) : score_new g (pageRank_init g) d = pageRank_init g := by
  have hN' : (num_nodes g : ℚ) ≠ 0 := by
    have : 0 < num_nodes g := hN
    exact_mod_cast this.ne'
  apply getD_ext _ _ (by rw [score_new_length, pageRank_init_length])
  intro i hi
  rw [score_new_length] at hi
  rw [score_new_getD g _ d i hi, pageRank_init_getD g i hi]
  unfold score_new_entry sink_score
  rw [sink_nodes_eq_nil g hsink, foldl_add_eq_sum
    (fun v => (pageRank_init g).getD v 0 / (outgoing_size g v : ℚ))]
  have hmap : (incoming_list g i).map
        (fun v => (pageRank_init g).getD v 0 / (outgoing_size g v : ℚ))
      = (incoming_list g i).map
        (fun v => 1 / (num_nodes g : ℚ) * (1 / (outgoing_size g v : ℚ))) := by
    apply List.map_congr_left
    intro u hu
    rw [pageRank_init_getD g u (in_neighbors_lt g hg i u hu)]
    ring
  rw [hmap, List.sum_map_mul_left, hin i hi]
  simp only [List.foldl_nil]
  field_simp

theorem l1_change_self (g : Graph) (a : List ℚ) : l1_change g a a = 0 := by
  unfold l1_change
  simp

/-! ## The example graphs -/

theorem mutual2_in_weights (i : Nat) (hi : i < num_nodes mutual2) :
    ((incoming_list mutual2 i).map (fun u => 1 / (outgoing_size mutual2 u : ℚ))).sum = 1 := by
  have e0 : incoming_list mutual2 0 = [1] := by decide
  have e1 : incoming_list mutual2 1 = [0] := by decide
  have o0 : outgoing_size mutual2 0 = 1 := by decide
  have o1 : outgoing_size mutual2 1 = 1 := by decide
  have hi2 : i < 2 := hi
  interval_cases i
  · rw [e0]; simp [o1]
  · rw [e1]; simp [o0]

theorem mutual2_uniform :
    List.replicate (num_nodes mutual2) (1 / (num_nodes mutual2 : ℚ)) = [1 / 2, 1 / 2] := by
  have : num_nodes mutual2 = 2 := rfl
  rw [this]
  simp [List.replicate]

theorem mutual2_first_pass (d : ℚ) :
    score_new mutual2 (pr_scores mutual2 d 0) d = [1 / 2, 1 / 2] ∧ pr_delta mutual2 d 0 = 0 := by
  have h := score_new_uniform mutual2 (by decide) (by decide) (by decide) mutual2_in_weights d
  constructor
  · show score_new mutual2 (pageRank_init mutual2) d = _
    rw [h]
    exact mutual2_uniform
  · show l1_change mutual2 (score_new mutual2 (pageRank_init mutual2) d)
      (pageRank_init mutual2) = 0
    rw [h, l1_change_self]

/-! ## The frontier of a graph without vertices -/

theorem out_neighbors_nil_of_zero (g : Graph) (hg : well_formed g) (h0 : g.num_nodes = 0)
    (u : Nat) : out_neighbors g u = [] := by
  apply List.eq_nil_iff_forall_not_mem.2
  intro v hv
  have := out_neighbors_lt g hg u v hv
  omega

theorem top_down_step_nil_of_zero (g : Graph) (hg : well_formed g) (h0 : g.num_nodes = 0)
    (F nf : vertex_set) (D : List Int) (hnf : nf.vertices = []) :
    (top_down_step g F nf D).1.vertices = [] := by
  have hp : td_pairs g F.vertices = [] := by
    apply List.eq_nil_iff_forall_not_mem.2
    intro p hp
    have := (fst_mem_td_pairs g _ p hp).2
    rw [out_neighbors_nil_of_zero g hg h0] at this
    exact absurd this (List.not_mem_nil _)
  show nf.vertices ++ (F.vertices.foldl (top_down_node g) (D, [])).2 = []
  rw [top_down_fold_pairs, hp, hnf]
  rfl

theorem bottom_up_step_2_nil_of_zero (g : Graph) (h0 : g.num_nodes = 0)
    (F nf : vertex_set) (D : List Int) (L : Int) (hnf : nf.vertices = []) :
    (bottom_up_step_2 g F nf D L).1.vertices = [] := by
  show nf.vertices ++ ((List.range g.num_nodes).foldl (bottom_up_node_2 g L) (D, [])).2 = []
  rw [h0, hnf]
  rfl

theorem frontier_nodup_of_zero (g : Graph) (hg : well_formed g) (h0 : g.num_nodes = 0)
    (k : Nat) :
    ((bfs_top_down_body g)^[k] (bfs_init g)).frontier.vertices.Nodup ∧
    ((bfs_hybrid_body g)^[k] (bfs_init g)).frontier.vertices.Nodup := by
  cases k with
  | zero =>
    have : (bfs_init g).frontier.vertices = [ROOT_NODE_ID] := rfl
    simp only [Function.iterate_zero, id, this]
    exact ⟨List.nodup_singleton _, List.nodup_singleton _⟩
  | succ k =>
    rw [Function.iterate_succ_apply', Function.iterate_succ_apply']
    constructor
    · have : (bfs_top_down_body g ((bfs_top_down_body g)^[k] (bfs_init g))).frontier.vertices
          = [] :=
        top_down_step_nil_of_zero g hg h0 _ _ _ rfl
      rw [this]
      exact List.nodup_nil
    · have hbody : ∀ s : bfs_state, (bfs_hybrid_body g s).frontier.vertices = [] := by
        intro s
        unfold bfs_hybrid_body
        by_cases hdir : (g.num_nodes : Int) - s.total_counter < (s.frontier.count : Int)
        · simp only [if_pos hdir]
          exact bottom_up_step_2_nil_of_zero g h0 s.frontier (vertex_set_clear s.new_frontier)
            s.distances s.iteration rfl
        · simp only [if_neg hdir]
          exact top_down_step_nil_of_zero g hg h0 s.frontier (vertex_set_clear s.new_frontier)
            s.distances rfl
      rw [hbody]
      exact List.nodup_nil

/-! ## PageRank: the divisors of the update -/

theorem outgoing_size_pos_of_mem_incoming (g : Graph) (hg : well_formed g)
    (ht : is_transpose g) (i u : Nat) (hi : i < num_nodes g) (hu : u ∈ incoming_list g i) :
    1 ≤ outgoing_size g u := by
  have h := (mem_in_iff_mem_out g hg ht u i hi).1 hu
  unfold outgoing_size
  exact List.length_pos_of_mem h.2

theorem not_mem_sink_nodes (g : Graph) (u : Nat) (h : 1 ≤ outgoing_size g u) :
    u ∉ sink_nodes g := by
  unfold sink_nodes
  rw [List.mem_filter]
  rintro ⟨_, h0⟩
  rw [decide_eq_true_eq] at h0
  omega

/-! ## The steps write unvisited entries only -/

theorem foldl_preserves {α β : Type} (P : α → Prop) (f : α → β → α)
    (hf : ∀ a b, P a → P (f a b)) (l : List β) (a : α) (ha : P a) : P (l.foldl f a) := by
  induction l generalizing a with
  | nil => exact ha
  | cons b l ih => exact ih (f a b) (hf a b ha)

theorem top_down_visit_frame (D : List Int) (node outgoing : Nat) (st : List Int × List Nat)
    (h : ∀ v, D.getD v 0 ≠ -1 → st.1.getD v 0 = D.getD v 0) :
    ∀ v, D.getD v 0 ≠ -1 → (top_down_visit node outgoing st).1.getD v 0 = D.getD v 0 := by
  intro v hv
  unfold top_down_visit
  by_cases hc : st.1.getD outgoing 0 = NOT_VISITED_MARKER
  · rw [if_pos hc]
    show (st.1.set outgoing (st.1.getD node 0 + 1)).getD v 0 = _
    rw [getD_set]
    by_cases hov : outgoing = v
    · subst hov
      rw [h outgoing hv] at hc
      exact absurd hc hv
    · rw [if_neg (fun hh => hov hh.1)]
      exact h v hv
  · rw [if_neg hc]
    exact h v hv

theorem top_down_step_frame (g : Graph) (F nf : vertex_set) (D : List Int) (v : Nat)
    (hv : D.getD v 0 ≠ -1) : (top_down_step g F nf D).2.getD v 0 = D.getD v 0 := by
  show (F.vertices.foldl (top_down_node g) (D, [])).1.getD v 0 = _
  refine foldl_preserves (fun st : List Int × List Nat =>
    ∀ v, D.getD v 0 ≠ -1 → st.1.getD v 0 = D.getD v 0) (top_down_node g) ?_ F.vertices (D, [])
    (fun _ _ => rfl) v hv
  intro st node hst
  unfold top_down_node
  exact foldl_preserves (fun st : List Int × List Nat =>
    ∀ v, D.getD v 0 ≠ -1 → st.1.getD v 0 = D.getD v 0) _
    (fun a b ha => top_down_visit_frame D node _ a ha) (outgoing_range g node) st hst

theorem bottom_up_node_2_frame (g : Graph) (D : List Int) (L : Int) (st : List Int × List Nat)
    (i : Nat) (h : ∀ v, D.getD v 0 ≠ -1 → st.1.getD v 0 = D.getD v 0) :
    ∀ v, D.getD v 0 ≠ -1 → (bottom_up_node_2 g L st i).1.getD v 0 = D.getD v 0 := by
  intro v hv
  unfold bottom_up_node_2
  by_cases h1 : st.1.getD i 0 ≠ NOT_VISITED_MARKER
  · rw [if_pos h1]; exact h v hv
  · rw [if_neg h1]
    by_cases h2 : bottom_up_scan g st.1 L (incoming_range g i) = true
    · rw [if_pos h2]
      show (st.1.set i (L + 1)).getD v 0 = _
      rw [getD_set]
      by_cases hiv : i = v
      · subst hiv
        rw [h i hv] at h1
        exact absurd hv h1
      · rw [if_neg (fun hh => hiv hh.1)]
        exact h v hv
    · rw [if_neg h2]; exact h v hv

theorem bottom_up_step_2_frame (g : Graph) (F nf : vertex_set) (D : List Int) (L : Int)
    (v : Nat) (hv : D.getD v 0 ≠ -1) :
    (bottom_up_step_2 g F nf D L).2.getD v 0 = D.getD v 0 := by
  show ((List.range g.num_nodes).foldl (bottom_up_node_2 g L) (D, [])).1.getD v 0 = _
  exact foldl_preserves (fun st : List Int × List Nat =>
    ∀ v, D.getD v 0 ≠ -1 → st.1.getD v 0 = D.getD v 0) (bottom_up_node_2 g L)
    (fun a b ha => bottom_up_node_2_frame g D L a b ha) _ (D, []) (fun _ _ => rfl) v hv

theorem botton_up_step_frame (g : Graph) (D : List Int) (L : Int)
    (v : Nat) (hv : D.getD v 0 ≠ -1) :
    (botton_up_step g D L).1.getD v 0 = D.getD v 0 := by
  have h := botton_up_fold g L (List.range g.num_nodes) (D, [])
  unfold botton_up_step
  simp only [List.length_nil, Nat.cast_zero] at h
  rw [h]
  exact bottom_up_step_2_frame g ⟨0, []⟩ ⟨0, []⟩ D L v hv

theorem iterate_frame {σ : Type} (body : σ → σ) (dist : σ → List Int)
    (hstep : ∀ s v, (dist s).getD v 0 ≠ -1 → (dist (body s)).getD v 0 = (dist s).getD v 0)
    (s : σ) (k j : Nat) (hkj : k ≤ j) (v : Nat) (hv : (dist (body^[k] s)).getD v 0 ≠ -1) :
    (dist (body^[j] s)).getD v 0 = (dist (body^[k] s)).getD v 0 := by
  induction j with
  | zero =>
    have : k = 0 := by omega
    subst this; rfl
  | succ j ih =>
    by_cases hk : k = j + 1
    · subst hk; rfl
    · have ih := ih (by omega)
      rw [Function.iterate_succ_apply', hstep _ v (by rw [ih]; exact hv), ih]

/-! ## The steps as set operations -/

theorem perm_filter_range (n : Nat) (l : List Nat) (p : Nat → Bool) (hnd : l.Nodup)
    (hmem : ∀ v, v ∈ l ↔ (v < n ∧ p v = true)) :
    l.Perm ((List.range n).filter p) := by
  rw [List.perm_ext_iff_of_nodup hnd ((List.nodup_range n).filter p)]
  intro v
  rw [hmem v, List.mem_filter, List.mem_range]

theorem getD_ext_int (a b : List Int) (hlen : a.length = b.length)
    (h : ∀ j, j < a.length → a.getD j 0 = b.getD j 0) : a = b := by
  apply List.ext_getElem hlen
  intro j h1 h2
  have := h j h1
  rw [List.getD_eq_getElem?_getD, List.getD_eq_getElem?_getD, List.getElem?_eq_getElem h1,
    List.getElem?_eq_getElem h2] at this
  exact this

/-- On a transposed graph the two steps visit the same vertices: a target of an edge from
the frontier is a vertex with a parent at the level of the frontier. -/
theorem step_conditions_iff (g : Graph) (hg : well_formed g) (ht : is_transpose g) (L : Int)
    (F : List Nat) (D : List Int)
    (hF : ∀ u, u ∈ F ↔ (u < g.num_nodes ∧ D.getD u 0 = L)) (v : Nat) :
    (D.getD v 0 = -1 ∧ v ∈ (td_pairs g F).map Prod.snd) ↔
      (D.getD v 0 = -1 ∧ v ∈ List.range g.num_nodes ∧ has_parent g D L v = true) := by
  rw [mem_td_targets, has_parent_iff, List.mem_range]
  constructor
  · rintro ⟨h1, u, hu, hv⟩
    have hvlt := out_neighbors_lt g hg u v hv
    exact ⟨h1, hvlt, u, (mem_in_iff_mem_out g hg ht u v hvlt).2 ⟨((hF u).1 hu).1, hv⟩,
      ((hF u).1 hu).2⟩
  · rintro ⟨h1, hvlt, u, hu, hd⟩
    have := (mem_in_iff_mem_out g hg ht u v hvlt).1 hu
    exact ⟨h1, u, (hF u).2 ⟨this.1, hd⟩, this.2⟩

/-! ## One level on any well-formed graph -/

theorem nodup_length_le (l : List Nat) (n : Nat) (h : l.Nodup) (hl : ∀ v, v ∈ l → v < n) :
    l.length ≤ n := by
  have h1 : l.toFinset ⊆ Finset.range n := by
    intro v hv
    rw [List.mem_toFinset] at hv
    exact Finset.mem_range.2 (hl v hv)
  have := Finset.card_le_card h1
  rw [List.toFinset_card_of_nodup h, Finset.card_range] at this
  exact this

theorem visited_add_unvisited (g : Graph) (D : List Int) :
    visited_count g D + unvisited_count g D = g.num_nodes := by
  unfold visited_count unvisited_count
  have h := List.length_eq_countP_add_countP
    (fun v => decide (D.getD v 0 ≠ NOT_VISITED_MARKER)) (List.range g.num_nodes)
  rw [List.countP_eq_length_filter, List.countP_eq_length_filter, List.length_range] at h
  have e : (List.range g.num_nodes).filter
        (fun a => decide ¬ decide (D.getD a 0 ≠ NOT_VISITED_MARKER) = true)
      = (List.range g.num_nodes).filter
        (fun v => decide (D.getD v 0 = NOT_VISITED_MARKER)) := by
    apply List.filter_congr
    intro v _
    simp
  rw [e] at h
  exact h.symm

/-- What a level does to the distances, the frontier and the number of visited vertices
when it sets exactly the vertices `v` with `C v`, all unvisited, to `L + 1`. -/
theorem level_step_generic (g : Graph) (L : Nat) (D D' : List Int) (loc : List Nat)
    (C : Nat → Prop) (hr : RangeInv g L D) (hlen : D'.length = D.length)
    (hhit : ∀ v, C v → D'.getD v 0 = (L : Int) + 1)
    (hmiss : ∀ v, ¬ C v → D'.getD v 0 = D.getD v 0)
    (hlt : ∀ v, C v → v < g.num_nodes) (hneg : ∀ v, C v → D.getD v 0 = -1)
    (hnd : loc.Nodup) (hmem : ∀ v, v ∈ loc ↔ C v) :
    RangeInv g (L + 1) D' ∧
    (∀ v, v ∈ loc ↔ (v < g.num_nodes ∧ D'.getD v 0 = ((L + 1 : Nat) : Int))) ∧
    visited_count g D' = visited_count g D + loc.length := by
  classical
  refine ⟨⟨by rw [hlen, hr.len], ?_⟩, ?_, ?_⟩
  · intro v hv
    by_cases hc : C v
    · right
      exact ⟨L + 1, le_refl _, by rw [hhit v hc]; push_cast; rfl⟩
    · rw [hmiss v hc]
      rcases hr.range v hv with h1 | ⟨d, hd, h1⟩
      · exact Or.inl h1
      · exact Or.inr ⟨d, by omega, h1⟩
  · intro v
    rw [hmem v]
    constructor
    · intro hc
      exact ⟨hlt v hc, by rw [hhit v hc]; push_cast; rfl⟩
    · rintro ⟨hv, hd⟩
      by_contra hc
      rw [hmiss v hc] at hd
      rcases hr.range v hv with h1 | ⟨d, hd1, h1⟩
      · rw [h1] at hd; omega
      · rw [h1] at hd
        have : d = L + 1 := by exact_mod_cast hd
        omega
  · unfold visited_count
    rw [← List.length_append]
    apply List.Perm.length_eq
    rw [List.perm_ext_iff_of_nodup ((List.nodup_range _).filter _)]
    · intro v
      rw [List.mem_append, List.mem_filter, List.mem_filter, List.mem_range, hmem v,
        decide_eq_true_eq, decide_eq_true_eq, NOT_VISITED_MARKER]
      by_cases hc : C v
      · rw [hhit v hc]
        constructor
        · intro _; exact Or.inr hc
        · intro _; exact ⟨hlt v hc, by omega⟩
      · rw [hmiss v hc]
        constructor
        · intro h; exact Or.inl h
        · rintro (h | h)
          · exact h
          · exact absurd h hc
    · rw [List.nodup_append]
      refine ⟨(List.nodup_range _).filter _, hnd, ?_⟩
      intro v hv1 hv2
      rw [List.mem_filter, decide_eq_true_eq, NOT_VISITED_MARKER] at hv1
      exact hv1.2 (hneg v ((hmem v).1 hv2))

theorem top_down_step_generic (g : Graph) (hg : well_formed g) (L : Nat) (F nf : vertex_set)
    (D : List Int) (hnf : nf.vertices = []) (hr : RangeInv g L D)
    (hF : ∀ u, u ∈ F.vertices → D.getD u 0 = (L : Int)) :
    RangeInv g (L + 1) (top_down_step g F nf D).2 ∧
    (∀ v, v ∈ (top_down_step g F nf D).1.vertices ↔
      (v < g.num_nodes ∧ (top_down_step g F nf D).2.getD v 0 = ((L + 1 : Nat) : Int))) ∧
    (top_down_step g F nf D).1.vertices.Nodup ∧
    visited_count g (top_down_step g F nf D).2
      = visited_count g D + (top_down_step g F nf D).1.count ∧
    (top_down_step g F nf D).1.max_vertices = nf.max_vertices := by
  obtain ⟨loc, h1, hc⟩ := top_down_step_char g hg L (by omega) F nf D hr.len hF
  have h := level_step_generic g L D (top_down_step g F nf D).2 loc
    (fun v => D.getD v 0 = -1 ∧ v ∈ (td_pairs g F.vertices).map Prod.snd) hr hc.len
    (fun v hv => by have := hc.val v; rw [if_pos hv] at this; exact this)
    (fun v hv => by have := hc.val v; rw [if_neg hv] at this; exact this)
    (fun v hv => by
      obtain ⟨u, _, hu2⟩ := (mem_td_targets g F.vertices v).1 hv.2
      exact out_neighbors_lt g hg u v hu2)
    (fun v hv => hv.1) hc.nodup hc.mem
  unfold vertex_set.count
  rw [h1, hnf]
  simp only [List.nil_append]
  exact ⟨h.1, h.2.1, hc.nodup, h.2.2, trivial⟩

theorem bottom_up_step_2_generic (g : Graph) (L : Nat) (F nf : vertex_set)
    (D : List Int) (hnf : nf.vertices = []) (hr : RangeInv g L D) :
    RangeInv g (L + 1) (bottom_up_step_2 g F nf D L).2 ∧
    (∀ v, v ∈ (bottom_up_step_2 g F nf D L).1.vertices ↔
      (v < g.num_nodes ∧ (bottom_up_step_2 g F nf D L).2.getD v 0 = ((L + 1 : Nat) : Int))) ∧
    (bottom_up_step_2 g F nf D L).1.vertices.Nodup ∧
    visited_count g (bottom_up_step_2 g F nf D L).2
      = visited_count g D + (bottom_up_step_2 g F nf D L).1.count ∧
    (bottom_up_step_2 g F nf D L).1.max_vertices = nf.max_vertices := by
  obtain ⟨loc, h1, hc⟩ := bottom_up_step_2_char g L (by omega) F nf D
  have hloc := hc.loc
  simp only at hloc
  have hnd : loc.Nodup := by rw [hloc]; exact (List.nodup_range _).filter _
  have h := level_step_generic g L D (bottom_up_step_2 g F nf D L).2 loc
    (fun v => D.getD v 0 = -1 ∧ v ∈ List.range g.num_nodes ∧ has_parent g D L v = true)
    hr hc.len
    (fun v hv => by have := hc.val v; rw [if_pos hv] at this; exact this)
    (fun v hv => by have := hc.val v; rw [if_neg hv] at this; exact this)
    (fun v hv => List.mem_range.1 hv.2.1)
    (fun v hv => hv.1) hnd
    (fun v => by
      rw [hloc, List.mem_filter, Bool.and_eq_true, decide_eq_true_eq]
      tauto)
  unfold vertex_set.count
  rw [h1, hnf]
  simp only [List.nil_append]
  exact ⟨h.1, h.2.1, hnd, h.2.2, trivial⟩

theorem visited_count_init (g : Graph) (hN : 1 ≤ g.num_nodes) :
    visited_count g (init_distances g) = 1 := by
  unfold visited_count
  have hp : ((List.range g.num_nodes).filter
      (fun v => decide ((init_distances g).getD v 0 ≠ NOT_VISITED_MARKER))).Perm [0] := by
    rw [List.perm_ext_iff_of_nodup ((List.nodup_range _).filter _) (List.nodup_singleton 0)]
    intro v
    rw [List.mem_filter, List.mem_range, decide_eq_true_eq, List.mem_singleton,
      NOT_VISITED_MARKER]
    constructor
    · rintro ⟨hv, hd⟩
      rw [init_distances_getD g hN v hv] at hd
      by_contra hne
      rw [if_neg hne] at hd
      exact hd rfl
    · rintro rfl
      refine ⟨hN, ?_⟩
      rw [init_distances_getD g hN 0 hN, if_pos rfl]
      decide
  rw [hp.length_eq]
  rfl

theorem bufferInv_init (g : Graph) (hN : 1 ≤ g.num_nodes) : BufferInv g 0 (bfs_init g) := by
  have h := levelInv_init g hN
  exact ⟨⟨h.dist.len, h.dist.range⟩, h.front, h.nodup, rfl, rfl,
    fun v hv => absurd hv (List.not_mem_nil v), List.nodup_nil⟩

theorem hybridInv_init (g : Graph) (hN : 1 ≤ g.num_nodes) : HybridInv g 0 (bfs_init g) := by
  refine ⟨bufferInv_init g hN, rfl, ?_⟩
  show (1 : Int) = ((visited_count g (init_distances g) : Nat) : Int)
  rw [visited_count_init g hN]
  rfl

theorem bufferInv_top_down_body (g : Graph) (hg : well_formed g) (L : Nat) (s : bfs_state)
    (h : BufferInv g L s) : BufferInv g (L + 1) (bfs_top_down_body g s) := by
  obtain ⟨h1, h2, h3, _, h5⟩ := top_down_step_generic g hg L s.frontier
    (vertex_set_clear s.new_frontier) s.distances rfl h.range
    (fun u hu => ((h.front u).1 hu).2)
  exact ⟨h1, h2, h3, h5.trans h.cap_new, h.cap, fun v hv => ((h.front v).1 hv).1, h.nodup⟩

theorem hybridInv_body (g : Graph) (hg : well_formed g) (L : Nat) (s : bfs_state)
    (h : HybridInv g L s) : HybridInv g (L + 1) (bfs_hybrid_body g s) := by
  have hb := h.buffers
  unfold bfs_hybrid_body
  by_cases hdir : (g.num_nodes : Int) - s.total_counter < (s.frontier.count : Int)
  · simp only [if_pos hdir]
    rw [h.iter]
    obtain ⟨h1, h2, h3, h4, h5⟩ := bottom_up_step_2_generic g L s.frontier
      (vertex_set_clear s.new_frontier) s.distances rfl hb.range
    refine ⟨⟨h1, h2, h3, h5.trans hb.cap_new, hb.cap, fun v hv => ((hb.front v).1 hv).1,
      hb.nodup⟩, by show (L : Int) + 1 = _; push_cast; rfl, ?_⟩
    show s.total_counter + _ = _
    rw [h.total, h4]
    push_cast
    rfl
  · simp only [if_neg hdir]
    obtain ⟨h1, h2, h3, h4, h5⟩ := top_down_step_generic g hg L s.frontier
      (vertex_set_clear s.new_frontier) s.distances rfl hb.range
      (fun u hu => ((hb.front u).1 hu).2)
    refine ⟨⟨h1, h2, h3, h5.trans hb.cap_new, hb.cap, fun v hv => ((hb.front v).1 hv).1,
      hb.nodup⟩, by show s.iteration + 1 = _; rw [h.iter]; push_cast; rfl, ?_⟩
    show s.total_counter + _ = _
    rw [h.total, h4]
    push_cast
    rfl

theorem bufferInv_top_down_iterate (g : Graph) (hg : well_formed g) (hN : 1 ≤ g.num_nodes)
    (k : Nat) : BufferInv g k ((bfs_top_down_body g)^[k] (bfs_init g)) :=
  iterate_inv (bfs_top_down_body g) (BufferInv g)
    (fun L s h => bufferInv_top_down_body g hg L s h) (bfs_init g) (bufferInv_init g hN) k

theorem hybridInv_iterate (g : Graph) (hg : well_formed g) (hN : 1 ≤ g.num_nodes)
    (k : Nat) : HybridInv g k ((bfs_hybrid_body g)^[k] (bfs_init g)) :=
  iterate_inv (bfs_hybrid_body g) (HybridInv g)
    (fun L s h => hybridInv_body g hg L s h) (bfs_init g) (hybridInv_init g hN) k

theorem hybrid_iteration_iterate (g : Graph) (k : Nat) :
    ((bfs_hybrid_body g)^[k] (bfs_init g)).iteration = (k : Int) := by
  induction k with
  | zero => rfl
  | succ k ih =>
    rw [Function.iterate_succ_apply']
    show ((bfs_hybrid_body g)^[k] (bfs_init g)).iteration + 1 = _
    rw [ih]; push_cast; rfl

theorem rangeInv_bounds (g : Graph) (L : Nat) (D : List Int) (h : RangeInv g L D) (v : Nat)
    (hv : v < g.num_nodes) (hd : D.getD v 0 ≠ -1) :
    0 ≤ D.getD v 0 ∧ D.getD v 0 ≤ (L : Int) := by
  rcases h.range v hv with h1 | ⟨d, hd1, h1⟩
  · exact absurd h1 hd
  · rw [h1]
    exact ⟨Int.natCast_nonneg d, by exact_mod_cast hd1⟩

theorem hybrid_body_bottom_up (g : Graph) (s : bfs_state)
    (hdir : (g.num_nodes : Int) - s.total_counter < (s.frontier.count : Int)) :
    (bfs_hybrid_body g s).frontier
      = (bottom_up_step_2 g s.frontier (vertex_set_clear s.new_frontier) s.distances
          s.iteration).1 ∧
    (bfs_hybrid_body g s).distances
      = (bottom_up_step_2 g s.frontier (vertex_set_clear s.new_frontier) s.distances
          s.iteration).2 := by
  unfold bfs_hybrid_body
  simp only [if_pos hdir, and_self]

theorem hybrid_body_top_down (g : Graph) (s : bfs_state)
    (hdir : ¬ (g.num_nodes : Int) - s.total_counter < (s.frontier.count : Int)) :
    (bfs_hybrid_body g s).frontier
      = (top_down_step g s.frontier (vertex_set_clear s.new_frontier) s.distances).1 ∧
    (bfs_hybrid_body g s).distances
      = (top_down_step g s.frontier (vertex_set_clear s.new_frontier) s.distances).2 := by
  unfold bfs_hybrid_body
  simp only [if_neg hdir, and_self]

/-! ## The distances after a level -/

theorem distInv_entry (g : Graph) (L : Nat) (D : List Int) (h : DistInv g L D) (u : Nat)
    (hu : u < g.num_nodes) :
    (∀ d : Nat, D.getD u 0 = (d : Int) ↔ (hop_distance g u d ∧ d ≤ L)) ∧
    ((∀ d, hop_distance g u d → L < d) → D.getD u 0 = NOT_VISITED_MARKER) := by
  constructor
  · intro d
    rw [h.dist u hu d]
    exact And.comm
  · intro hfar
    rcases h.range u hu with h1 | ⟨d, hd, h1⟩
    · exact h1
    · have := hfar d ((h.dist u hu d).1 h1).2
      omega

theorem hop_distance_pair3 : hop_distance pair3 1 1 := by
  refine ⟨Walk.step Walk.root (by decide), ?_⟩
  intro k hk hw
  have hk0 : k = 0 := by omega
  subst hk0
  have := walk_zero pair3 1 hw
  exact absurd this (by decide)

/-! ## The claims -/

/-- C1: on a well-formed graph with at least one vertex `bfs_top_down` returns (a fuel of
`num_nodes` passes suffices), and whenever it returns, `distances[v]` is the length of a
shortest directed path from vertex 0 to `v` for every vertex `v` that has one, and is the
marker `-1` exactly for the vertices that cannot be reached from vertex 0. -/
theorem bfs_top_down_correct (g : Graph) (hg : well_formed g) (hN : 1 ≤ g.num_nodes) :
    (∃ D, bfs_top_down g g.num_nodes = some D) ∧
    ∀ fuel D, bfs_top_down g fuel = some D →
      D.length = g.num_nodes ∧ ∀ v, v < g.num_nodes →
        (∀ d, hop_distance g v d → D.getD v 0 = (d : Int)) ∧
        (D.getD v 0 = NOT_VISITED_MARKER ↔ ¬ reachable g v) := by
  constructor
  · obtain ⟨s, hs⟩ := top_down_loop_terminates g hg hN
    exact ⟨s.distances, by unfold bfs_top_down; rw [hs]; rfl⟩
  · intro fuel D h
    obtain ⟨s, hs, rfl⟩ := map_eq_some_distances _ _ D h
    exact top_down_loop_final g hg hN fuel s hs

/-- Witness of C1 on the graph with the vertices `0, 1, 2` and the single edge `0→1`. -/
theorem bfs_top_down_correct_witness :
    well_formed pair3 ∧ 1 ≤ pair3.num_nodes ∧ bfs_top_down pair3 3 = some [0, 1, -1] ∧
    ((∃ D, bfs_top_down pair3 pair3.num_nodes = some D) ∧
    ∀ fuel D, bfs_top_down pair3 fuel = some D →
      D.length = pair3.num_nodes ∧ ∀ v, v < pair3.num_nodes →
        (∀ d, hop_distance pair3 v d → D.getD v 0 = (d : Int)) ∧
        (D.getD v 0 = NOT_VISITED_MARKER ↔ ¬ reachable pair3 v)) :=
  ⟨by decide, by decide, by decide, bfs_top_down_correct pair3 (by decide) (by decide)⟩

/-- C2: on a well-formed graph with at least one vertex whose incoming adjacency is the
transpose of the outgoing one, `bfs_top_down`, `bfs_bottom_up` and `bfs_hybrid` all return
(a fuel of `num_nodes` passes suffices) and write the same `distances` array. -/
theorem bfs_variants_agree (g : Graph) (hg : well_formed g) (ht : is_transpose g)
    (hN : 1 ≤ g.num_nodes) :
    (∃ D, D.length = g.num_nodes ∧ bfs_top_down g g.num_nodes = some D ∧
      bfs_bottom_up g g.num_nodes = some D ∧ bfs_hybrid g g.num_nodes = some D) ∧
    ∀ f1 f2 f3 D1 D2 D3, bfs_top_down g f1 = some D1 → bfs_bottom_up g f2 = some D2 →
      bfs_hybrid g f3 = some D3 → D1 = D2 ∧ D2 = D3 := by
  have key : ∀ f1 f2 f3 D1 D2 D3, bfs_top_down g f1 = some D1 → bfs_bottom_up g f2 = some D2 →
      bfs_hybrid g f3 = some D3 → D1 = D2 ∧ D2 = D3 := by
    intro f1 f2 f3 D1 D2 D3 h1 h2 h3
    obtain ⟨s1, hs1, rfl⟩ := map_eq_some_distances _ _ D1 h1
    obtain ⟨s2, hs2, rfl⟩ := map_eq_some_distances _ _ D2 h2
    obtain ⟨s3, hs3, rfl⟩ := map_eq_some_distances _ _ D3 h3
    have e1 := top_down_loop_final g hg hN f1 s1 hs1
    have e2 := bottom_up_loop_final g hg ht hN f2 s2 hs2
    have e3 := hybrid_loop_final g hg ht hN f3 s3 hs3
    exact ⟨final_unique g _ _ e1.1 e2.1 e1.2 e2.2, final_unique g _ _ e2.1 e3.1 e2.2 e3.2⟩
  refine ⟨?_, key⟩
  obtain ⟨s1, hs1⟩ := top_down_loop_terminates g hg hN
  obtain ⟨s2, hs2⟩ := bottom_up_loop_terminates g hg ht hN
  obtain ⟨s3, hs3⟩ := hybrid_loop_terminates g hg ht hN
  have h1 : bfs_top_down g g.num_nodes = some s1.distances := by
    unfold bfs_top_down; rw [hs1]; rfl
  have h2 : bfs_bottom_up g g.num_nodes = some s2.distances := by
    unfold bfs_bottom_up; rw [hs2]; rfl
  have h3 : bfs_hybrid g g.num_nodes = some s3.distances := by
    unfold bfs_hybrid; rw [hs3]; rfl
  have e := key _ _ _ _ _ _ h1 h2 h3
  refine ⟨s1.distances, (top_down_loop_final g hg hN _ s1 hs1).1, h1, ?_, ?_⟩
  · rw [h2, e.1]
  · rw [h3, e.1, e.2]

/-- Witness of C2 on the line graph `0→1→2→3→4`. -/
theorem bfs_variants_agree_witness :
    well_formed line5 ∧ is_transpose line5 ∧ 1 ≤ line5.num_nodes ∧
    bfs_top_down line5 5 = some [0, 1, 2, 3, 4] ∧
    ((∃ D, D.length = line5.num_nodes ∧ bfs_top_down line5 line5.num_nodes = some D ∧
      bfs_bottom_up line5 line5.num_nodes = some D ∧ bfs_hybrid line5 line5.num_nodes = some D) ∧
    ∀ f1 f2 f3 D1 D2 D3, bfs_top_down line5 f1 = some D1 → bfs_bottom_up line5 f2 = some D2 →
      bfs_hybrid line5 f3 = some D3 → D1 = D2 ∧ D2 = D3) :=
  ⟨by decide, by decide, by decide, by decide,
    bfs_variants_agree line5 (by decide) (by decide) (by decide)⟩

/-- C7: on a well-formed graph with at least one vertex whose incoming adjacency is the
transpose of the outgoing one, each of `bfs_top_down`, `bfs_bottom_up` and `bfs_hybrid`
terminates (its loop returns within `num_nodes` passes), and whenever its loop returns it
has called its step function at most `num_nodes` times. -/
theorem bfs_drivers_terminate (g : Graph) (hg : well_formed g) (ht : is_transpose g)
    (hN : 1 ≤ g.num_nodes) :
    ((∃ s, bfs_top_down_loop g g.num_nodes (bfs_init g) = some s) ∧
      ∀ fuel s, bfs_top_down_loop g fuel (bfs_init g) = some s → s.steps ≤ g.num_nodes) ∧
    ((∃ s, bfs_bottom_up_loop g g.num_nodes (bottom_up_init g) = some s) ∧
      ∀ fuel s, bfs_bottom_up_loop g fuel (bottom_up_init g) = some s →
        s.steps ≤ g.num_nodes) ∧
    ((∃ s, bfs_hybrid_loop g g.num_nodes (bfs_init g) = some s) ∧
      ∀ fuel s, bfs_hybrid_loop g fuel (bfs_init g) = some s → s.steps ≤ g.num_nodes) := by
  refine ⟨⟨top_down_loop_terminates g hg hN, ?_⟩, ⟨bottom_up_loop_terminates g hg ht hN, ?_⟩,
    ⟨hybrid_loop_terminates g hg ht hN, ?_⟩⟩
  · intro fuel s h
    obtain ⟨k, hk, rfl⟩ := while_loop_passes_le _ _ (LevelInv g) g.num_nodes
      (fun L s h => levelInv_top_down_body g hg hN L s h)
      (fun L s h hc => levelInv_bound g hg hN L s h hc) (bfs_init g) (levelInv_init g hN)
      fuel s h
    rw [top_down_steps_iterate]
    show 0 + k ≤ _
    omega
  · intro fuel s h
    obtain ⟨k, hk, rfl⟩ := while_loop_passes_le _ _ (BottomUpInv g) g.num_nodes
      (fun L s h => bottomUpInv_body g hg ht hN L s h)
      (fun L s h hc => bottomUpInv_bound g hg hN L s h hc) (bottom_up_init g)
      (bottomUpInv_init g hN) fuel s h
    rw [bottom_up_steps_iterate]
    show 0 + k ≤ _
    omega
  · intro fuel s h
    obtain ⟨k, hk, rfl⟩ := while_loop_passes_le _ _
      (fun L s => LevelInv g L s ∧ s.iteration = (L : Int)) g.num_nodes
      (fun L s h => levelInv_hybrid_body g hg ht hN L s h)
      (fun L s h hc => levelInv_bound g hg hN L s h.1 hc) (bfs_init g)
      ⟨levelInv_init g hN, rfl⟩ fuel s h
    rw [hybrid_steps_iterate]
    show 0 + k ≤ _
    omega

/-- Witness of C7 on the cycle `0→1→2→0`. -/
theorem bfs_drivers_terminate_witness :
    well_formed cycle3 ∧ is_transpose cycle3 ∧ 1 ≤ cycle3.num_nodes ∧
    bfs_bottom_up cycle3 3 = some [0, 1, 2] ∧
    (((∃ s, bfs_top_down_loop cycle3 cycle3.num_nodes (bfs_init cycle3) = some s) ∧
      ∀ fuel s, bfs_top_down_loop cycle3 fuel (bfs_init cycle3) = some s →
        s.steps ≤ cycle3.num_nodes) ∧
    ((∃ s, bfs_bottom_up_loop cycle3 cycle3.num_nodes (bottom_up_init cycle3) = some s) ∧
      ∀ fuel s, bfs_bottom_up_loop cycle3 fuel (bottom_up_init cycle3) = some s →
        s.steps ≤ cycle3.num_nodes) ∧
    ((∃ s, bfs_hybrid_loop cycle3 cycle3.num_nodes (bfs_init cycle3) = some s) ∧
      ∀ fuel s, bfs_hybrid_loop cycle3 fuel (bfs_init cycle3) = some s →
        s.steps ≤ cycle3.num_nodes)) :=
  ⟨by decide, by decide, by decide, by decide,
    bfs_drivers_terminate cycle3 (by decide) (by decide) (by decide)⟩

/-- C8: in `bfs_top_down` and in `bfs_hybrid`, on every well-formed graph (parallel edges
and self-loops included), the frontier buffer `vertices[0..count)` holds each vertex id at
most once at the end of every level, that is after any number `k` of passes of the level
loop. -/
theorem frontier_nodup (g : Graph) (hg : well_formed g) (k : Nat) :
    ((bfs_top_down_body g)^[k] (bfs_init g)).frontier.vertices.Nodup ∧
    ((bfs_hybrid_body g)^[k] (bfs_init g)).frontier.vertices.Nodup := by
  by_cases h0 : g.num_nodes = 0
  · exact frontier_nodup_of_zero g hg h0 k
  have hN : 1 ≤ g.num_nodes := Nat.one_le_iff_ne_zero.2 h0
  constructor
  · exact (iterate_inv (bfs_top_down_body g)
      (fun L s => FrontInv g L s.frontier.vertices s.distances)
      (fun L s h => frontInv_top_down_body g hg L s h) (bfs_init g) (frontInv_init g hN) k).nodup
  · exact (iterate_inv (bfs_hybrid_body g)
      (fun L s => FrontInv g L s.frontier.vertices s.distances ∧ s.iteration = (L : Int))
      (fun L s h => frontInv_hybrid_body g hg L s h) (bfs_init g)
      ⟨frontInv_init g hN, rfl⟩ k).1.nodup

/-- Witness of C8 on a graph with a self-loop and a parallel edge. -/
theorem frontier_nodup_witness :
    well_formed multi2 ∧
    ((bfs_top_down_body multi2)^[1] (bfs_init multi2)).frontier.vertices = [1] ∧
    ((bfs_hybrid_body multi2)^[1] (bfs_init multi2)).frontier.vertices = [1] ∧
    (((bfs_top_down_body multi2)^[1] (bfs_init multi2)).frontier.vertices.Nodup ∧
    ((bfs_hybrid_body multi2)^[1] (bfs_init multi2)).frontier.vertices.Nodup) :=
  ⟨by decide, by decide, by decide, frontier_nodup multi2 (by decide) 1⟩

/-- C3: one pass of the loop of `pageRank`, started from the score vector `s` in
`solution` (an array of `num_nodes` entries), leaves in `solution` the vector with
`s'[i] = damping * (sum over the incoming list of i, with multiplicity, of s[u] / outdeg(u))
+ (1 - damping)/N + S` for every vertex `i`, where `S = damping * (sum of s[v] over the
vertices v with out-degree 0) / N`; and the first pass starts from `s[i] = 1/N`. -/
theorem pageRank_update (g : Graph) (damping convergence : ℚ) (s : pr_state)
    (hs : s.solution.length = num_nodes g) :
    (pageRank_body g damping convergence s).solution.length = num_nodes g ∧
    (∀ i, i < num_nodes g →
      (pageRank_body g damping convergence s).solution.getD i 0
        = spec_score_next g s.solution damping i) ∧
    (∀ fuel, pageRank_run g damping convergence (fuel + 1)
      = pageRank_loop g damping convergence fuel
          (pageRank_body g damping convergence
            { solution := pageRank_init g, converged := false, iterations := 0 })) ∧
    (pageRank_init g).length = num_nodes g ∧
    ∀ i, i < num_nodes g → (pageRank_init g).getD i 0 = 1 / (num_nodes g : ℚ) := by
  refine ⟨?_, ?_, ?_, pageRank_init_length g, pageRank_init_getD g⟩
  · rw [pageRank_body_eq g _ _ s hs]
    exact score_new_length g _ _
  · intro i hi
    rw [pageRank_body_eq g _ _ s hs]
    show (score_new g s.solution damping).getD i 0 = _
    rw [score_new_getD g _ _ i hi, score_new_entry_eq]
  · intro fuel
    unfold pageRank_run pageRank_loop
    rw [while_loop_succ]
    rfl

/-- Witness of C3 on the graph `0→1, 0→2`, started from the scores `[1/2, 1/4, 1/4]`. -/
theorem pageRank_update_witness :
    ([1/2, 1/4, 1/4] : List ℚ).length = num_nodes fork3 ∧
    ((pageRank_body fork3 (85/100) (1/10000000)
        { solution := [1/2, 1/4, 1/4], converged := false, iterations := 0 }).solution.length
      = num_nodes fork3 ∧
    (∀ i, i < num_nodes fork3 →
      (pageRank_body fork3 (85/100) (1/10000000)
        { solution := [1/2, 1/4, 1/4], converged := false, iterations := 0 }).solution.getD i 0
        = spec_score_next fork3 [1/2, 1/4, 1/4] (85/100) i) ∧
    (∀ fuel, pageRank_run fork3 (85/100) (1/10000000) (fuel + 1)
      = pageRank_loop fork3 (85/100) (1/10000000) fuel
          (pageRank_body fork3 (85/100) (1/10000000)
            { solution := pageRank_init fork3, converged := false, iterations := 0 })) ∧
    (pageRank_init fork3).length = num_nodes fork3 ∧
    ∀ i, i < num_nodes fork3 → (pageRank_init fork3).getD i 0 = 1 / (num_nodes fork3 : ℚ)) :=
  ⟨rfl, pageRank_update fork3 (85/100) (1/10000000)
    { solution := [1/2, 1/4, 1/4], converged := false, iterations := 0 } rfl⟩

/-- C4: in exact arithmetic, on a well-formed graph with at least one vertex whose incoming
adjacency is the transpose of the outgoing one, and for any damping, the scores sum to
exactly 1 at initialisation and after every pass of the loop of `pageRank`; hence the
scores that `pageRank` returns sum to 1. -/
theorem pageRank_sum_one (g : Graph) (hg : well_formed g) (ht : is_transpose g)
    (hN : 1 ≤ num_nodes g) (damping convergence : ℚ) :
    (pageRank_init g).sum = 1 ∧
    (∀ k, ((pageRank_body g damping convergence)^[k]
        { solution := pageRank_init g, converged := false, iterations := 0 }).solution.sum = 1) ∧
    ∀ fuel r, pageRank g damping convergence fuel = some r → r.sum = 1 := by
  refine ⟨pageRank_init_sum g hN, ?_, ?_⟩
  · intro k
    rw [pageRank_iterate_solution]
    exact pr_scores_sum g hg ht hN damping k
  · intro fuel r h
    unfold pageRank at h
    cases hrun : pageRank_run g damping convergence fuel with
    | none => rw [hrun] at h; exact absurd h (by simp)
    | some st =>
      rw [hrun] at h
      obtain ⟨k, _, _, _, hst⟩ := (pageRank_run_eq_some g damping convergence fuel st).1 hrun
      have hr : r = st.solution := by simpa using h.symm
      rw [hr, hst]
      exact pr_scores_sum g hg ht hN damping (k + 1)

/-- Witness of C4 on the graph `0→1, 0→2` with damping 0.85. -/
theorem pageRank_sum_one_witness :
    well_formed fork3 ∧ is_transpose fork3 ∧ 1 ≤ num_nodes fork3 ∧
    ((pageRank_init fork3).sum = 1 ∧
    (∀ k, ((pageRank_body fork3 (85/100) (1/10000000))^[k]
        { solution := pageRank_init fork3, converged := false, iterations := 0 }).solution.sum
          = 1) ∧
    ∀ fuel r, pageRank fork3 (85/100) (1/10000000) fuel = some r → r.sum = 1) :=
  ⟨by decide, by decide, by decide,
    pageRank_sum_one fork3 (by decide) (by decide) (by decide) (85/100) (1/10000000)⟩

/-- C5: in exact arithmetic, on a well-formed graph with at least one vertex whose incoming
adjacency is the transpose of the outgoing one (strongly connected or not), for every
damping with `0 ≤ damping < 1` and every `convergence > 0`, the loop of `pageRank`
terminates after finitely many passes: there is a first pass `k` whose L1 change
`global_diff` is below `convergence`, and every run with more than `k` passes of fuel
returns after `k + 1` passes. -/
theorem pageRank_terminates (g : Graph) (hg : well_formed g) (ht : is_transpose g)
    (hN : 1 ≤ num_nodes g) (damping convergence : ℚ) (hd0 : 0 ≤ damping) (hd1 : damping < 1)
    (hc : 0 < convergence) :
    ∃ k, pr_delta g damping k < convergence ∧
      (∀ j, j < k → ¬ pr_delta g damping j < convergence) ∧
      ∀ fuel, k < fuel → pageRank_run g damping convergence fuel
        = some { solution := pr_scores g damping (k + 1), converged := true,
                 iterations := k + 1 } := by
  obtain ⟨k, hk, hmin⟩ := exists_first_pr_delta_lt g damping convergence
    (exists_pr_delta_lt g hg ht hN damping convergence hd0 hd1 hc)
  exact ⟨k, hk, hmin, fun fuel hf => pageRank_run_of_first g damping convergence k hk hmin fuel hf⟩

/-- Witness of C5 on the strongly connected graph `0↔1` with damping 0.85 and
convergence 1e-7. -/
theorem pageRank_terminates_witness :
    well_formed mutual2 ∧ is_transpose mutual2 ∧ 1 ≤ num_nodes mutual2 ∧
    (0 : ℚ) ≤ 85/100 ∧ (85/100 : ℚ) < 1 ∧ (0 : ℚ) < 1/10000000 ∧
    ∃ k, pr_delta mutual2 (85/100) k < 1/10000000 ∧
      (∀ j, j < k → ¬ pr_delta mutual2 (85/100) j < 1/10000000) ∧
      ∀ fuel, k < fuel → pageRank_run mutual2 (85/100) (1/10000000) fuel
        = some { solution := pr_scores mutual2 (85/100) (k + 1), converged := true,
                 iterations := k + 1 } :=
  ⟨by decide, by decide, by decide, by norm_num, by norm_num, by norm_num,
    pageRank_terminates mutual2 (by decide) (by decide) (by decide) (85/100) (1/10000000)
      (by norm_num) (by norm_num) (by norm_num)⟩

/-- C6: `pageRank` makes at least one pass of its loop, and it returns exactly in the first
pass `k` for which `Delta_k`, the sum over all `i` of the absolute value
`|score_new[i] - solution[i]|`, is strictly below `convergence`; the vector it returns is
`score_new` of that pass. -/
theorem pageRank_stops_at_first (g : Graph) (damping convergence : ℚ) (fuel : Nat)
    (r : pr_state) :
    (pageRank_run g damping convergence fuel = some r ↔
      ∃ k, k < fuel ∧ pr_delta g damping k < convergence ∧
        (∀ j, j < k → ¬ pr_delta g damping j < convergence) ∧
        r = { solution := score_new g (pr_scores g damping k) damping, converged := true,
              iterations := k + 1 }) ∧
    (∀ k, pr_delta g damping k
      = ∑ i ∈ Finset.range (num_nodes g),
          |(score_new g (pr_scores g damping k) damping).getD i 0
            - (pr_scores g damping k).getD i 0|) ∧
    (∀ k, (pageRank_body g damping convergence)^[k]
        { solution := pageRank_init g, converged := false, iterations := 0 }
      = { solution := pr_scores g damping k,
          converged := decide (0 < k ∧ pr_delta g damping (k - 1) < convergence),
          iterations := k }) ∧
    pageRank_run g damping convergence 0 = none := by
  refine ⟨pageRank_run_eq_some g damping convergence fuel r, fun k => rfl, ?_, ?_⟩
  · intro k
    cases k with
    | zero => rfl
    | succ k =>
      rw [pageRank_body_iterate]
      simp
  · unfold pageRank_run pageRank_loop
    rw [while_loop_zero]
    rfl

/-- Witness of C6 on the two-node mutual graph `0↔1`: no run returns without a pass, and
with damping 0.85 and convergence 1e-7 the run returns in its first pass. -/
theorem pageRank_stops_at_first_witness :
    pageRank_run mutual2 (85/100) (1/10000000) 0 = none ∧
    pageRank_run mutual2 (85/100) (1/10000000) 3
      = some { solution := [1 / 2, 1 / 2], converged := true, iterations := 1 } :=
  ⟨(pageRank_stops_at_first mutual2 (85/100) (1/10000000) 0
      { solution := [], converged := false, iterations := 0 }).2.2.2,
    (pageRank_stops_at_first mutual2 (85/100) (1/10000000) 3
      { solution := [1 / 2, 1 / 2], converged := true, iterations := 1 }).1.2
      ⟨0, by omega, by rw [(mutual2_first_pass (85/100)).2]; norm_num,
        fun j hj => absurd hj (Nat.not_lt_zero j),
        by rw [(mutual2_first_pass (85/100)).1]⟩⟩

/-- C9: in exact arithmetic, on a well-formed graph with at least one vertex, no sink, and
`sum over the incoming list of i of 1/outdeg(u) = 1` at every vertex `i`, for every damping
and every `convergence > 0`, `pageRank` stops after exactly one pass and returns exactly
`1/N` at every vertex. -/
theorem pageRank_uniform (g : Graph) (hg : well_formed g) (hN : 1 ≤ num_nodes g)
    (hsink : ∀ v, v < num_nodes g → outgoing_size g v ≠ 0)
    (hin : ∀ i, i < num_nodes g →
      ((incoming_list g i).map (fun u => 1 / (outgoing_size g u : ℚ))).sum = 1)
    (damping convergence : ℚ) (hc : 0 < convergence) (fuel : Nat) (hf : 1 ≤ fuel) :
    pageRank_run g damping convergence fuel
      = some { solution := List.replicate (num_nodes g) (1 / (num_nodes g : ℚ)),
               converged := true, iterations := 1 } ∧
    pageRank g damping convergence fuel
      = some (List.replicate (num_nodes g) (1 / (num_nodes g : ℚ))) := by
  have h1 : pr_scores g damping 1 = pageRank_init g :=
    score_new_uniform g hg hN hsink hin damping
  have h0 : pr_delta g damping 0 < convergence := by
    unfold pr_delta
    rw [h1]
    show l1_change g (pageRank_init g) (pageRank_init g) < _
    rw [l1_change_self]
    exact hc
  have hrun := pageRank_run_of_first g damping convergence 0 h0
    (fun j hj => absurd hj (Nat.not_lt_zero j)) fuel hf
  rw [h1] at hrun
  refine ⟨hrun, ?_⟩
  unfold pageRank
  rw [hrun]
  rfl

/-- C10: in exact arithmetic, on every graph with at least one vertex and for every damping
with `0 ≤ damping < 1`, after every pass of the loop of `pageRank` every score, that of a
sink included, is at least `(1 - damping)/N` and so strictly positive; the same holds for
the scores that `pageRank` returns. -/
theorem pageRank_scores_positive (g : Graph) (hN : 1 ≤ num_nodes g) (damping convergence : ℚ)
    (hd0 : 0 ≤ damping) (hd1 : damping < 1) :
    (∀ k i, i < num_nodes g →
      (1 - damping) / (num_nodes g : ℚ) ≤
        ((pageRank_body g damping convergence)^[k + 1]
          { solution := pageRank_init g, converged := false, iterations := 0 }).solution.getD i 0
      ∧ 0 < ((pageRank_body g damping convergence)^[k + 1]
          { solution := pageRank_init g, converged := false, iterations := 0 }).solution.getD i 0)
    ∧ ∀ fuel r, pageRank g damping convergence fuel = some r → ∀ i, i < num_nodes g →
      (1 - damping) / (num_nodes g : ℚ) ≤ r.getD i 0 ∧ 0 < r.getD i 0 := by
  constructor
  · intro k i hi
    rw [pageRank_iterate_solution]
    exact pr_scores_ge g hN damping hd0 hd1 k i hi
  · intro fuel r h i hi
    unfold pageRank at h
    cases hrun : pageRank_run g damping convergence fuel with
    | none => rw [hrun] at h; exact absurd h (by simp)
    | some st =>
      rw [hrun] at h
      obtain ⟨k, _, _, _, hst⟩ := (pageRank_run_eq_some g damping convergence fuel st).1 hrun
      have hr : r = st.solution := by simpa using h.symm
      rw [hr, hst]
      exact pr_scores_ge g hN damping hd0 hd1 k i hi

/-- Witness of C9 on the two-node mutual graph `0↔1` with damping 0.85: `pageRank` returns
`[1/2, 1/2]` after one pass. -/
theorem pageRank_uniform_witness :
    well_formed mutual2 ∧ 1 ≤ num_nodes mutual2 ∧
    (∀ v, v < num_nodes mutual2 → outgoing_size mutual2 v ≠ 0) ∧
    (∀ i, i < num_nodes mutual2 →
      ((incoming_list mutual2 i).map (fun u => 1 / (outgoing_size mutual2 u : ℚ))).sum = 1) ∧
    pageRank_run mutual2 (85/100) (1/10000000) 1
      = some { solution := [1 / 2, 1 / 2], converged := true, iterations := 1 } ∧
    pageRank mutual2 (85/100) (1/10000000) 1 = some [1 / 2, 1 / 2] :=
  ⟨by decide, by decide, by decide, mutual2_in_weights,
    mutual2_uniform ▸ pageRank_uniform mutual2 (by decide) (by decide) (by decide)
      mutual2_in_weights (85/100) (1/10000000) (by norm_num) 1 (le_refl 1)⟩

/-- Witness of C10 on the graph `0→1, 0→2` with damping 0.85: the vertices 1 and 2 are
sinks, `pageRank` returns, and the scores it returns at 1 and 2 are positive. -/
theorem pageRank_scores_positive_witness :
    1 ≤ num_nodes fork3 ∧ (0 : ℚ) ≤ 85/100 ∧ (85/100 : ℚ) < 1 ∧
    outgoing_size fork3 1 = 0 ∧ outgoing_size fork3 2 = 0 ∧
    (∃ fuel r, pageRank fork3 (85/100) (1/10000000) fuel = some r) ∧
    ((∀ k i, i < num_nodes fork3 →
      (1 - 85/100) / (num_nodes fork3 : ℚ) ≤
        ((pageRank_body fork3 (85/100) (1/10000000))^[k + 1]
          { solution := pageRank_init fork3, converged := false,
            iterations := 0 }).solution.getD i 0
      ∧ 0 < ((pageRank_body fork3 (85/100) (1/10000000))^[k + 1]
          { solution := pageRank_init fork3, converged := false,
            iterations := 0 }).solution.getD i 0)
    ∧ ∀ fuel r, pageRank fork3 (85/100) (1/10000000) fuel = some r →
      ∀ i, i < num_nodes fork3 →
        (1 - 85/100) / (num_nodes fork3 : ℚ) ≤ r.getD i 0 ∧ 0 < r.getD i 0) :=
  ⟨by decide, by norm_num, by norm_num, by decide, by decide,
    (by
      obtain ⟨k, hk, hmin⟩ := exists_first_pr_delta_lt fork3 (85/100) (1/10000000)
        (exists_pr_delta_lt fork3 (by decide) (by decide) (by decide) (85/100) (1/10000000)
          (by norm_num) (by norm_num) (by norm_num))
      refine ⟨k + 1, pr_scores fork3 (85/100) (k + 1), ?_⟩
      unfold pageRank
      rw [pageRank_run_of_first fork3 (85/100) (1/10000000) k hk hmin (k + 1) (by omega)]
      rfl),
    pageRank_scores_positive fork3 (by decide) (85/100) (1/10000000) (by norm_num)
      (by norm_num)⟩

/-- C11: on a well-formed graph whose incoming adjacency is the transpose of the outgoing
one, every division of the main update of `pageRank`, `solution[u] / outgoing_size(g, u)`
for an entry `u` of the incoming list of a vertex `i`, has a divisor
`outgoing_size(g, u) ≥ 1`: no vertex of an incoming list is a sink, so no division by zero
is met. -/
theorem pageRank_divisor_pos (g : Graph) (hg : well_formed g) (ht : is_transpose g)
    (i u : Nat) (hi : i < num_nodes g) (hu : u ∈ incoming_list g i) :
    1 ≤ outgoing_size g u ∧ (outgoing_size g u : ℚ) ≠ 0 ∧ u ∉ sink_nodes g := by
  have h := outgoing_size_pos_of_mem_incoming g hg ht i u hi hu
  refine ⟨h, ?_, not_mem_sink_nodes g u h⟩
  have : outgoing_size g u ≠ 0 := by omega
  exact_mod_cast this

/-- Witness of C11 on the graph `0→1, 0→2`: the incoming list of the sink 1 holds the
vertex 0, whose out-degree is 2. -/
theorem pageRank_divisor_pos_witness :
    well_formed fork3 ∧ is_transpose fork3 ∧ 1 < num_nodes fork3 ∧
    0 ∈ incoming_list fork3 1 ∧ outgoing_size fork3 0 = 2 ∧
    (1 ≤ outgoing_size fork3 0 ∧ (outgoing_size fork3 0 : ℚ) ≠ 0 ∧ 0 ∉ sink_nodes fork3) :=
  ⟨by decide, by decide, by decide, by decide, by decide,
    pageRank_divisor_pos fork3 (by decide) (by decide) 1 0 (by decide) (by decide)⟩

/-- C18: each of `top_down_step`, `botton_up_step` and `bottom_up_step_2` leaves unchanged
every entry `distances[v]` that was not `-1` at entry (only entries equal to `-1` are
written); so in each of the three drivers a distance that is not `-1` after `k` passes of
the loop is the same after any later number `j` of passes. -/
theorem distances_frame (g : Graph) (F nf : vertex_set) (D : List Int) (L : Int) (v : Nat)
    (hv : D.getD v 0 ≠ NOT_VISITED_MARKER) :
    (top_down_step g F nf D).2.getD v 0 = D.getD v 0 ∧
    (botton_up_step g D L).1.getD v 0 = D.getD v 0 ∧
    (bottom_up_step_2 g F nf D L).2.getD v 0 = D.getD v 0 ∧
    (∀ k j w, k ≤ j →
      ((bfs_top_down_body g)^[k] (bfs_init g)).distances.getD w 0 ≠ NOT_VISITED_MARKER →
      ((bfs_top_down_body g)^[j] (bfs_init g)).distances.getD w 0
        = ((bfs_top_down_body g)^[k] (bfs_init g)).distances.getD w 0) ∧
    (∀ k j w, k ≤ j →
      ((bfs_bottom_up_body g)^[k] (bottom_up_init g)).distances.getD w 0 ≠ NOT_VISITED_MARKER →
      ((bfs_bottom_up_body g)^[j] (bottom_up_init g)).distances.getD w 0
        = ((bfs_bottom_up_body g)^[k] (bottom_up_init g)).distances.getD w 0) ∧
    (∀ k j w, k ≤ j →
      ((bfs_hybrid_body g)^[k] (bfs_init g)).distances.getD w 0 ≠ NOT_VISITED_MARKER →
      ((bfs_hybrid_body g)^[j] (bfs_init g)).distances.getD w 0
        = ((bfs_hybrid_body g)^[k] (bfs_init g)).distances.getD w 0) := by
  refine ⟨top_down_step_frame g F nf D v hv, botton_up_step_frame g D L v hv,
    bottom_up_step_2_frame g F nf D L v hv, ?_, ?_, ?_⟩
  · intro k j w hkj hw
    exact iterate_frame (bfs_top_down_body g) (fun s => s.distances)
      (fun s v hv => top_down_step_frame g s.frontier (vertex_set_clear s.new_frontier)
        s.distances v hv) (bfs_init g) k j hkj w hw
  · intro k j w hkj hw
    exact iterate_frame (bfs_bottom_up_body g) (fun s => s.distances)
      (fun s v hv => botton_up_step_frame g s.distances s.iteration v hv)
      (bottom_up_init g) k j hkj w hw
  · intro k j w hkj hw
    refine iterate_frame (bfs_hybrid_body g) (fun s => s.distances) ?_ (bfs_init g) k j hkj w hw
    intro s v hv
    show (bfs_hybrid_body g s).distances.getD v 0 = _
    unfold bfs_hybrid_body
    by_cases hdir : (g.num_nodes : Int) - s.total_counter < (s.frontier.count : Int)
    · simp only [if_pos hdir]
      exact bottom_up_step_2_frame g s.frontier (vertex_set_clear s.new_frontier)
        s.distances s.iteration v hv
    · simp only [if_neg hdir]
      exact top_down_step_frame g s.frontier (vertex_set_clear s.new_frontier)
        s.distances v hv

/-- Witness of C18 on the cycle `0→1→2→0`: the distance 0 of the root, at which the edge
`2→0` points, is still 0 after the step of level 2 and after all three passes. -/
theorem distances_frame_witness :
    ([0, 1, 2] : List Int).getD 0 0 ≠ NOT_VISITED_MARKER ∧
    (top_down_step cycle3 ⟨3, [2]⟩ ⟨3, []⟩ [0, 1, 2]).2 = [0, 1, 2] ∧
    ((top_down_step cycle3 ⟨3, [2]⟩ ⟨3, []⟩ [0, 1, 2]).2.getD 0 0 = ([0, 1, 2] : List Int).getD 0 0 ∧
    (botton_up_step cycle3 [0, 1, 2] 2).1.getD 0 0 = ([0, 1, 2] : List Int).getD 0 0 ∧
    (bottom_up_step_2 cycle3 ⟨3, [2]⟩ ⟨3, []⟩ [0, 1, 2] 2).2.getD 0 0
      = ([0, 1, 2] : List Int).getD 0 0 ∧
    (∀ k j w, k ≤ j →
      ((bfs_top_down_body cycle3)^[k] (bfs_init cycle3)).distances.getD w 0
        ≠ NOT_VISITED_MARKER →
      ((bfs_top_down_body cycle3)^[j] (bfs_init cycle3)).distances.getD w 0
        = ((bfs_top_down_body cycle3)^[k] (bfs_init cycle3)).distances.getD w 0) ∧
    (∀ k j w, k ≤ j →
      ((bfs_bottom_up_body cycle3)^[k] (bottom_up_init cycle3)).distances.getD w 0
        ≠ NOT_VISITED_MARKER →
      ((bfs_bottom_up_body cycle3)^[j] (bottom_up_init cycle3)).distances.getD w 0
        = ((bfs_bottom_up_body cycle3)^[k] (bottom_up_init cycle3)).distances.getD w 0) ∧
    (∀ k j w, k ≤ j →
      ((bfs_hybrid_body cycle3)^[k] (bfs_init cycle3)).distances.getD w 0
        ≠ NOT_VISITED_MARKER →
      ((bfs_hybrid_body cycle3)^[j] (bfs_init cycle3)).distances.getD w 0
        = ((bfs_hybrid_body cycle3)^[k] (bfs_init cycle3)).distances.getD w 0)) :=
  ⟨by decide, by decide,
    distances_frame cycle3 ⟨3, [2]⟩ ⟨3, []⟩ [0, 1, 2] 2 0 (by decide)⟩

/-- C15: on a well-formed graph, for a frontier `F` all of whose vertices `u` have
`D[u] = L ≥ 0` and a cleared `new_frontier`, after `top_down_step` the new frontier holds,
each once and in some order (so `count` is their number), exactly the vertices `v` that had
`D[v] = -1` at entry and are the target of an outgoing edge of some `u` in `F`; and each
such `v` has `D[v] = L + 1` afterwards. -/
theorem top_down_step_spec (g : Graph) (hg : well_formed g) (L : Int) (hL : 0 ≤ L)
    (F nf : vertex_set) (D : List Int) (hlen : D.length = g.num_nodes)
    (hnf : nf.vertices = []) (hF : ∀ u, u ∈ F.vertices → D.getD u 0 = L) :
    (∀ v, v ∈ (top_down_step g F nf D).1.vertices ↔
      (D.getD v 0 = NOT_VISITED_MARKER ∧ ∃ u, u ∈ F.vertices ∧ v ∈ out_neighbors g u)) ∧
    (top_down_step g F nf D).1.vertices.Perm
      ((List.range g.num_nodes).filter (fun v =>
        decide (D.getD v 0 = NOT_VISITED_MARKER ∧ ∃ u, u ∈ F.vertices ∧ v ∈ out_neighbors g u))) ∧
    (top_down_step g F nf D).1.count
      = ((List.range g.num_nodes).filter (fun v =>
        decide (D.getD v 0 = NOT_VISITED_MARKER ∧
          ∃ u, u ∈ F.vertices ∧ v ∈ out_neighbors g u))).length ∧
    ∀ v, v ∈ (top_down_step g F nf D).1.vertices →
      (top_down_step g F nf D).2.getD v 0 = L + 1 := by
  obtain ⟨loc, h1, hc⟩ := top_down_step_char g hg L hL F nf D hlen hF
  have hmem : ∀ v, v ∈ (top_down_step g F nf D).1.vertices ↔
      (D.getD v 0 = NOT_VISITED_MARKER ∧ ∃ u, u ∈ F.vertices ∧ v ∈ out_neighbors g u) := by
    intro v
    rw [h1, hnf]
    simp only [List.nil_append]
    rw [hc.mem v, mem_td_targets]
    rfl
  have hperm : (top_down_step g F nf D).1.vertices.Perm
      ((List.range g.num_nodes).filter (fun v =>
        decide (D.getD v 0 = NOT_VISITED_MARKER ∧
          ∃ u, u ∈ F.vertices ∧ v ∈ out_neighbors g u))) := by
    apply perm_filter_range
    · rw [h1, hnf]; simp only [List.nil_append]; exact hc.nodup
    · intro v
      rw [hmem v, decide_eq_true_eq]
      constructor
      · rintro ⟨h2, u, hu, hv⟩
        exact ⟨out_neighbors_lt g hg u v hv, h2, u, hu, hv⟩
      · rintro ⟨_, h2⟩
        exact h2
  refine ⟨hmem, hperm, hperm.length_eq, ?_⟩
  intro v hv
  have hv2 := hv
  rw [h1, hnf] at hv2
  simp only [List.nil_append] at hv2
  have := hc.val v
  rw [if_pos ((hc.mem v).1 hv2)] at this
  exact this

/-- Witness of C15 on the graph with the self-loop `0→0` and the edge `0→1` twice, at
level 0: the new frontier is `[1]` and the distances become `[0, 1]`. -/
theorem top_down_step_spec_witness :
    well_formed multi2 ∧ (0 : Int) ≤ 0 ∧ ([0, -1] : List Int).length = multi2.num_nodes ∧
    (∀ u : Nat, u ∈ ([0] : List Nat) → ([0, -1] : List Int).getD u 0 = 0) ∧
    top_down_step multi2 ⟨2, [0]⟩ ⟨2, []⟩ [0, -1] = (⟨2, [1]⟩, [0, 1]) ∧
    ((∀ v, v ∈ (top_down_step multi2 ⟨2, [0]⟩ ⟨2, []⟩ [0, -1]).1.vertices ↔
      (([0, -1] : List Int).getD v 0 = NOT_VISITED_MARKER ∧
        ∃ u : Nat, u ∈ ([0] : List Nat) ∧ v ∈ out_neighbors multi2 u)) ∧
    (top_down_step multi2 ⟨2, [0]⟩ ⟨2, []⟩ [0, -1]).1.vertices.Perm
      ((List.range multi2.num_nodes).filter (fun v =>
        decide (([0, -1] : List Int).getD v 0 = NOT_VISITED_MARKER ∧
          ∃ u : Nat, u ∈ ([0] : List Nat) ∧ v ∈ out_neighbors multi2 u))) ∧
    (top_down_step multi2 ⟨2, [0]⟩ ⟨2, []⟩ [0, -1]).1.count
      = ((List.range multi2.num_nodes).filter (fun v =>
        decide (([0, -1] : List Int).getD v 0 = NOT_VISITED_MARKER ∧
          ∃ u : Nat, u ∈ ([0] : List Nat) ∧ v ∈ out_neighbors multi2 u))).length ∧
    ∀ v, v ∈ (top_down_step multi2 ⟨2, [0]⟩ ⟨2, []⟩ [0, -1]).1.vertices →
      (top_down_step multi2 ⟨2, [0]⟩ ⟨2, []⟩ [0, -1]).2.getD v 0 = 0 + 1) :=
  ⟨by decide, by decide, by decide, by decide, by decide,
    top_down_step_spec multi2 (by decide) 0 (by decide) ⟨2, [0]⟩ ⟨2, []⟩ [0, -1]
      (by decide) rfl (by decide)⟩

/-- C16: for a level `L ≥ 0`, `botton_up_step(g, D, L)` returns exactly the number of
vertices `v` with `D[v] = -1` at entry that have an entry `u` of their incoming list with
`D[u] == L`; afterwards each of those vertices has `D[v] = L + 1` and every other entry of
`D` is unchanged. -/
theorem botton_up_step_spec (g : Graph) (D : List Int) (L : Int) (hL : 0 ≤ L) :
    (botton_up_step g D L).2
      = (((List.range g.num_nodes).filter (fun v =>
          decide (D.getD v 0 = NOT_VISITED_MARKER ∧
            ∃ u, u ∈ in_neighbors g v ∧ D.getD u 0 = L))).length : Int) ∧
    (botton_up_step g D L).1.length = D.length ∧
    (∀ v, v < g.num_nodes → D.getD v 0 = NOT_VISITED_MARKER →
      (∃ u, u ∈ in_neighbors g v ∧ D.getD u 0 = L) →
      (botton_up_step g D L).1.getD v 0 = L + 1) ∧
    (∀ v, ¬ (v < g.num_nodes ∧ D.getD v 0 = NOT_VISITED_MARKER ∧
        ∃ u, u ∈ in_neighbors g v ∧ D.getD u 0 = L) →
      (botton_up_step g D L).1.getD v 0 = D.getD v 0) := by
  obtain ⟨loc, h1, hc⟩ := botton_up_step_char g L hL D
  refine ⟨?_, hc.len, ?_, ?_⟩
  · have hloc := hc.loc
    simp only at hloc
    rw [h1, hloc]
    congr 2
    apply List.filter_congr
    intro v _
    rw [Bool.eq_iff_iff, Bool.and_eq_true, decide_eq_true_eq, decide_eq_true_eq,
      has_parent_iff]
    rfl
  · intro v hv hd hp
    have := hc.val v
    rw [if_pos ⟨hd, List.mem_range.2 hv, (has_parent_iff g D L v).2 hp⟩] at this
    exact this
  · intro v hn
    have := hc.val v
    rw [if_neg] at this
    · exact this
    · rintro ⟨hd, hv, hp⟩
      exact hn ⟨List.mem_range.1 hv, hd, (has_parent_iff g D L v).1 hp⟩

/-- Witness of C16 on the graph `0→1, 0→2` at level 0: both sinks are found. -/
theorem botton_up_step_spec_witness :
    (0 : Int) ≤ 0 ∧ botton_up_step fork3 [0, -1, -1] 0 = ([0, 1, 1], 2) ∧
    ((botton_up_step fork3 [0, -1, -1] 0).2
      = (((List.range fork3.num_nodes).filter (fun v =>
          decide (([0, -1, -1] : List Int).getD v 0 = NOT_VISITED_MARKER ∧
            ∃ u, u ∈ in_neighbors fork3 v ∧ ([0, -1, -1] : List Int).getD u 0 = 0))).length
          : Int) ∧
    (botton_up_step fork3 [0, -1, -1] 0).1.length = ([0, -1, -1] : List Int).length ∧
    (∀ v, v < fork3.num_nodes → ([0, -1, -1] : List Int).getD v 0 = NOT_VISITED_MARKER →
      (∃ u, u ∈ in_neighbors fork3 v ∧ ([0, -1, -1] : List Int).getD u 0 = 0) →
      (botton_up_step fork3 [0, -1, -1] 0).1.getD v 0 = 0 + 1) ∧
    (∀ v, ¬ (v < fork3.num_nodes ∧ ([0, -1, -1] : List Int).getD v 0 = NOT_VISITED_MARKER ∧
        ∃ u, u ∈ in_neighbors fork3 v ∧ ([0, -1, -1] : List Int).getD u 0 = 0) →
      (botton_up_step fork3 [0, -1, -1] 0).1.getD v 0 = ([0, -1, -1] : List Int).getD v 0)) :=
  ⟨by decide, by decide, botton_up_step_spec fork3 [0, -1, -1] 0 (by decide)⟩

/-- C14: on a well-formed graph whose incoming adjacency is the transpose of the outgoing
one, for a distances array `D`, a level `L ≥ 0`, a duplicate-free frontier `F` that holds
exactly the vertices `u` with `D[u] == L`, and a cleared `new_frontier`,
`top_down_step(g, F, new_frontier, D)` and `bottom_up_step_2(g, F, new_frontier, D, L)`
produce the same distances array and new frontiers with the same vertices and the same
count (the one is a permutation of the other). -/
theorem steps_agree (g : Graph) (hg : well_formed g) (ht : is_transpose g) (L : Int)
    (hL : 0 ≤ L) (F nf : vertex_set) (D : List Int) (hlen : D.length = g.num_nodes)
    (hnf : nf.vertices = []) (_hnd : F.vertices.Nodup)
    (hF : ∀ u, u ∈ F.vertices ↔ (u < g.num_nodes ∧ D.getD u 0 = L)) :
    (top_down_step g F nf D).2 = (bottom_up_step_2 g F nf D L).2 ∧
    (∀ v, v ∈ (top_down_step g F nf D).1.vertices ↔
      v ∈ (bottom_up_step_2 g F nf D L).1.vertices) ∧
    (top_down_step g F nf D).1.vertices.Perm (bottom_up_step_2 g F nf D L).1.vertices ∧
    (top_down_step g F nf D).1.count = (bottom_up_step_2 g F nf D L).1.count := by
  obtain ⟨loc1, h1, hc1⟩ := top_down_step_char g hg L hL F nf D hlen
    (fun u hu => ((hF u).1 hu).2)
  obtain ⟨loc2, h2, hc2⟩ := bottom_up_step_2_char g L hL F nf D
  have hloc2 := hc2.loc
  simp only at hloc2
  have hmem : ∀ v, v ∈ loc1 ↔ v ∈ loc2 := by
    intro v
    rw [hc1.mem v, step_conditions_iff g hg ht L F.vertices D hF v, hloc2, List.mem_filter,
      Bool.and_eq_true, decide_eq_true_eq]
    tauto
  have hnd2 : loc2.Nodup := by
    rw [hloc2]; exact (List.nodup_range _).filter _
  have hperm : loc1.Perm loc2 := (List.perm_ext_iff_of_nodup hc1.nodup hnd2).2 hmem
  refine ⟨?_, ?_, ?_, ?_⟩
  · apply getD_ext_int _ _ (by rw [hc1.len, hc2.len])
    intro v _
    have e1 := hc1.val v
    have e2 := hc2.val v
    simp only at e1 e2
    rw [e1, e2]
    by_cases hcond : D.getD v 0 = -1 ∧ v ∈ (td_pairs g F.vertices).map Prod.snd
    · rw [if_pos hcond, if_pos ((step_conditions_iff g hg ht L F.vertices D hF v).1 hcond)]
    · rw [if_neg hcond,
        if_neg (fun h => hcond ((step_conditions_iff g hg ht L F.vertices D hF v).2 h))]
  · intro v
    rw [h1, h2, hnf]
    simp only [List.nil_append]
    exact hmem v
  · rw [h1, h2, hnf]
    simp only [List.nil_append]
    exact hperm
  · unfold vertex_set.count
    rw [h1, h2, hnf]
    simp only [List.nil_append]
    exact hperm.length_eq

/-- Witness of C14 on the graph `0→1, 0→2` at level 0. -/
theorem steps_agree_witness :
    well_formed fork3 ∧ is_transpose fork3 ∧ (0 : Int) ≤ 0 ∧
    ([0, -1, -1] : List Int).length = fork3.num_nodes ∧ ([0] : List Nat).Nodup ∧
    (∀ u : Nat, u ∈ ([0] : List Nat) ↔
      (u < fork3.num_nodes ∧ ([0, -1, -1] : List Int).getD u 0 = 0)) ∧
    top_down_step fork3 ⟨3, [0]⟩ ⟨3, []⟩ [0, -1, -1] = (⟨3, [1, 2]⟩, [0, 1, 1]) ∧
    ((top_down_step fork3 ⟨3, [0]⟩ ⟨3, []⟩ [0, -1, -1]).2
      = (bottom_up_step_2 fork3 ⟨3, [0]⟩ ⟨3, []⟩ [0, -1, -1] 0).2 ∧
    (∀ v, v ∈ (top_down_step fork3 ⟨3, [0]⟩ ⟨3, []⟩ [0, -1, -1]).1.vertices ↔
      v ∈ (bottom_up_step_2 fork3 ⟨3, [0]⟩ ⟨3, []⟩ [0, -1, -1] 0).1.vertices) ∧
    (top_down_step fork3 ⟨3, [0]⟩ ⟨3, []⟩ [0, -1, -1]).1.vertices.Perm
      (bottom_up_step_2 fork3 ⟨3, [0]⟩ ⟨3, []⟩ [0, -1, -1] 0).1.vertices ∧
    (top_down_step fork3 ⟨3, [0]⟩ ⟨3, []⟩ [0, -1, -1]).1.count
      = (bottom_up_step_2 fork3 ⟨3, [0]⟩ ⟨3, []⟩ [0, -1, -1] 0).1.count) :=
  ⟨by decide, by decide, by decide, by decide, by decide,
    (by
      intro u
      constructor
      · intro hu
        rw [List.mem_singleton] at hu
        subst hu
        decide
      · rintro ⟨hu, hd⟩
        have hu3 : u < 3 := hu
        interval_cases u
        · simp
        · exact absurd hd (by decide)
        · exact absurd hd (by decide)),
    by decide,
    steps_agree fork3 (by decide) (by decide) 0 (by decide) ⟨3, [0]⟩ ⟨3, []⟩ [0, -1, -1]
      (by decide) rfl (by decide)
      (by
        intro u
        constructor
        · intro hu
          rw [List.mem_singleton] at hu
          subst hu
          decide
        · rintro ⟨hu, hd⟩
          have hu3 : u < 3 := hu
          interval_cases u
          · simp
          · exact absurd hd (by decide)
          · exact absurd hd (by decide))⟩

/-- C12: on a well-formed graph, in `bfs_top_down` (its passes numbered `L = 0, 1, ...`) and
in `bfs_hybrid`, at the entry of the pass with level number `L`, for every vertex `u`:
`distances[u] == L` if and only if `u` is stored in the current frontier buffer; in
`bfs_hybrid` the variable `iteration` is `L` there, whichever of `top_down_step` and
`bottom_up_step_2` the earlier passes took. -/
theorem frontier_exact (g : Graph) (hg : well_formed g) (L u : Nat) (hu : u < g.num_nodes) :
    (((bfs_top_down_body g)^[L] (bfs_init g)).distances.getD u 0 = (L : Int) ↔
      u ∈ ((bfs_top_down_body g)^[L] (bfs_init g)).frontier.vertices) ∧
    (((bfs_hybrid_body g)^[L] (bfs_init g)).distances.getD u 0 = (L : Int) ↔
      u ∈ ((bfs_hybrid_body g)^[L] (bfs_init g)).frontier.vertices) ∧
    ((bfs_hybrid_body g)^[L] (bfs_init g)).iteration = (L : Int) := by
  have hN : 1 ≤ g.num_nodes := by omega
  have h1 := bufferInv_top_down_iterate g hg hN L
  have h2 := hybridInv_iterate g hg hN L
  refine ⟨?_, ?_, h2.iter⟩
  · constructor
    · intro hd; exact (h1.front u).2 ⟨hu, hd⟩
    · intro hm; exact ((h1.front u).1 hm).2
  · constructor
    · intro hd; exact (h2.buffers.front u).2 ⟨hu, hd⟩
    · intro hm; exact ((h2.buffers.front u).1 hm).2

/-- Witness of C12 on the graph `0→1, 0→2, 1→3, 2→3` at level 2, which `bfs_hybrid`
enters after a top-down and a bottom-up step: the frontier is `[3]`. -/
theorem frontier_exact_witness :
    well_formed diamond4 ∧ 3 < diamond4.num_nodes ∧
    ((bfs_hybrid_body diamond4)^[2] (bfs_init diamond4)).frontier.vertices = [3] ∧
    ((bfs_hybrid_body diamond4)^[2] (bfs_init diamond4)).distances = [0, 1, 1, 2] ∧
    ((((bfs_top_down_body diamond4)^[2] (bfs_init diamond4)).distances.getD 3 0
        = ((2 : Nat) : Int) ↔
      3 ∈ ((bfs_top_down_body diamond4)^[2] (bfs_init diamond4)).frontier.vertices) ∧
    (((bfs_hybrid_body diamond4)^[2] (bfs_init diamond4)).distances.getD 3 0
        = ((2 : Nat) : Int) ↔
      3 ∈ ((bfs_hybrid_body diamond4)^[2] (bfs_init diamond4)).frontier.vertices) ∧
    ((bfs_hybrid_body diamond4)^[2] (bfs_init diamond4)).iteration = ((2 : Nat) : Int)) :=
  ⟨by decide, by decide, by decide, by decide,
    frontier_exact diamond4 (by decide) 2 3 (by decide)⟩

/-- C17: in `bfs_hybrid`, on a well-formed graph with at least one vertex, at the point
where the direction is chosen in the pass of level `L`, `total_counter` is the number of
vertices `v` with `distances[v] != -1`; so `bottom_up_step_2` is taken exactly when the
number of unvisited vertices is below `frontier->count`, and `top_down_step` otherwise. -/
theorem hybrid_direction (g : Graph) (hg : well_formed g) (hN : 1 ≤ g.num_nodes) (L : Nat) :
    ((bfs_hybrid_body g)^[L] (bfs_init g)).total_counter
      = (visited_count g ((bfs_hybrid_body g)^[L] (bfs_init g)).distances : Int) ∧
    ((g.num_nodes : Int) - ((bfs_hybrid_body g)^[L] (bfs_init g)).total_counter
        < (((bfs_hybrid_body g)^[L] (bfs_init g)).frontier.count : Int) ↔
      unvisited_count g ((bfs_hybrid_body g)^[L] (bfs_init g)).distances
        < ((bfs_hybrid_body g)^[L] (bfs_init g)).frontier.count) ∧
    (unvisited_count g ((bfs_hybrid_body g)^[L] (bfs_init g)).distances
        < ((bfs_hybrid_body g)^[L] (bfs_init g)).frontier.count →
      ((bfs_hybrid_body g)^[L + 1] (bfs_init g)).frontier
        = (bottom_up_step_2 g ((bfs_hybrid_body g)^[L] (bfs_init g)).frontier
            (vertex_set_clear ((bfs_hybrid_body g)^[L] (bfs_init g)).new_frontier)
            ((bfs_hybrid_body g)^[L] (bfs_init g)).distances
            ((bfs_hybrid_body g)^[L] (bfs_init g)).iteration).1 ∧
      ((bfs_hybrid_body g)^[L + 1] (bfs_init g)).distances
        = (bottom_up_step_2 g ((bfs_hybrid_body g)^[L] (bfs_init g)).frontier
            (vertex_set_clear ((bfs_hybrid_body g)^[L] (bfs_init g)).new_frontier)
            ((bfs_hybrid_body g)^[L] (bfs_init g)).distances
            ((bfs_hybrid_body g)^[L] (bfs_init g)).iteration).2) ∧
    (¬ unvisited_count g ((bfs_hybrid_body g)^[L] (bfs_init g)).distances
        < ((bfs_hybrid_body g)^[L] (bfs_init g)).frontier.count →
      ((bfs_hybrid_body g)^[L + 1] (bfs_init g)).frontier
        = (top_down_step g ((bfs_hybrid_body g)^[L] (bfs_init g)).frontier
            (vertex_set_clear ((bfs_hybrid_body g)^[L] (bfs_init g)).new_frontier)
            ((bfs_hybrid_body g)^[L] (bfs_init g)).distances).1 ∧
      ((bfs_hybrid_body g)^[L + 1] (bfs_init g)).distances
        = (top_down_step g ((bfs_hybrid_body g)^[L] (bfs_init g)).frontier
            (vertex_set_clear ((bfs_hybrid_body g)^[L] (bfs_init g)).new_frontier)
            ((bfs_hybrid_body g)^[L] (bfs_init g)).distances).2) := by
  have h := hybridInv_iterate g hg hN L
  have hsum := visited_add_unvisited g ((bfs_hybrid_body g)^[L] (bfs_init g)).distances
  have hiff : ((g.num_nodes : Int) - ((bfs_hybrid_body g)^[L] (bfs_init g)).total_counter
        < (((bfs_hybrid_body g)^[L] (bfs_init g)).frontier.count : Int) ↔
      unvisited_count g ((bfs_hybrid_body g)^[L] (bfs_init g)).distances
        < ((bfs_hybrid_body g)^[L] (bfs_init g)).frontier.count) := by
    rw [h.total]
    constructor
    · intro hlt; omega
    · intro hlt; omega
  refine ⟨h.total, hiff, ?_, ?_⟩
  · intro hlt
    rw [Function.iterate_succ_apply']
    exact hybrid_body_bottom_up g _ (hiff.2 hlt)
  · intro hlt
    rw [Function.iterate_succ_apply']
    exact hybrid_body_top_down g _ (fun hh => hlt (hiff.1 hh))

/-- Witness of C17 on the graph `0→1, 0→2, 1→3, 2→3` at level 1: three vertices are
visited, one is not, the frontier holds two, and the bottom-up step is taken. -/
theorem hybrid_direction_witness :
    well_formed diamond4 ∧ 1 ≤ diamond4.num_nodes ∧
    ((bfs_hybrid_body diamond4)^[1] (bfs_init diamond4)).total_counter = 3 ∧
    unvisited_count diamond4 ((bfs_hybrid_body diamond4)^[1] (bfs_init diamond4)).distances = 1 ∧
    ((bfs_hybrid_body diamond4)^[1] (bfs_init diamond4)).frontier.count = 2 ∧
    (((bfs_hybrid_body diamond4)^[1] (bfs_init diamond4)).total_counter
      = (visited_count diamond4 ((bfs_hybrid_body diamond4)^[1] (bfs_init diamond4)).distances
          : Int) ∧
    ((diamond4.num_nodes : Int) - ((bfs_hybrid_body diamond4)^[1] (bfs_init diamond4)).total_counter
        < (((bfs_hybrid_body diamond4)^[1] (bfs_init diamond4)).frontier.count : Int) ↔
      unvisited_count diamond4 ((bfs_hybrid_body diamond4)^[1] (bfs_init diamond4)).distances
        < ((bfs_hybrid_body diamond4)^[1] (bfs_init diamond4)).frontier.count) ∧
    (unvisited_count diamond4 ((bfs_hybrid_body diamond4)^[1] (bfs_init diamond4)).distances
        < ((bfs_hybrid_body diamond4)^[1] (bfs_init diamond4)).frontier.count →
      ((bfs_hybrid_body diamond4)^[1 + 1] (bfs_init diamond4)).frontier
        = (bottom_up_step_2 diamond4 ((bfs_hybrid_body diamond4)^[1] (bfs_init diamond4)).frontier
            (vertex_set_clear ((bfs_hybrid_body diamond4)^[1] (bfs_init diamond4)).new_frontier)
            ((bfs_hybrid_body diamond4)^[1] (bfs_init diamond4)).distances
            ((bfs_hybrid_body diamond4)^[1] (bfs_init diamond4)).iteration).1 ∧
      ((bfs_hybrid_body diamond4)^[1 + 1] (bfs_init diamond4)).distances
        = (bottom_up_step_2 diamond4 ((bfs_hybrid_body diamond4)^[1] (bfs_init diamond4)).frontier
            (vertex_set_clear ((bfs_hybrid_body diamond4)^[1] (bfs_init diamond4)).new_frontier)
            ((bfs_hybrid_body diamond4)^[1] (bfs_init diamond4)).distances
            ((bfs_hybrid_body diamond4)^[1] (bfs_init diamond4)).iteration).2) ∧
    (¬ unvisited_count diamond4 ((bfs_hybrid_body diamond4)^[1] (bfs_init diamond4)).distances
        < ((bfs_hybrid_body diamond4)^[1] (bfs_init diamond4)).frontier.count →
      ((bfs_hybrid_body diamond4)^[1 + 1] (bfs_init diamond4)).frontier
        = (top_down_step diamond4 ((bfs_hybrid_body diamond4)^[1] (bfs_init diamond4)).frontier
            (vertex_set_clear ((bfs_hybrid_body diamond4)^[1] (bfs_init diamond4)).new_frontier)
            ((bfs_hybrid_body diamond4)^[1] (bfs_init diamond4)).distances).1 ∧
      ((bfs_hybrid_body diamond4)^[1 + 1] (bfs_init diamond4)).distances
        = (top_down_step diamond4 ((bfs_hybrid_body diamond4)^[1] (bfs_init diamond4)).frontier
            (vertex_set_clear ((bfs_hybrid_body diamond4)^[1] (bfs_init diamond4)).new_frontier)
            ((bfs_hybrid_body diamond4)^[1] (bfs_init diamond4)).distances).2)) :=
  ⟨by decide, by decide, by decide, by decide, by decide,
    hybrid_direction diamond4 (by decide) (by decide) 1⟩

/-- C19: on a well-formed graph, in `bfs_top_down` and in `bfs_hybrid`, with the levels
numbered `L = 0, 1, ...` as in the driver loop, after the step of level `L` every vertex
`v` with `distances[v] != -1` satisfies `0 ≤ distances[v] ≤ L + 1`. -/
theorem distances_level_bound (g : Graph) (hg : well_formed g) (L v : Nat)
    (hv : v < g.num_nodes) :
    (((bfs_top_down_body g)^[L + 1] (bfs_init g)).distances.getD v 0 ≠ NOT_VISITED_MARKER →
      0 ≤ ((bfs_top_down_body g)^[L + 1] (bfs_init g)).distances.getD v 0 ∧
      ((bfs_top_down_body g)^[L + 1] (bfs_init g)).distances.getD v 0 ≤ (L : Int) + 1) ∧
    (((bfs_hybrid_body g)^[L + 1] (bfs_init g)).distances.getD v 0 ≠ NOT_VISITED_MARKER →
      0 ≤ ((bfs_hybrid_body g)^[L + 1] (bfs_init g)).distances.getD v 0 ∧
      ((bfs_hybrid_body g)^[L + 1] (bfs_init g)).distances.getD v 0 ≤ (L : Int) + 1) := by
  have hN : 1 ≤ g.num_nodes := by omega
  constructor
  · intro hd
    have := rangeInv_bounds g (L + 1) _ (bufferInv_top_down_iterate g hg hN (L + 1)).range
      v hv hd
    exact ⟨this.1, by have := this.2; push_cast at this; exact this⟩
  · intro hd
    have := rangeInv_bounds g (L + 1) _ (hybridInv_iterate g hg hN (L + 1)).buffers.range
      v hv hd
    exact ⟨this.1, by have := this.2; push_cast at this; exact this⟩

/-- Witness of C19 on the line graph `0→1→2→3→4` after the step of level 1: the vertex 2
has the distance 2. -/
theorem distances_level_bound_witness :
    well_formed line5 ∧ 2 < line5.num_nodes ∧
    ((bfs_top_down_body line5)^[1 + 1] (bfs_init line5)).distances = [0, 1, 2, -1, -1] ∧
    ((((bfs_top_down_body line5)^[1 + 1] (bfs_init line5)).distances.getD 2 0
        ≠ NOT_VISITED_MARKER →
      0 ≤ ((bfs_top_down_body line5)^[1 + 1] (bfs_init line5)).distances.getD 2 0 ∧
      ((bfs_top_down_body line5)^[1 + 1] (bfs_init line5)).distances.getD 2 0
        ≤ ((1 : Nat) : Int) + 1) ∧
    (((bfs_hybrid_body line5)^[1 + 1] (bfs_init line5)).distances.getD 2 0
        ≠ NOT_VISITED_MARKER →
      0 ≤ ((bfs_hybrid_body line5)^[1 + 1] (bfs_init line5)).distances.getD 2 0 ∧
      ((bfs_hybrid_body line5)^[1 + 1] (bfs_init line5)).distances.getD 2 0
        ≤ ((1 : Nat) : Int) + 1)) :=
  ⟨by decide, by decide, by decide, distances_level_bound line5 (by decide) 1 2 (by decide)⟩

/-- C20: on a well-formed graph with at least one vertex, after any number `k` of passes
of the loop of `bfs_top_down` or of `bfs_hybrid`, both frontier buffers have the capacity
`max_vertices = num_nodes`, satisfy `count ≤ num_nodes` and hold only ids below
`num_nodes`, and the local set that the next step fills (whichever step it is) gets at most
`num_nodes` entries; so every write into a buffer or into a local set, which goes to an
index below the final `count`, goes to an index below the capacity `num_nodes`. -/
theorem frontier_capacity (g : Graph) (hg : well_formed g) (hN : 1 ≤ g.num_nodes) (k : Nat) :
    (((bfs_top_down_body g)^[k] (bfs_init g)).frontier.max_vertices = g.num_nodes ∧
      ((bfs_top_down_body g)^[k] (bfs_init g)).frontier.count ≤ g.num_nodes ∧
      (∀ v, v ∈ ((bfs_top_down_body g)^[k] (bfs_init g)).frontier.vertices → v < g.num_nodes) ∧
      (∀ i, i < ((bfs_top_down_body g)^[k] (bfs_init g)).frontier.count →
        i < ((bfs_top_down_body g)^[k] (bfs_init g)).frontier.max_vertices) ∧
      ((bfs_top_down_body g)^[k] (bfs_init g)).new_frontier.max_vertices = g.num_nodes ∧
      ((bfs_top_down_body g)^[k] (bfs_init g)).new_frontier.count ≤ g.num_nodes ∧
      (∀ v, v ∈ ((bfs_top_down_body g)^[k] (bfs_init g)).new_frontier.vertices →
        v < g.num_nodes) ∧
      (((bfs_top_down_body g)^[k] (bfs_init g)).frontier.vertices.foldl (top_down_node g)
        (((bfs_top_down_body g)^[k] (bfs_init g)).distances, [])).2.length ≤ g.num_nodes) ∧
    (((bfs_hybrid_body g)^[k] (bfs_init g)).frontier.max_vertices = g.num_nodes ∧
      ((bfs_hybrid_body g)^[k] (bfs_init g)).frontier.count ≤ g.num_nodes ∧
      (∀ v, v ∈ ((bfs_hybrid_body g)^[k] (bfs_init g)).frontier.vertices → v < g.num_nodes) ∧
      (∀ i, i < ((bfs_hybrid_body g)^[k] (bfs_init g)).frontier.count →
        i < ((bfs_hybrid_body g)^[k] (bfs_init g)).frontier.max_vertices) ∧
      ((bfs_hybrid_body g)^[k] (bfs_init g)).new_frontier.max_vertices = g.num_nodes ∧
      ((bfs_hybrid_body g)^[k] (bfs_init g)).new_frontier.count ≤ g.num_nodes ∧
      (∀ v, v ∈ ((bfs_hybrid_body g)^[k] (bfs_init g)).new_frontier.vertices →
        v < g.num_nodes) ∧
      (((bfs_hybrid_body g)^[k] (bfs_init g)).frontier.vertices.foldl (top_down_node g)
        (((bfs_hybrid_body g)^[k] (bfs_init g)).distances, [])).2.length ≤ g.num_nodes ∧
      ((List.range g.num_nodes).foldl
        (bottom_up_node_2 g ((bfs_hybrid_body g)^[k] (bfs_init g)).iteration)
        (((bfs_hybrid_body g)^[k] (bfs_init g)).distances, [])).2.length ≤ g.num_nodes) := by
  have key : ∀ s : bfs_state, BufferInv g k s →
      s.frontier.max_vertices = g.num_nodes ∧ s.frontier.count ≤ g.num_nodes ∧
      (∀ v, v ∈ s.frontier.vertices → v < g.num_nodes) ∧
      (∀ i, i < s.frontier.count → i < s.frontier.max_vertices) ∧
      s.new_frontier.max_vertices = g.num_nodes ∧ s.new_frontier.count ≤ g.num_nodes ∧
      (∀ v, v ∈ s.new_frontier.vertices → v < g.num_nodes) ∧
      (s.frontier.vertices.foldl (top_down_node g) (s.distances, [])).2.length
        ≤ g.num_nodes := by
    intro s h
    have hlt : ∀ v, v ∈ s.frontier.vertices → v < g.num_nodes :=
      fun v hv => ((h.front v).1 hv).1
    have hc : s.frontier.count ≤ g.num_nodes := nodup_length_le _ _ h.nodup hlt
    refine ⟨h.cap, hc, hlt, ?_, h.cap_new, nodup_length_le _ _ h.new_nodup h.new_lt,
      h.new_lt, ?_⟩
    · intro i hi
      rw [h.cap]
      omega
    · obtain ⟨_, h2, h3, _, _⟩ := top_down_step_generic g hg k s.frontier
        (vertex_set_clear s.new_frontier) s.distances rfl h.range
        (fun u hu => ((h.front u).1 hu).2)
      exact nodup_length_le _ _ h3 (fun v hv => ((h2 v).1 hv).1)
  have h1 := key _ (bufferInv_top_down_iterate g hg hN k)
  have hy := hybridInv_iterate g hg hN k
  have h2 := key _ hy.buffers
  refine ⟨h1, h2.1, h2.2.1, h2.2.2.1, h2.2.2.2.1, h2.2.2.2.2.1, h2.2.2.2.2.2.1,
    h2.2.2.2.2.2.2.1, h2.2.2.2.2.2.2.2, ?_⟩
  rw [hy.iter]
  obtain ⟨_, h4, h5, _, _⟩ := bottom_up_step_2_generic g k
    ((bfs_hybrid_body g)^[k] (bfs_init g)).frontier
    (vertex_set_clear ((bfs_hybrid_body g)^[k] (bfs_init g)).new_frontier)
    ((bfs_hybrid_body g)^[k] (bfs_init g)).distances rfl hy.buffers.range
  exact nodup_length_le _ _ h5 (fun v hv => ((h4 v).1 hv).1)

/-- Witness of C20 on the graph `0→1, 0→2, 1→3, 2→3` after one pass of `bfs_hybrid`: the
frontier holds `[1, 2]`, the other buffer still holds the root, and the bottom-up step
that follows stores the single vertex 3 in its local set. -/
theorem frontier_capacity_witness :
    well_formed diamond4 ∧ 1 ≤ diamond4.num_nodes ∧
    ((bfs_hybrid_body diamond4)^[1] (bfs_init diamond4)).frontier = ⟨4, [1, 2]⟩ ∧
    ((bfs_hybrid_body diamond4)^[1] (bfs_init diamond4)).new_frontier = ⟨4, [0]⟩ ∧
    ((List.range diamond4.num_nodes).foldl
        (bottom_up_node_2 diamond4 ((bfs_hybrid_body diamond4)^[1] (bfs_init diamond4)).iteration)
        (((bfs_hybrid_body diamond4)^[1] (bfs_init diamond4)).distances, [])).2 = [3] ∧
    ((bfs_hybrid_body diamond4)^[1] (bfs_init diamond4)).frontier.count ≤ diamond4.num_nodes ∧
    ((List.range diamond4.num_nodes).foldl
        (bottom_up_node_2 diamond4 ((bfs_hybrid_body diamond4)^[1] (bfs_init diamond4)).iteration)
        (((bfs_hybrid_body diamond4)^[1] (bfs_init diamond4)).distances, [])).2.length
      ≤ diamond4.num_nodes :=
  ⟨by decide, by decide, by decide, by decide, by decide,
    (frontier_capacity diamond4 (by decide) (by decide) 1).2.2.1,
    (frontier_capacity diamond4 (by decide) (by decide) 1).2.2.2.2.2.2.2.2.2⟩

/-- Counterexample to C13 as stated, on the graph with the vertices `0, 1, 2` and the edge
`0→1`: after the step of level 0 of `bfs_top_down` the distances are `[0, 1, -1]`; the
vertex 1 is at hop distance 1, which exceeds the level 0, and yet `distances[1] = 1`. So
neither "`distances[u] = d` iff the hop distance is `d` and `d ≤ L`" nor "`distances[u]` is
`-1` whenever the hop distance exceeds `L`" holds at `L = 0`. -/
theorem level_invariant_counterexample :
    ((bfs_top_down_body pair3)^[0 + 1] (bfs_init pair3)).distances = [0, 1, -1] ∧
    hop_distance pair3 1 1 ∧
    ¬ (∀ u, u < pair3.num_nodes → ∀ d : Nat,
        (((bfs_top_down_body pair3)^[0 + 1] (bfs_init pair3)).distances.getD u 0 = (d : Int) ↔
          (hop_distance pair3 u d ∧ d ≤ 0))) ∧
    ¬ (∀ u, u < pair3.num_nodes → (∀ d, hop_distance pair3 u d → 0 < d) →
        ((bfs_top_down_body pair3)^[0 + 1] (bfs_init pair3)).distances.getD u 0
          = NOT_VISITED_MARKER) := by
  have hD : ((bfs_top_down_body pair3)^[0 + 1] (bfs_init pair3)).distances = [0, 1, -1] := by
    decide
  refine ⟨hD, hop_distance_pair3, ?_, ?_⟩
  · intro h
    have h1 := (h 1 (by decide) 1).1 (by rw [hD]; rfl)
    omega
  · intro h
    have h1 := h 1 (by decide) (fun d hd => by
      have := hop_unique pair3 1 d 1 hd hop_distance_pair3
      omega)
    rw [hD] at h1
    exact absurd h1 (by decide)

/-- C13 (amended): on a well-formed graph with at least one vertex, with the levels numbered
`L = 0, 1, ...` as in the driver loop, after the step of level `L` of `bfs_top_down`, and
on a graph whose incoming adjacency is the transpose of the outgoing one also of
`bfs_hybrid` and of `bfs_bottom_up`, for every vertex `u` and every `d ≥ 0`:
`distances[u] = d` if and only if the shortest hop distance from the root to `u` is `d` and
`d ≤ L + 1`; and `distances[u] = -1` whenever the shortest distance of `u` exceeds `L + 1`
or `u` is unreachable. -/
theorem level_invariant (g : Graph) (hg : well_formed g) (hN : 1 ≤ g.num_nodes) (L u : Nat)
    (hu : u < g.num_nodes) :
    ((∀ d : Nat, ((bfs_top_down_body g)^[L + 1] (bfs_init g)).distances.getD u 0 = (d : Int) ↔
        (hop_distance g u d ∧ d ≤ L + 1)) ∧
      ((∀ d, hop_distance g u d → L + 1 < d) →
        ((bfs_top_down_body g)^[L + 1] (bfs_init g)).distances.getD u 0
          = NOT_VISITED_MARKER)) ∧
    (is_transpose g →
      ((∀ d : Nat, ((bfs_hybrid_body g)^[L + 1] (bfs_init g)).distances.getD u 0 = (d : Int) ↔
          (hop_distance g u d ∧ d ≤ L + 1)) ∧
        ((∀ d, hop_distance g u d → L + 1 < d) →
          ((bfs_hybrid_body g)^[L + 1] (bfs_init g)).distances.getD u 0
            = NOT_VISITED_MARKER)) ∧
      ((∀ d : Nat,
          ((bfs_bottom_up_body g)^[L + 1] (bottom_up_init g)).distances.getD u 0 = (d : Int) ↔
          (hop_distance g u d ∧ d ≤ L + 1)) ∧
        ((∀ d, hop_distance g u d → L + 1 < d) →
          ((bfs_bottom_up_body g)^[L + 1] (bottom_up_init g)).distances.getD u 0
            = NOT_VISITED_MARKER))) := by
  constructor
  · have h := iterate_inv (bfs_top_down_body g) (LevelInv g)
      (fun L s h => levelInv_top_down_body g hg hN L s h) (bfs_init g) (levelInv_init g hN)
      (L + 1)
    exact distInv_entry g (L + 1) _ h.dist u hu
  · intro ht
    constructor
    · have h := iterate_inv (bfs_hybrid_body g)
        (fun L s => LevelInv g L s ∧ s.iteration = (L : Int))
        (fun L s h => levelInv_hybrid_body g hg ht hN L s h) (bfs_init g)
        ⟨levelInv_init g hN, rfl⟩ (L + 1)
      exact distInv_entry g (L + 1) _ h.1.dist u hu
    · have h := iterate_inv (bfs_bottom_up_body g) (BottomUpInv g)
        (fun L s h => bottomUpInv_body g hg ht hN L s h) (bottom_up_init g)
        (bottomUpInv_init g hN) (L + 1)
      exact distInv_entry g (L + 1) _ h.dist u hu

/-- Witness of the amended C13 on the graph with the vertices `0, 1, 2` and the edge `0→1`,
for the vertex 1 after the step of level 0. -/
theorem level_invariant_witness :
    well_formed pair3 ∧ 1 ≤ pair3.num_nodes ∧ 1 < pair3.num_nodes ∧ is_transpose pair3 ∧
    (∀ d : Nat, ((bfs_top_down_body pair3)^[0 + 1] (bfs_init pair3)).distances.getD 1 0
        = (d : Int) ↔ (hop_distance pair3 1 d ∧ d ≤ 0 + 1)) ∧
    (∀ d : Nat, ((bfs_hybrid_body pair3)^[0 + 1] (bfs_init pair3)).distances.getD 1 0
        = (d : Int) ↔ (hop_distance pair3 1 d ∧ d ≤ 0 + 1)) ∧
    (∀ d : Nat, ((bfs_bottom_up_body pair3)^[0 + 1] (bottom_up_init pair3)).distances.getD 1 0
        = (d : Int) ↔ (hop_distance pair3 1 d ∧ d ≤ 0 + 1)) :=
  ⟨by decide, by decide, by decide, by decide,
    (level_invariant pair3 (by decide) (by decide) 0 1 (by decide)).1.1,
    ((level_invariant pair3 (by decide) (by decide) 0 1 (by decide)).2 (by decide)).1.1,
    ((level_invariant pair3 (by decide) (by decide) 0 1 (by decide)).2 (by decide)).2.1⟩

end Asst4
